import Mathlib

set_option maxRecDepth 100000

/-!
Verification development for the calendar hold-sync reconcile engine
(`hold-sync-core`): the metadata codec (`encodeSourceRef`, `decodeSourceRef`,
`holdKey`), the overlap detector (`eventRange`, `isOverlap`) and the
reconcile planner (`planReconcile`).

The TypeScript sources are embedded shallowly:
- machine numbers are `Nat`/`Int` (JavaScript numbers only hold integral
  millisecond timestamps and counters here);
- fallible code (`throw`) becomes `Except PlanError`;
- JS `undefined`-able record fields become `Option`;
- JS builtins used by the code (`Buffer` base64url, UTF-8, `JSON.stringify` /
  `JSON.parse`, `String.prototype.trim` / `indexOf`, `Date.parse` for ISO
  instants, array sort by code-unit comparison) are given executable models
  below, restricted where noted to the behaviour the repository exercises.
-/

/-! ### JS string primitives: code-unit comparison, whitespace, trim, indexOf -/

/-- Code-unit lexicographic `≤` on character lists; model of the comparison JS
uses for `Array.prototype.sort()` on strings (and, for the ASCII identifiers
this repository manipulates, of `String.prototype.localeCompare`). -/
def charListLe : List Char → List Char → Bool
  | [], _ => true
  | _ :: _, [] => false
  | a :: as, b :: bs =>
    if a.toNat < b.toNat then true
    else if b.toNat < a.toNat then false
    else charListLe as bs

/-- Code-unit lexicographic `≤` on strings. -/
def strLe (a b : String) : Bool := charListLe a.data b.data

/-- Whitespace recognised by JS `String.prototype.trim`. -/
def isTrimWs (c : Char) : Bool :=
  c.toNat = 9 ∨ c.toNat = 10 ∨ c.toNat = 11 ∨ c.toNat = 12 ∨ c.toNat = 13 ∨
  c.toNat = 32 ∨ c.toNat = 160 ∨ c.toNat = 0x2028 ∨ c.toNat = 0x2029 ∨ c.toNat = 0xFEFF

/-- JS `String.prototype.trim` on a character list. -/
def trimChars (l : List Char) : List Char :=
  ((l.dropWhile isTrimWs).reverse.dropWhile isTrimWs).reverse

/-- `pat` occurs at the head of `l`. -/
def listStartsWith : List Char → List Char → Bool
  | [], _ => true
  | _ :: _, [] => false
  | p :: ps, c :: cs => p = c && listStartsWith ps cs

/-- JS `String.prototype.indexOf`: position of the first occurrence of `pat`
in `l`, or `none` (JS returns `-1`). -/
def listIndexOfSub (pat : List Char) : List Char → Option Nat
  | [] => if pat = [] then some 0 else none
  | c :: cs =>
    if listStartsWith pat (c :: cs) then some 0
    else (listIndexOfSub pat cs).map (· + 1)

/-! ### base64url (Node `Buffer`, `base64url` encoding, unpadded)

`base64urlEncode` models `Buffer.prototype.toString("base64url")`:
3-byte groups become 4 alphabet characters, a 1- or 2-byte tail becomes 2 or
3 characters, no padding.  `base64urlDecode` models `Buffer.from(s,
"base64url")` on the strings this repository produces; unlike Node (which
silently skips characters outside the alphabet) it rejects them, which only
makes more descriptions decode to "absent". -/

def B64_ALPHABET : List Char :=
  "ABCDEFGHIJKLMNOPQRSTUVWXYZabcdefghijklmnopqrstuvwxyz0123456789-_".data

/-- Alphabet character of a 6-bit value. -/
def b64Char (n : Nat) : Char := B64_ALPHABET.getD n 'A'

def b64ValGo (c : Char) (i : Nat) : List Char → Option Nat
  | [] => none
  | a :: rest => if a = c then some i else b64ValGo c (i + 1) rest

/-- 6-bit value of an alphabet character. -/
def b64Val (c : Char) : Option Nat := b64ValGo c 0 B64_ALPHABET

def base64urlEncode : List Nat → List Char
  | b0 :: b1 :: b2 :: rest =>
    b64Char (b0 / 4) :: b64Char (b0 % 4 * 16 + b1 / 16) ::
    b64Char (b1 % 16 * 4 + b2 / 64) :: b64Char (b2 % 64) :: base64urlEncode rest
  | [b0, b1] => [b64Char (b0 / 4), b64Char (b0 % 4 * 16 + b1 / 16), b64Char (b1 % 16 * 4)]
  | [b0] => [b64Char (b0 / 4), b64Char (b0 % 4 * 16)]
  | [] => []

def base64urlDecode : List Char → Option (List Nat)
  | c0 :: c1 :: c2 :: c3 :: rest => do
    let v0 ← b64Val c0
    let v1 ← b64Val c1
    let v2 ← b64Val c2
    let v3 ← b64Val c3
    let bytes ← base64urlDecode rest
    pure ((v0 * 4 + v1 / 16) :: (v1 % 16 * 16 + v2 / 4) :: (v2 % 4 * 64 + v3) :: bytes)
  | [c0, c1, c2] => do
    let v0 ← b64Val c0
    let v1 ← b64Val c1
    let v2 ← b64Val c2
    pure [v0 * 4 + v1 / 16, v1 % 16 * 16 + v2 / 4]
  | [c0, c1] => do
    let v0 ← b64Val c0
    let v1 ← b64Val c1
    pure [v0 * 4 + v1 / 16]
  | [c0] => do
    let _ ← b64Val c0
    pure []
  | [] => pure []

/-! ### UTF-8 (Node `Buffer.from(string, "utf8")` and back) -/

def utf8EncodeChar (c : Char) : List Nat :=
  if c.toNat < 0x80 then [c.toNat]
  else if c.toNat < 0x800 then [0xC0 + c.toNat / 64, 0x80 + c.toNat % 64]
  else if c.toNat < 0x10000 then
    [0xE0 + c.toNat / 4096, 0x80 + c.toNat / 64 % 64, 0x80 + c.toNat % 64]
  else
    [0xF0 + c.toNat / 262144, 0x80 + c.toNat / 4096 % 64, 0x80 + c.toNat / 64 % 64,
     0x80 + c.toNat % 64]

def concatMap (f : α → List β) : List α → List β
  | [] => []
  | a :: l => f a ++ concatMap f l

def utf8Encode (l : List Char) : List Nat := concatMap utf8EncodeChar l

def isContByte (b : Nat) : Bool := 0x80 ≤ b ∧ b < 0xC0

/-- Decode one continuation byte after a 2-byte lead. -/
def utf8Cont1 (b0 : Nat) : List Nat → Option (Char × List Nat)
  | b1 :: rest =>
    if isContByte b1 then some (Char.ofNat ((b0 - 0xC0) * 64 + (b1 - 0x80)), rest) else none
  | [] => none

/-- Decode two continuation bytes after a 3-byte lead. -/
def utf8Cont2 (b0 : Nat) : List Nat → Option (Char × List Nat)
  | b1 :: b2 :: rest =>
    if isContByte b1 && isContByte b2 then
      some (Char.ofNat ((b0 - 0xE0) * 4096 + (b1 - 0x80) * 64 + (b2 - 0x80)), rest)
    else none
  | _ => none

/-- Decode three continuation bytes after a 4-byte lead. -/
def utf8Cont3 (b0 : Nat) : List Nat → Option (Char × List Nat)
  | b1 :: b2 :: b3 :: rest =>
    if isContByte b1 && isContByte b2 && isContByte b3 then
      some (Char.ofNat
        ((b0 - 0xF0) * 262144 + (b1 - 0x80) * 4096 + (b2 - 0x80) * 64 + (b3 - 0x80)), rest)
    else none
  | _ => none

/-- Decode one UTF-8 codepoint: the decoded character and the remaining
bytes. -/
def utf8DecodeOne (b0 : Nat) (rest : List Nat) : Option (Char × List Nat) :=
  if b0 < 0x80 then some (Char.ofNat b0, rest)
  else if b0 < 0xC0 then none
  else if b0 < 0xE0 then utf8Cont1 b0 rest
  else if b0 < 0xF0 then utf8Cont2 b0 rest
  else if b0 < 0xF8 then utf8Cont3 b0 rest
  else none

/-- Iterated codepoint decoding; the fuel only bounds the number of
codepoints (each consumes at least one byte, so the byte count suffices). -/
def utf8DecodeGo : Nat → List Nat → Option (List Char)
  | _, [] => some []
  | 0, _ :: _ => none
  | fuel + 1, b0 :: rest =>
    match utf8DecodeOne b0 rest with
    | none => none
    | some (c, rest2) => (utf8DecodeGo fuel rest2).map (c :: ·)

/-- UTF-8 decoding; `none` on a malformed byte sequence (Node would emit
replacement characters instead; such strings never pass the JSON stage the
repository feeds them to). -/
def utf8Decode (l : List Nat) : Option (List Char) :=
  utf8DecodeGo l.length l

/-! ### JSON (the fragment `JSON.stringify` / `JSON.parse` exercise here)

The codec serialises a flat object with string values and parses it back.
`jsonObjChars` is exactly what `JSON.stringify` emits for such an object
(member order = field order, no whitespace, ECMA-262 string quoting).
`jsonParseStrFields` accepts a JSON object all of whose member values are
strings; any other JSON text is rejected — in JS, `JSON.parse` would accept
some of those texts but `decodeSourceRef`'s field-type checks then reject
them, so the composite behaviour agrees. -/

def hexDigitChar (n : Nat) : Char :=
  "0123456789abcdef".data.getD n '0'

def escapeJsonChar (c : Char) : List Char :=
  if c = '"' then ['\\', '"']
  else if c = '\\' then ['\\', '\\']
  else if c.toNat = 8 then ['\\', 'b']
  else if c.toNat = 9 then ['\\', 't']
  else if c.toNat = 10 then ['\\', 'n']
  else if c.toNat = 12 then ['\\', 'f']
  else if c.toNat = 13 then ['\\', 'r']
  else if c.toNat < 0x20 then
    ['\\', 'u', '0', '0', hexDigitChar (c.toNat / 16), hexDigitChar (c.toNat % 16)]
  else [c]

/-- ECMA-262 `QuoteJSONString`. -/
def quoteJsonString (s : String) : List Char :=
  '"' :: concatMap escapeJsonChar s.data ++ ['"']

def jsonFieldChars (kv : String × String) : List Char :=
  quoteJsonString kv.1 ++ ':' :: quoteJsonString kv.2

def joinSep (sep : Char) : List (List Char) → List Char
  | [] => []
  | [x] => x
  | x :: y :: rest => x ++ sep :: joinSep sep (y :: rest)

/-- `JSON.stringify` of a flat object with string values. -/
def jsonObjChars (fields : List (String × String)) : List Char :=
  '{' :: joinSep ',' (fields.map jsonFieldChars) ++ ['}']

/-- Whitespace `JSON.parse` skips between tokens. -/
def isJsonWs (c : Char) : Bool :=
  c.toNat = 9 ∨ c.toNat = 10 ∨ c.toNat = 13 ∨ c.toNat = 32

def skipWs (l : List Char) : List Char := l.dropWhile isJsonWs

def hexVal (c : Char) : Option Nat :=
  if '0' ≤ c ∧ c ≤ '9' then some (c.toNat - 48)
  else if 'a' ≤ c ∧ c ≤ 'f' then some (c.toNat - 87)
  else if 'A' ≤ c ∧ c ≤ 'F' then some (c.toNat - 55)
  else none

/-- Four hex digits of a `\\u` escape; surrogate escapes do not round-trip
through Lean `Char` and the serialiser never emits them for the payloads at
hand, so they are rejected. -/
def parseHex4 : List Char → Option (Char × List Char)
  | h1 :: h2 :: h3 :: h4 :: rest => do
    let v1 ← hexVal h1
    let v2 ← hexVal h2
    let v3 ← hexVal h3
    let v4 ← hexVal h4
    let n := v1 * 4096 + v2 * 256 + v3 * 16 + v4
    if n < 0xD800 then some (Char.ofNat n, rest) else none
  | _ => none

/-- One JSON string escape (after the backslash). -/
def parseEsc : List Char → Option (Char × List Char)
  | [] => none
  | e :: rest =>
    if e = '"' then some ('"', rest)
    else if e = '\\' then some ('\\', rest)
    else if e = '/' then some ('/', rest)
    else if e = 'b' then some (Char.ofNat 8, rest)
    else if e = 'f' then some (Char.ofNat 12, rest)
    else if e = 'n' then some ('\n', rest)
    else if e = 'r' then some (Char.ofNat 13, rest)
    else if e = 't' then some ('\t', rest)
    else if e = 'u' then parseHex4 rest
    else none

/-- Body of a JSON string (after the opening quote): the decoded characters
and the input remaining after the closing quote.  The fuel bounds the number
of decoded characters; each consumes at least one input character. -/
def parseStrGo : Nat → List Char → Option (List Char × List Char)
  | _, [] => none
  | 0, _ :: _ => none
  | fuel + 1, c :: rest =>
    if c = '"' then some ([], rest)
    else if c = '\\' then
      (parseEsc rest).bind (fun er => (parseStrGo fuel er.2).map (fun p => (er.1 :: p.1, p.2)))
    else if c.toNat < 0x20 then none
    else (parseStrGo fuel rest).map (fun p => (c :: p.1, p.2))

/-- A JSON string literal (with its quotes). -/
def parseJsonString (l : List Char) : Option (String × List Char) :=
  match l with
  | c :: body =>
    if c = '"' then (parseStrGo body.length body).map (fun p => (⟨p.1⟩, p.2)) else none
  | [] => none

/-- Expect a single `':'` token. -/
def expectColon : List Char → Option (List Char)
  | c :: rest => if c = ':' then some rest else none
  | [] => none

/-- One `"key":"value"` member. -/
def parseJsonMember (l : List Char) : Option ((String × String) × List Char) :=
  (parseJsonString l).bind (fun kr =>
    (expectColon (skipWs kr.2)).bind (fun r2 =>
      (parseJsonString (skipWs r2)).bind (fun vr => some ((kr.1, vr.1), vr.2))))

/-- After a member: `','` continues the member list, `'}'` closes the
object. -/
def memberSep : List Char → Option (Bool × List Char)
  | c :: rest =>
    if c = ',' then some (true, rest)
    else if c = '}' then some (false, rest)
    else none
  | [] => none

/-- The members of a JSON object, positioned at the first member's opening
quote; consumes the closing `}`.  The fuel bounds the number of members. -/
def parseJsonMembers (fuel : Nat) (l : List Char) : Option (List (String × String) × List Char) :=
  match fuel with
  | 0 => none
  | fuel + 1 =>
    (parseJsonMember l).bind (fun kvr =>
      (memberSep (skipWs kvr.2)).bind (fun sepr =>
        if sepr.1 then
          (parseJsonMembers fuel (skipWs sepr.2)).map (fun mr => (kvr.1 :: mr.1, mr.2))
        else some ([kvr.1], sepr.2)))

/-- Expect a single `'{'` token. -/
def expectOpenBrace : List Char → Option (List Char)
  | c :: rest => if c = '{' then some rest else none
  | [] => none

/-- `JSON.parse`, specialised to objects with string member values; `none`
for every other JSON text (see the section comment). -/
def jsonParseStrFields (l : List Char) : Option (List (String × String)) :=
  (expectOpenBrace (skipWs l)).bind (fun r =>
    if (skipWs r).head? = some '}' then
      (if skipWs (skipWs r).tail = [] then some [] else none)
    else
      (parseJsonMembers (l.length + 1) (skipWs r)).bind (fun fr =>
        if skipWs fr.2 = [] then some fr.1 else none))

/-- Last binding of `k` (JSON objects take the last duplicate member,
matching `JSON.parse`). -/
def lastField (fields : List (String × String)) (k : String) : Option String :=
  fields.foldl (fun acc kv => if kv.1 = k then some kv.2 else acc) none

/-! ### Data model (`types.ts`) -/

structure ReminderOverride where
  method : String
  minutes : Int
deriving DecidableEq, Repr

structure Reminders where
  useDefault : Option Bool := none
  overrides : Option (List ReminderOverride) := none
deriving DecidableEq, Repr

structure GogEventTime where
  dateTime : Option String := none
  date : Option String := none
  timeZone : Option String := none
deriving DecidableEq, Repr

structure GogEvent where
  id : String
  etag : Option String := none
  updated : Option String := none
  summary : Option String := none
  description : Option String := none
  status : Option String := none
  visibility : Option String := none
  transparency : Option String := none
  start : GogEventTime
  «end» : GogEventTime
  reminders : Option Reminders := none
deriving DecidableEq, Repr

structure SourceRef where
  srcAccount : String
  srcCalendar : String
  eventId : String
  start : String
  «end» : String
  title : String
deriving DecidableEq, Repr

inductive OverlapPolicy where
  | skip
  | allow
deriving DecidableEq, Repr

structure DesiredHold where
  source : SourceRef
  event : GogEvent
deriving DecidableEq, Repr

inductive ReconcileAction where
  | create (desired : DesiredHold)
  | update (existing : GogEvent) (desired : DesiredHold)
  | delete (existing : GogEvent)
  | skip_overlap (desired : DesiredHold) (blockingEventId : String)
deriving DecidableEq, Repr

structure ReconcilePlan where
  actions : List ReconcileAction
  desiredCount : Nat
  existingManagedCount : Nat
  capped : Bool
deriving DecidableEq, Repr

/-! ### Metadata codec (`metadata.ts`) -/

/-- `METADATA_PREFIX` in the source. -/
def METADATA_TAG : String := "SYNCV1:"

/-- Field list `JSON.stringify` serialises for a `SourceRef` (declaration
order of the record). -/
def sourceRefFields (source : SourceRef) : List (String × String) :=
  [("srcAccount", source.srcAccount), ("srcCalendar", source.srcCalendar),
   ("eventId", source.eventId), ("start", source.start),
   ("end", source.«end»), ("title", source.title)]

def encodeSourceRef (source : SourceRef) : String :=
  METADATA_TAG ++ ⟨base64urlEncode (utf8Encode (jsonObjChars (sourceRefFields source)))⟩

/-- Reassemble a `SourceRef` from parsed JSON members, checking that all six
fields are present as strings (the `typeof` guards in the source). -/
def sourceRefOfFields (fields : List (String × String)) : Option SourceRef :=
  match lastField fields "srcAccount", lastField fields "srcCalendar",
        lastField fields "eventId", lastField fields "start",
        lastField fields "end", lastField fields "title" with
  | some a, some c, some e, some s, some en, some t => some ⟨a, c, e, s, en, t⟩
  | _, _, _, _, _, _ => none

def decodeSourceRef : Option String → Option SourceRef
  | none => none
  | some str =>
    if str = "" then none
    else
      (listIndexOfSub METADATA_TAG.data str.data).bind (fun index =>
        if trimChars (str.data.drop (index + METADATA_TAG.data.length)) = [] then none
        else
          (base64urlDecode (trimChars (str.data.drop (index + METADATA_TAG.data.length)))).bind
            (fun bytes =>
              (utf8Decode bytes).bind (fun jsonChars =>
                (jsonParseStrFields jsonChars).bind (fun fields => sourceRefOfFields fields))))

def holdKey (source : SourceRef) : String :=
  source.srcAccount ++ "::" ++ source.srcCalendar ++ "::" ++ source.eventId ++
  "::" ++ source.start ++ "::" ++ source.«end»

/-! ### Overlap detector (`overlap.ts`)

`Date.parse` is modelled for the ISO-8601 UTC instants the repository works
with: `YYYY-MM-DD`, optionally followed by `THH:MM`, `THH:MM:SS` or
`THH:MM:SS.sss`, each terminated by `Z`.  Forms without a trailing `Z`
(which JS would interpret in the host's local time zone) and the other
legacy formats `Date.parse` tolerates are outside the model and parse to
`none` (= `NaN`). -/

def isDigitCh (c : Char) : Bool := '0' ≤ c ∧ c ≤ '9'

def digitVal (c : Char) : Nat := c.toNat - 48

def isLeapYear (y : Int) : Bool := (y % 4 = 0 ∧ y % 100 ≠ 0) ∨ y % 400 = 0

def daysInMonth (y m : Int) : Int :=
  if m = 2 then (if isLeapYear y then 29 else 28)
  else if m = 4 ∨ m = 6 ∨ m = 9 ∨ m = 11 then 30
  else 31

/-- Days since 1970-01-01 of a civil date (proleptic Gregorian). -/
def daysFromCivil (y m d : Int) : Int :=
  let y2 := if m ≤ 2 then y - 1 else y
  let era := y2 / 400
  let yoe := y2 - era * 400
  let mp := (m + 9) % 12
  let doy := (153 * mp + 2) / 5 + d - 1
  let doe := yoe * 365 + yoe / 4 - yoe / 100 + doy
  era * 146097 + doe - 719468

/-- Time-of-day part after the `T`: `HH:MM`, `HH:MM:SS` or `HH:MM:SS.sss`,
terminated by `Z`; value in milliseconds. -/
def parseTimePart (l : List Char) : Option Int :=
  match l with
  | h1 :: h2 :: ':' :: m1 :: m2 :: rest =>
    if isDigitCh h1 ∧ isDigitCh h2 ∧ isDigitCh m1 ∧ isDigitCh m2 then
      let hh := digitVal h1 * 10 + digitVal h2
      let mi := digitVal m1 * 10 + digitVal m2
      if hh ≤ 23 ∧ mi ≤ 59 then
        let base : Int := (hh * 3600000 + mi * 60000 : Nat)
        match rest with
        | ['Z'] => some base
        | ':' :: s1 :: s2 :: rest2 =>
          if isDigitCh s1 ∧ isDigitCh s2 ∧ digitVal s1 * 10 + digitVal s2 ≤ 59 then
            let ss : Int := (digitVal s1 * 10000 + digitVal s2 * 1000 : Nat)
            match rest2 with
            | ['Z'] => some (base + ss)
            | ['.', f1, 'Z'] =>
              if isDigitCh f1 then some (base + ss + (digitVal f1 * 100 : Nat)) else none
            | ['.', f1, f2, 'Z'] =>
              if isDigitCh f1 ∧ isDigitCh f2 then
                some (base + ss + (digitVal f1 * 100 + digitVal f2 * 10 : Nat))
              else none
            | ['.', f1, f2, f3, 'Z'] =>
              if isDigitCh f1 ∧ isDigitCh f2 ∧ isDigitCh f3 then
                some (base + ss + (digitVal f1 * 100 + digitVal f2 * 10 + digitVal f3 : Nat))
              else none
            | _ => none
          else none
        | _ => none
      else none
    else none
  | _ => none

/-- Model of `Date.parse` (see the section comment); `none` is `NaN`. -/
def dateParse (s : String) : Option Int :=
  match s.data with
  | y1 :: y2 :: y3 :: y4 :: '-' :: m1 :: m2 :: '-' :: d1 :: d2 :: rest =>
    if isDigitCh y1 ∧ isDigitCh y2 ∧ isDigitCh y3 ∧ isDigitCh y4 ∧
       isDigitCh m1 ∧ isDigitCh m2 ∧ isDigitCh d1 ∧ isDigitCh d2 then
      let y : Int := (digitVal y1 * 1000 + digitVal y2 * 100 + digitVal y3 * 10 + digitVal y4 : Nat)
      let m : Int := (digitVal m1 * 10 + digitVal m2 : Nat)
      let d : Int := (digitVal d1 * 10 + digitVal d2 : Nat)
      if 1 ≤ m ∧ m ≤ 12 ∧ 1 ≤ d ∧ d ≤ daysInMonth y m then
        let dayMs := daysFromCivil y m d * 86400000
        match rest with
        | [] => some dayMs
        | 'T' :: t => (parseTimePart t).map (dayMs + ·)
        | _ => none
      else none
    else none
  | _ => none

inductive PlanError where
  | invalidDate (value : String)
  | missingFields (eventId : String)
deriving DecidableEq, Repr

/-- `parseIso` in the source: `Date.parse`, throwing on `NaN`. -/
def parseIso (value : String) : Except PlanError Int :=
  match dateParse value with
  | some ts => .ok ts
  | none => .error (.invalidDate value)

/-- JS truthiness of an optional string field: `undefined` and `""` are
falsy. -/
def truthy : Option String → Bool
  | none => false
  | some s => !(s == "")

def eventRange (event : GogEvent) : Except PlanError (Int × Int) :=
  if truthy event.start.dateTime && truthy event.«end».dateTime then do
    let startMs ← parseIso (event.start.dateTime.getD "")
    let endMs ← parseIso (event.«end».dateTime.getD "")
    pure (startMs, endMs)
  else if truthy event.start.date && truthy event.«end».date then do
    let startMs ← parseIso (event.start.date.getD "" ++ "T00:00:00.000Z")
    let endMs ← parseIso (event.«end».date.getD "" ++ "T00:00:00.000Z")
    pure (startMs, endMs)
  else .error (.missingFields event.id)

def isOverlap (a b : GogEvent) : Except PlanError Bool := do
  let x ← eventRange a
  let y ← eventRange b
  pure (decide (x.1 < y.2) && decide (y.1 < x.2))

/-! ### Reconcile planner (`reconcile.ts`)

The source accumulates plan state through a `@tanstack/store` `Store`; every
`setState` is a pure functional update of `{actions, changes, capped}`, so
the state is threaded explicitly here.  The repeated
"check budget / set `capped` or append + count" block is factored into
`tryMutate`.  `planCore` is the planner parametrised by that mutation step;
`planReconcile` instantiates it with the budget-checked step. -/

def isEquivalent (existing desired : GogEvent) : Bool :=
  existing.summary == desired.summary &&
  existing.description == desired.description &&
  existing.visibility == desired.visibility &&
  existing.transparency == desired.transparency &&
  existing.start.dateTime == desired.start.dateTime &&
  existing.start.date == desired.start.date &&
  existing.«end».dateTime == desired.«end».dateTime &&
  existing.«end».date == desired.«end».date

def splitManaged : List GogEvent → List GogEvent × List GogEvent
  | [] => ([], [])
  | event :: rest =>
    let p := splitManaged rest
    if (decodeSourceRef event.description).isSome then (event :: p.1, p.2)
    else (p.1, event :: p.2)

/-- Stable insertion for `sortById`. -/
def insertById (a : GogEvent) : List GogEvent → List GogEvent
  | [] => [a]
  | b :: bs => if strLe a.id b.id then a :: b :: bs else b :: insertById a bs

/-- `managed.sort((a, b) => a.id.localeCompare(b.id))`: stable sort by id. -/
def sortById : List GogEvent → List GogEvent
  | [] => []
  | x :: xs => insertById x (sortById xs)

def insertStr (s : String) : List String → List String
  | [] => [s]
  | b :: bs => if strLe s b then s :: b :: bs else b :: insertStr s bs

/-- `[...keys()].sort()`: code-unit ascending sort. -/
def sortStrs : List String → List String
  | [] => []
  | x :: xs => insertStr x (sortStrs xs)

/-- JS `Map` with list values, keyed by insertion order:
`map.set(k, (map.get(k) ?? []).concat([e]))`. -/
def bucketsInsert (m : List (String × List GogEvent)) (k : String) (e : GogEvent) :
    List (String × List GogEvent) :=
  match m with
  | [] => [(k, [e])]
  | (k2, l) :: rest =>
    if k2 = k then (k2, l ++ [e]) :: rest else (k2, l) :: bucketsInsert rest k e

def buildManagedByKey (sortedManaged : List GogEvent) : List (String × List GogEvent) :=
  sortedManaged.foldl
    (fun m event =>
      match decodeSourceRef event.description with
      | none => m   -- `if (!source) continue` (unreachable: only managed events reach here)
      | some source => bucketsInsert m (holdKey source) event)
    []

/-- JS `Map.get`: first (unique) matching key. -/
def mapGet (m : List (String × α)) (k : String) : Option α :=
  match m with
  | [] => none
  | (k2, v) :: rest => if k2 = k then some v else mapGet rest k

/-- JS `Map.set` with a plain value: replace in place or append. -/
def desiredInsert (m : List (String × DesiredHold)) (k : String) (d : DesiredHold) :
    List (String × DesiredHold) :=
  match m with
  | [] => [(k, d)]
  | (k2, v) :: rest =>
    if k2 = k then (k2, d) :: rest else (k2, v) :: desiredInsert rest k d

def buildDesiredByKey (desiredHolds : List DesiredHold) : List (String × DesiredHold) :=
  desiredHolds.foldl (fun m d => desiredInsert m (holdKey d.source) d) []

def mapKeys (m : List (String × α)) : List String := m.map Prod.fst

structure PlanState where
  actions : List ReconcileAction
  changes : Nat
  capped : Bool
deriving DecidableEq, Repr

def initState : PlanState := ⟨[], 0, false⟩

/-- The budget-gated mutation block of the source: if the change counter has
reached `maxChangesPerRun`, set `capped`; otherwise append the action and
count it. -/
def tryMutate (maxChangesPerRun : Nat) (st : PlanState) (action : ReconcileAction) : PlanState :=
  if st.changes ≥ maxChangesPerRun then { st with capped := true }
  else { st with actions := st.actions ++ [action], changes := st.changes + 1 }

/-- The same block with the budget check removed: used to express "the
mutations required to converge". -/
def freeMutate (st : PlanState) (action : ReconcileAction) : PlanState :=
  { st with actions := st.actions ++ [action], changes := st.changes + 1 }

/-- `unmanaged.find((candidate) => isOverlap(candidate, desired.event))`;
an exception from the callback propagates. -/
def findBlocker (unmanaged : List GogEvent) (desiredEvent : GogEvent) :
    Except PlanError (Option GogEvent) :=
  match unmanaged with
  | [] => .ok none
  | candidate :: rest => do
    let b ← isOverlap candidate desiredEvent
    if b then pure (some candidate) else findBlocker rest desiredEvent

/-- Desired-key pass body (the first `for` loop of `planReconcile`). -/
def processDesiredKey (mutate : PlanState → ReconcileAction → PlanState)
    (unmanaged : List GogEvent) (managedByKey : List (String × List GogEvent))
    (desiredByKey : List (String × DesiredHold)) (overlapPolicy : OverlapPolicy)
    (st : PlanState) (key : String) : Except PlanError PlanState :=
  match mapGet desiredByKey key with
  | none => .ok st   -- `if (!desired) continue` (unreachable: key comes from the map)
  | some desired =>
    match (mapGet managedByKey key).getD [] with
    | [] =>
      match overlapPolicy with
      | .skip => do
        let blocker ← findBlocker unmanaged desired.event
        match blocker with
        | some b =>
          pure { st with actions := st.actions ++ [.skip_overlap desired b.id] }
        | none => pure (mutate st (.create desired))
      | .allow => pure (mutate st (.create desired))
    | primary :: duplicates =>
      let st1 :=
        if isEquivalent primary desired.event then st
        else mutate st (.update primary desired)
      pure (duplicates.foldl (fun s dup => mutate s (.delete dup)) st1)

/-- Stale-key pass body (the second `for` loop of `planReconcile`). -/
def processStaleKey (mutate : PlanState → ReconcileAction → PlanState)
    (managedByKey : List (String × List GogEvent))
    (desiredByKey : List (String × DesiredHold))
    (st : PlanState) (key : String) : PlanState :=
  if (mapGet desiredByKey key).isSome then st
  else ((mapGet managedByKey key).getD []).foldl (fun s stale => mutate s (.delete stale)) st

/-- The planner parametrised by the mutation step. -/
def planCore (mutate : PlanState → ReconcileAction → PlanState)
    (desiredHolds : List DesiredHold) (targetEvents : List GogEvent)
    (overlapPolicy : OverlapPolicy) : Except PlanError PlanState := do
  let split := splitManaged targetEvents
  let managedByKey := buildManagedByKey (sortById split.1)
  let desiredByKey := buildDesiredByKey desiredHolds
  let st1 ← (sortStrs (mapKeys desiredByKey)).foldlM
    (processDesiredKey mutate split.2 managedByKey desiredByKey overlapPolicy) initState
  pure ((sortStrs (mapKeys managedByKey)).foldl
    (processStaleKey mutate managedByKey desiredByKey) st1)

def planReconcile (desiredHolds : List DesiredHold) (targetEvents : List GogEvent)
    (overlapPolicy : OverlapPolicy) (maxChangesPerRun : Nat) :
    Except PlanError ReconcilePlan := do
  let st ← planCore (tryMutate maxChangesPerRun) desiredHolds targetEvents overlapPolicy
  pure { actions := st.actions, desiredCount := desiredHolds.length,
         existingManagedCount := (splitManaged targetEvents).1.length,
         capped := st.capped }

/-- The planner with the budget guard removed: its action list is the full
set of operations needed to converge ("required mutations"). -/
def planFree (desiredHolds : List DesiredHold) (targetEvents : List GogEvent)
    (overlapPolicy : OverlapPolicy) : Except PlanError PlanState :=
  planCore freeMutate desiredHolds targetEvents overlapPolicy

def isMutating : ReconcileAction → Bool
  | .create _ => true
  | .update _ _ => true
  | .delete _ => true
  | .skip_overlap _ _ => false

/-- Number of mutating (`create`/`update`/`delete`) actions. -/
def mutCount (l : List ReconcileAction) : Nat := (l.filter isMutating).length

/-- Number of `skip_overlap` actions. -/
def skipCount (l : List ReconcileAction) : Nat := (l.filter (fun a => !isMutating a)).length

/-! ### Key characterization (claim C9) -/

/-- `l` contains two adjacent `':'` characters. -/
def hasDColon : List Char → Bool
  | [] => false
  | [_] => false
  | c1 :: c2 :: rest => (c1 == ':' && c2 == ':') || hasDColon (c2 :: rest)

/-- A field that cannot disturb the `"::"`-joined key: it does not contain
the delimiter `"::"` and does not end with the delimiter character. -/
def delimSafe (s : String) : Prop :=
  hasDColon s.data = false ∧ s.data.getLast? ≠ some ':'

instance (s : String) : Decidable (delimSafe s) := by
  unfold delimSafe; infer_instance

/-- The four fields of a `SourceRef` that stand left of a delimiter in
`holdKey` are `delimSafe`. -/
def keyFieldsDelimSafe (s : SourceRef) : Prop :=
  delimSafe s.srcAccount ∧ delimSafe s.srcCalendar ∧ delimSafe s.eventId ∧ delimSafe s.start

instance (s : SourceRef) : Decidable (keyFieldsDelimSafe s) := by
  unfold keyFieldsDelimSafe; infer_instance

/-- Split a character list at the leftmost occurrence of `"::"`. -/
def splitFirstDColon : List Char → Option (List Char × List Char)
  | [] => none
  | c1 :: rest =>
    if c1 = ':' ∧ rest.head? = some ':' then some ([], rest.tail)
    else (splitFirstDColon rest).map (fun p => (c1 :: p.1, p.2))

/-- The leftmost `"::"` of `f ++ "::" ++ t` is the displayed one when `f` is
delimiter-safe. -/
theorem splitFirstDColon_append (f : List Char) :
    ∀ t : List Char, hasDColon f = false → f.getLast? ≠ some ':' →
    splitFirstDColon (f ++ ':' :: ':' :: t) = some (f, t) := by
  induction f with
  | nil => intro t _ _; simp [splitFirstDColon]
  | cons x xs ih =>
    intro t hnd hlast
    cases xs with
    | nil =>
      have hx : ¬(x = ':') := fun hx => hlast (by simp [hx])
      simp [splitFirstDColon, hx]
    | cons y ys =>
      have hnd0 : ¬(x = ':' ∧ y = ':') ∧ hasDColon (y :: ys) = false := by
        unfold hasDColon at hnd
        simp only [Bool.or_eq_false_iff, Bool.and_eq_false_iff, beq_eq_false_iff_ne] at hnd
        exact ⟨fun ⟨ha, hb⟩ => by rcases hnd.1 with h | h; exacts [h ha, h hb], hnd.2⟩
      have hlast2 : (y :: ys).getLast? ≠ some ':' := by
        rw [List.getLast?_cons_cons] at hlast
        exact hlast
      have hrec := ih t hnd0.2 hlast2
      have hcond : ¬(x = ':' ∧ (y :: ys ++ ':' :: ':' :: t).head? = some ':') := by
        rintro ⟨hx, hy⟩
        simp only [List.cons_append, List.head?_cons, Option.some.injEq] at hy
        exact hnd0.1 ⟨hx, hy⟩
      rw [List.cons_append, splitFirstDColon, if_neg hcond, hrec]
      rfl

theorem splitSepInj (a c r1 r2 : List Char)
    (ha1 : hasDColon a = false) (ha2 : a.getLast? ≠ some ':')
    (hc1 : hasDColon c = false) (hc2 : c.getLast? ≠ some ':')
    (h : a ++ ':' :: ':' :: r1 = c ++ ':' :: ':' :: r2) : a = c ∧ r1 = r2 := by
  have h1 := splitFirstDColon_append a r1 ha1 ha2
  have h2 := splitFirstDColon_append c r2 hc1 hc2
  rw [h, h2] at h1
  simp only [Option.some.injEq, Prod.mk.injEq] at h1
  exact ⟨h1.1.symm, h1.2.symm⟩

theorem holdKey_data (s : SourceRef) :
    (holdKey s).data =
      s.srcAccount.data ++ ':' :: ':' :: (s.srcCalendar.data ++ ':' :: ':' ::
        (s.eventId.data ++ ':' :: ':' :: (s.start.data ++ ':' :: ':' :: s.«end».data))) := by
  show (s.srcAccount ++ "::" ++ s.srcCalendar ++ "::" ++ s.eventId ++ "::" ++
    s.start ++ "::" ++ s.«end»).data = _
  simp only [String.data_append, List.append_assoc]
  rfl

/-- C9: for `SourceRef`s whose leading key fields avoid the `"::"` delimiter
(no field contains `"::"` or ends in `':'` — in particular all realistic
account names, calendar ids, event ids and ISO instants), `holdKey s1 =
holdKey s2` iff the two refs agree on `srcAccount`, `srcCalendar`,
`eventId`, `start` and `end`; the title never affects the key. -/
theorem claim_C9 (s1 s2 : SourceRef)
    (h1 : keyFieldsDelimSafe s1) (h2 : keyFieldsDelimSafe s2) :
    (holdKey s1 = holdKey s2 ↔
      s1.srcAccount = s2.srcAccount ∧ s1.srcCalendar = s2.srcCalendar ∧
      s1.eventId = s2.eventId ∧ s1.start = s2.start ∧ s1.«end» = s2.«end») ∧
    (∀ t : String, holdKey { s1 with title := t } = holdKey s1) := by
  refine ⟨⟨fun h => ?_, fun h => ?_⟩, fun t => rfl⟩
  · have hd := congrArg String.data h
    rw [holdKey_data, holdKey_data] at hd
    obtain ⟨e1, hd⟩ := splitSepInj _ _ _ _ h1.1.1 h1.1.2 h2.1.1 h2.1.2 hd
    obtain ⟨e2, hd⟩ := splitSepInj _ _ _ _ h1.2.1.1 h1.2.1.2 h2.2.1.1 h2.2.1.2 hd
    obtain ⟨e3, hd⟩ := splitSepInj _ _ _ _ h1.2.2.1.1 h1.2.2.1.2 h2.2.2.1.1 h2.2.2.1.2 hd
    obtain ⟨e4, e5⟩ := splitSepInj _ _ _ _ h1.2.2.2.1 h1.2.2.2.2 h2.2.2.2.1 h2.2.2.2.2 hd
    exact ⟨String.ext e1, String.ext e2, String.ext e3, String.ext e4, String.ext e5⟩
  · obtain ⟨a, b, c, d, e⟩ := h
    unfold holdKey
    rw [a, b, c, d, e]

def refTitleA : SourceRef :=
  ⟨"src@example.com", "work", "ev1", "2026-03-01T14:00:00.000Z", "2026-03-01T15:00:00.000Z", "Title one"⟩
def refTitleB : SourceRef :=
  ⟨"src@example.com", "work", "ev1", "2026-03-01T14:00:00.000Z", "2026-03-01T15:00:00.000Z", "Title two"⟩

theorem claim_C9_witness :
    keyFieldsDelimSafe refTitleA ∧ keyFieldsDelimSafe refTitleB ∧
    ((holdKey refTitleA = holdKey refTitleB ↔
      refTitleA.srcAccount = refTitleB.srcAccount ∧
      refTitleA.srcCalendar = refTitleB.srcCalendar ∧
      refTitleA.eventId = refTitleB.eventId ∧
      refTitleA.start = refTitleB.start ∧ refTitleA.«end» = refTitleB.«end») ∧
    (∀ t : String, holdKey { refTitleA with title := t } = holdKey refTitleA)) :=
  ⟨by decide, by decide, claim_C9 refTitleA refTitleB (by decide) (by decide)⟩

def refColA : SourceRef := ⟨"a::b", "c", "ev", "s", "t", "x"⟩
def refColB : SourceRef := ⟨"a", "b::c", "ev", "s", "t", "x"⟩

/-- The unrestricted C9 claim is false: fields containing the delimiter make
two `SourceRef`s that differ on `srcAccount` (and `srcCalendar`) collide on
the same hold key. -/
theorem claim_C9_cex :
    holdKey refColA = holdKey refColB ∧ refColA.srcAccount ≠ refColB.srcAccount := by
  constructor
  · rfl
  · decide

/-! ### Concrete stale-vs-fresh scenario (claim C6) -/

def srcFresh : SourceRef :=
  ⟨"source@example.com", "work", "fresh", "2026-03-01T12:00:00.000Z", "2026-03-01T12:30:00.000Z", "1:1"⟩

def srcStale : SourceRef :=
  ⟨"source@example.com", "work", "stale", "2026-03-02T12:00:00.000Z", "2026-03-02T12:30:00.000Z", "Old"⟩

/-- The desired hold for `fresh`, shaped as the driver builds it. -/
def desiredFresh : DesiredHold :=
  { source := srcFresh,
    event := { id := "desired-fresh", summary := some "Busy",
               visibility := some "private", transparency := some "busy",
               description := some (encodeSourceRef srcFresh),
               start := { dateTime := some srcFresh.start },
               «end» := { dateTime := some srcFresh.«end» },
               reminders := some { useDefault := some false, overrides := some [] } } }

/-- The managed target event still tagged for the old source event `stale`. -/
def staleEvent : GogEvent :=
  { id := "managed-stale", summary := some "Busy", visibility := some "private",
    transparency := some "busy", description := some (encodeSourceRef srcStale),
    start := { dateTime := some srcStale.start },
    «end» := { dateTime := some srcStale.«end» } }

def planActionsOf (r : Except PlanError ReconcilePlan) : Option (List ReconcileAction) :=
  match r with
  | .ok p => some p.actions
  | .error _ => none

instance : DecidableEq (Except PlanError ReconcilePlan)
  | .ok a, .ok b => decidable_of_iff (a = b) (by simp)
  | .ok _, .error _ => isFalse (by simp)
  | .error _, .ok _ => isFalse (by simp)
  | .error a, .error b => decidable_of_iff (a = b) (by simp)

set_option maxHeartbeats 4000000 in
/-- C6, with the action order the code actually produces: the desired-key
pass runs first, so the plan is `[create(fresh), delete(stale)]` —
`create` before `delete`, not the other way around. -/
theorem claim_C6 :
    planReconcile [desiredFresh] [staleEvent] OverlapPolicy.allow 10 =
      .ok { actions := [.create desiredFresh, .delete staleEvent],
            desiredCount := 1, existingManagedCount := 1, capped := false } := by
  decide

set_option maxHeartbeats 4000000 in
/-- The claimed order `[delete(stale), create(fresh)]` is not what
`planReconcile` returns on the scenario's input. -/
theorem claim_C6_cex :
    planActionsOf (planReconcile [desiredFresh] [staleEvent] OverlapPolicy.allow 10) ≠
      some [.delete staleEvent, .create desiredFresh] := by
  decide

/-! ### Codec round trip (claim C8): base64url layer -/

theorem b64Val_b64Char_fin : ∀ n : Fin 64, b64Val (b64Char n.val) = some n.val := by
  decide

theorem b64Val_b64Char {n : Nat} (h : n < 64) : b64Val (b64Char n) = some n :=
  b64Val_b64Char_fin ⟨n, h⟩

theorem base64url_roundtrip :
    ∀ bytes : List Nat, (∀ b ∈ bytes, b < 256) →
    base64urlDecode (base64urlEncode bytes) = some bytes
  | [], _ => rfl
  | [b0], h => by
    have hb0 : b0 < 256 := h b0 (by simp)
    simp only [base64urlEncode, base64urlDecode,
      b64Val_b64Char (show b0 / 4 < 64 by omega),
      b64Val_b64Char (show b0 % 4 * 16 < 64 by omega)]
    simp only [Option.bind_eq_bind, Option.some_bind]
    congr 2
    omega
  | [b0, b1], h => by
    have hb0 : b0 < 256 := h b0 (by simp)
    have hb1 : b1 < 256 := h b1 (by simp)
    simp only [base64urlEncode, base64urlDecode,
      b64Val_b64Char (show b0 / 4 < 64 by omega),
      b64Val_b64Char (show b0 % 4 * 16 + b1 / 16 < 64 by omega),
      b64Val_b64Char (show b1 % 16 * 4 < 64 by omega)]
    simp only [Option.bind_eq_bind, Option.some_bind]
    congr 2
    · omega
    · congr 1
      omega
  | b0 :: b1 :: b2 :: rest, h => by
    have hb0 : b0 < 256 := h b0 (by simp)
    have hb1 : b1 < 256 := h b1 (by simp)
    have hb2 : b2 < 256 := h b2 (by simp)
    have hrest : ∀ b ∈ rest, b < 256 := fun b hb => h b (by simp [hb])
    have ih := base64url_roundtrip rest hrest
    simp only [base64urlEncode, base64urlDecode,
      b64Val_b64Char (show b0 / 4 < 64 by omega),
      b64Val_b64Char (show b0 % 4 * 16 + b1 / 16 < 64 by omega),
      b64Val_b64Char (show b1 % 16 * 4 + b2 / 64 < 64 by omega),
      b64Val_b64Char (show b2 % 64 < 64 by omega), ih]
    simp only [Option.bind_eq_bind, Option.some_bind]
    congr 2
    · omega
    · congr 1
      · omega
      · congr 1
        omega


/-! ### Codec round trip (claim C8): UTF-8 layer -/

theorem char_toNat_lt (c : Char) : c.toNat < 1114112 := by
  rcases c.valid with h | ⟨_, h2⟩
  · exact Nat.lt_trans h (by norm_num)
  · exact h2

theorem char_eq_of_toNat {c : Char} {n : Nat} (h : c.toNat = n) : Char.ofNat n = c := by
  rw [← h, Char.ofNat_toNat]

theorem utf8EncodeChar_lt (c : Char) : ∀ b ∈ utf8EncodeChar c, b < 256 := by
  intro b hb
  have hv := char_toNat_lt c
  unfold utf8EncodeChar at hb
  split_ifs at hb <;> simp at hb <;> omega

theorem utf8Encode_lt (l : List Char) : ∀ b ∈ utf8Encode l, b < 256 := by
  induction l with
  | nil => intro b hb; simp [utf8Encode, concatMap] at hb
  | cons c cs ih =>
    intro b hb
    simp only [utf8Encode, concatMap, List.mem_append] at hb
    rcases hb with hb | hb
    · exact utf8EncodeChar_lt c b hb
    · exact ih b hb

theorem utf8EncodeChar_length_pos (c : Char) : 1 ≤ (utf8EncodeChar c).length := by
  unfold utf8EncodeChar
  split_ifs <;> simp

theorem utf8Encode_length_ge (l : List Char) : l.length ≤ (utf8Encode l).length := by
  induction l with
  | nil => simp [utf8Encode, concatMap]
  | cons c cs ih =>
    show (c :: cs).length ≤ (utf8EncodeChar c ++ utf8Encode cs).length
    rw [List.length_append, List.length_cons]
    have := utf8EncodeChar_length_pos c
    omega

theorem utf8DecodeOne_enc (c : Char) (tail : List Nat) :
    ∃ b0 r, utf8EncodeChar c ++ tail = b0 :: r ∧ utf8DecodeOne b0 r = some (c, tail) := by
  have hv := char_toNat_lt c
  unfold utf8EncodeChar
  by_cases h1 : c.toNat < 0x80
  · refine ⟨c.toNat, tail, by rw [if_pos h1]; rfl, ?_⟩
    unfold utf8DecodeOne
    rw [if_pos h1, char_eq_of_toNat rfl]
  · by_cases h2 : c.toNat < 0x800
    · refine ⟨0xC0 + c.toNat / 64, (0x80 + c.toNat % 64) :: tail, ?_, ?_⟩
      · rw [if_neg h1, if_pos h2]; rfl
      · unfold utf8DecodeOne
        rw [if_neg (by omega), if_neg (by omega), if_pos (by omega)]
        rw [utf8Cont1, if_pos (by simp [isContByte]; omega)]
        have e1 : 0xC0 + c.toNat / 64 - 0xC0 = c.toNat / 64 := by omega
        have e2 : 0x80 + c.toNat % 64 - 0x80 = c.toNat % 64 := by omega
        rw [e1, e2, char_eq_of_toNat (show c.toNat = _ by omega)]
    · by_cases h3 : c.toNat < 0x10000
      · refine ⟨0xE0 + c.toNat / 4096,
          (0x80 + c.toNat / 64 % 64) :: (0x80 + c.toNat % 64) :: tail, ?_, ?_⟩
        · rw [if_neg h1, if_neg h2, if_pos h3]; rfl
        · unfold utf8DecodeOne
          rw [if_neg (by omega), if_neg (by omega), if_neg (by omega), if_pos (by omega)]
          rw [utf8Cont2, if_pos (by simp [isContByte]; omega)]
          have e1 : 0xE0 + c.toNat / 4096 - 0xE0 = c.toNat / 4096 := by omega
          have e2 : 0x80 + c.toNat / 64 % 64 - 0x80 = c.toNat / 64 % 64 := by omega
          have e3 : 0x80 + c.toNat % 64 - 0x80 = c.toNat % 64 := by omega
          rw [e1, e2, e3, char_eq_of_toNat (show c.toNat = _ by omega)]
      · refine ⟨0xF0 + c.toNat / 262144,
          (0x80 + c.toNat / 4096 % 64) :: (0x80 + c.toNat / 64 % 64) :: (0x80 + c.toNat % 64) :: tail,
          ?_, ?_⟩
        · rw [if_neg h1, if_neg h2, if_neg h3]; rfl
        · unfold utf8DecodeOne
          rw [if_neg (by omega), if_neg (by omega), if_neg (by omega), if_neg (by omega),
            if_pos (by omega)]
          rw [utf8Cont3, if_pos (by simp [isContByte]; omega)]
          have e1 : 0xF0 + c.toNat / 262144 - 0xF0 = c.toNat / 262144 := by omega
          have e2 : 0x80 + c.toNat / 4096 % 64 - 0x80 = c.toNat / 4096 % 64 := by omega
          have e3 : 0x80 + c.toNat / 64 % 64 - 0x80 = c.toNat / 64 % 64 := by omega
          have e4 : 0x80 + c.toNat % 64 - 0x80 = c.toNat % 64 := by omega
          rw [e1, e2, e3, e4, char_eq_of_toNat (show c.toNat = _ by omega)]

theorem utf8DecodeGo_enc :
    ∀ (l : List Char) (fuel : Nat), l.length ≤ fuel →
    utf8DecodeGo fuel (utf8Encode l) = some l
  | [], fuel, _ => by cases fuel <;> rfl
  | c :: cs, fuel, h => by
    obtain ⟨f, rfl⟩ : ∃ f, fuel = f + 1 := ⟨fuel - 1, by simp at h; omega⟩
    obtain ⟨b0, r, henc, hdec⟩ := utf8DecodeOne_enc c (utf8Encode cs)
    show utf8DecodeGo (f + 1) (utf8EncodeChar c ++ utf8Encode cs) = some (c :: cs)
    rw [henc, utf8DecodeGo, hdec]
    show (utf8DecodeGo f (utf8Encode cs)).map (c :: ·) = some (c :: cs)
    rw [utf8DecodeGo_enc cs f (by simp at h; omega)]
    rfl

theorem utf8_roundtrip (l : List Char) : utf8Decode (utf8Encode l) = some l :=
  utf8DecodeGo_enc l (utf8Encode l).length (utf8Encode_length_ge l)

/-! ### Codec round trip (claim C8): JSON string layer -/

theorem hexVal_hexDigit_fin : ∀ m : Fin 16, hexVal (hexDigitChar m.val) = some m.val := by
  decide

theorem hexVal_hexDigit {m : Nat} (h : m < 16) : hexVal (hexDigitChar m) = some m :=
  hexVal_hexDigit_fin ⟨m, h⟩

theorem escapeJsonChar_length_pos (c : Char) : 1 ≤ (escapeJsonChar c).length := by
  unfold escapeJsonChar
  split_ifs <;> simp

theorem concatMap_escape_length (cs : List Char) :
    cs.length ≤ (concatMap escapeJsonChar cs).length := by
  induction cs with
  | nil => simp [concatMap]
  | cons c cs ih =>
    show (c :: cs).length ≤ (escapeJsonChar c ++ concatMap escapeJsonChar cs).length
    rw [List.length_append, List.length_cons]
    have := escapeJsonChar_length_pos c
    omega

theorem parseStrGo_esc :
    ∀ (cs : List Char) (rest : List Char) (fuel : Nat), cs.length + 1 ≤ fuel →
    parseStrGo fuel (concatMap escapeJsonChar cs ++ '"' :: rest) = some (cs, rest)
  | [], rest, fuel, h => by
    obtain ⟨f, rfl⟩ : ∃ f, fuel = f + 1 := ⟨fuel - 1, by omega⟩
    show parseStrGo (f + 1) ('"' :: rest) = some ([], rest)
    rw [parseStrGo, if_pos rfl]
  | c :: cs, rest, fuel, h => by
    obtain ⟨f, rfl⟩ : ∃ f, fuel = f + 1 := ⟨fuel - 1, by omega⟩
    have ih := parseStrGo_esc cs rest f (by simp at h; omega)
    have hsplit : concatMap escapeJsonChar (c :: cs) ++ '"' :: rest =
        escapeJsonChar c ++ (concatMap escapeJsonChar cs ++ '"' :: rest) := by
      show (escapeJsonChar c ++ concatMap escapeJsonChar cs) ++ '"' :: rest = _
      rw [List.append_assoc]
    rw [hsplit]
    by_cases h1 : c = '"'
    · subst h1
      show parseStrGo (f + 1) ('\\' :: '"' :: (concatMap escapeJsonChar cs ++ '"' :: rest)) = _
      rw [parseStrGo, if_neg (by decide), if_pos rfl, parseEsc, if_pos rfl]
      simp only [Option.some_bind]
      rw [ih]
      rfl
    · by_cases h2 : c = '\\'
      · subst h2
        show parseStrGo (f + 1) ('\\' :: '\\' :: (concatMap escapeJsonChar cs ++ '"' :: rest)) = _
        rw [parseStrGo, if_neg (by decide), if_pos rfl, parseEsc, if_neg (by decide), if_pos rfl]
        simp only [Option.some_bind]
        rw [ih]
        rfl
      · by_cases h3 : c.toNat = 8
        · have hb : escapeJsonChar c = ['\\', 'b'] := by
            unfold escapeJsonChar
            rw [if_neg h1, if_neg h2, if_pos h3]
          rw [hb]
          show parseStrGo (f + 1) ('\\' :: 'b' :: (concatMap escapeJsonChar cs ++ '"' :: rest)) = _
          rw [parseStrGo, if_neg (by decide), if_pos rfl, parseEsc,
            if_neg (by decide), if_neg (by decide), if_neg (by decide), if_pos rfl]
          simp only [Option.some_bind]
          rw [ih, char_eq_of_toNat h3]
          rfl
        · by_cases h4 : c.toNat = 9
          · have hb : escapeJsonChar c = ['\\', 't'] := by
              unfold escapeJsonChar
              rw [if_neg h1, if_neg h2, if_neg h3, if_pos h4]
            rw [hb]
            show parseStrGo (f + 1) ('\\' :: 't' :: (concatMap escapeJsonChar cs ++ '"' :: rest)) = _
            rw [parseStrGo, if_neg (by decide), if_pos rfl, parseEsc,
              if_neg (by decide), if_neg (by decide), if_neg (by decide), if_neg (by decide),
              if_neg (by decide), if_neg (by decide), if_neg (by decide), if_pos rfl]
            simp only [Option.some_bind]
            rw [ih]
            rw [show '\t' = c from (char_eq_of_toNat h4).symm ▸ rfl]
            rfl
          · by_cases h5 : c.toNat = 10
            · have hb : escapeJsonChar c = ['\\', 'n'] := by
                unfold escapeJsonChar
                rw [if_neg h1, if_neg h2, if_neg h3, if_neg h4, if_pos h5]
              rw [hb]
              show parseStrGo (f + 1) ('\\' :: 'n' :: (concatMap escapeJsonChar cs ++ '"' :: rest)) = _
              rw [parseStrGo, if_neg (by decide), if_pos rfl, parseEsc,
                if_neg (by decide), if_neg (by decide), if_neg (by decide), if_neg (by decide),
                if_neg (by decide), if_pos rfl]
              simp only [Option.some_bind]
              rw [ih]
              rw [show '\n' = c from (char_eq_of_toNat h5).symm ▸ rfl]
              rfl
            · by_cases h6 : c.toNat = 12
              · have hb : escapeJsonChar c = ['\\', 'f'] := by
                  unfold escapeJsonChar
                  rw [if_neg h1, if_neg h2, if_neg h3, if_neg h4, if_neg h5, if_pos h6]
                rw [hb]
                show parseStrGo (f + 1) ('\\' :: 'f' :: (concatMap escapeJsonChar cs ++ '"' :: rest)) = _
                rw [parseStrGo, if_neg (by decide), if_pos rfl, parseEsc,
                  if_neg (by decide), if_neg (by decide), if_neg (by decide), if_neg (by decide),
                  if_pos rfl]
                simp only [Option.some_bind]
                rw [ih, char_eq_of_toNat h6]
                rfl
              · by_cases h7 : c.toNat = 13
                · have hb : escapeJsonChar c = ['\\', 'r'] := by
                    unfold escapeJsonChar
                    rw [if_neg h1, if_neg h2, if_neg h3, if_neg h4, if_neg h5, if_neg h6,
                      if_pos h7]
                  rw [hb]
                  show parseStrGo (f + 1)
                    ('\\' :: 'r' :: (concatMap escapeJsonChar cs ++ '"' :: rest)) = _
                  rw [parseStrGo, if_neg (by decide), if_pos rfl, parseEsc,
                    if_neg (by decide), if_neg (by decide), if_neg (by decide),
                    if_neg (by decide), if_neg (by decide), if_neg (by decide), if_pos rfl]
                  simp only [Option.some_bind]
                  rw [ih, char_eq_of_toNat h7]
                  rfl
                · by_cases h8 : c.toNat < 0x20
                  · have hb : escapeJsonChar c =
                        ['\\', 'u', '0', '0', hexDigitChar (c.toNat / 16),
                         hexDigitChar (c.toNat % 16)] := by
                      unfold escapeJsonChar
                      rw [if_neg h1, if_neg h2, if_neg h3, if_neg h4, if_neg h5, if_neg h6,
                        if_neg h7, if_pos h8]
                    rw [hb]
                    show parseStrGo (f + 1)
                      ('\\' :: 'u' :: '0' :: '0' :: hexDigitChar (c.toNat / 16) ::
                        hexDigitChar (c.toNat % 16) ::
                        (concatMap escapeJsonChar cs ++ '"' :: rest)) = _
                    rw [parseStrGo, if_neg (by decide), if_pos rfl, parseEsc,
                      if_neg (by decide), if_neg (by decide), if_neg (by decide),
                      if_neg (by decide), if_neg (by decide), if_neg (by decide),
                      if_neg (by decide), if_neg (by decide), if_pos rfl, parseHex4]
                    rw [show hexVal '0' = some 0 from rfl]
                    rw [hexVal_hexDigit (show c.toNat / 16 < 16 by omega),
                      hexVal_hexDigit (show c.toNat % 16 < 16 by omega)]
                    simp only [Option.bind_eq_bind, Option.some_bind]
                    rw [if_pos (by omega)]
                    rw [show 0 * 4096 + 0 * 256 + c.toNat / 16 * 16 + c.toNat % 16 = c.toNat
                      by omega]
                    rw [char_eq_of_toNat rfl]
                    simp only [Option.some_bind]
                    rw [ih]
                    rfl
                  · have hb : escapeJsonChar c = [c] := by
                      unfold escapeJsonChar
                      rw [if_neg h1, if_neg h2, if_neg h3, if_neg h4, if_neg h5, if_neg h6,
                        if_neg h7, if_neg h8]
                    rw [hb]
                    show parseStrGo (f + 1) (c :: (concatMap escapeJsonChar cs ++ '"' :: rest)) = _
                    rw [parseStrGo, if_neg h1, if_neg h2, if_neg h8, ih]
                    rfl

theorem quote_split (s : String) (rest : List Char) :
    quoteJsonString s ++ rest = '"' :: (concatMap escapeJsonChar s.data ++ '"' :: rest) := by
  show ('"' :: concatMap escapeJsonChar s.data ++ ['"']) ++ rest = _
  simp [List.append_assoc]

theorem parseJsonString_quote (s : String) (rest : List Char) :
    parseJsonString (quoteJsonString s ++ rest) = some (s, rest) := by
  rw [quote_split, parseJsonString, if_pos rfl]
  rw [parseStrGo_esc s.data rest _ (by
    rw [List.length_append, List.length_cons]
    have := concatMap_escape_length s.data
    omega)]
  rfl

theorem skipWs_cons {c : Char} (h : isJsonWs c = false) (l : List Char) :
    skipWs (c :: l) = c :: l := by
  simp [skipWs, List.dropWhile_cons, h]

theorem parseJsonMember_quote (k v : String) (tail : List Char) :
    parseJsonMember (jsonFieldChars (k, v) ++ tail) = some ((k, v), tail) := by
  have hsplit : jsonFieldChars (k, v) ++ tail =
      quoteJsonString k ++ (':' :: (quoteJsonString v ++ tail)) := by
    show (quoteJsonString k ++ ':' :: quoteJsonString v) ++ tail = _
    simp [List.append_assoc]
  rw [hsplit]
  unfold parseJsonMember
  rw [parseJsonString_quote k (':' :: (quoteJsonString v ++ tail))]
  simp only [Option.some_bind]
  rw [skipWs_cons (by decide), expectColon, if_pos rfl]
  simp only [Option.some_bind]
  rw [quote_split, skipWs_cons (by decide), ← quote_split, parseJsonString_quote v tail]
  rfl

theorem fieldChars_shape (kv : String × String) (t : List Char) :
    jsonFieldChars kv ++ t =
      '"' :: (concatMap escapeJsonChar kv.1.data ++ '"' ::
        (':' :: (quoteJsonString kv.2 ++ t))) := by
  show (quoteJsonString kv.1 ++ ':' :: quoteJsonString kv.2) ++ t = _
  rw [List.append_assoc]
  rw [show (':' :: quoteJsonString kv.2) ++ t = ':' :: (quoteJsonString kv.2 ++ t) from rfl]
  rw [quote_split]

theorem joinFields_shape (kv : String × String) (l : List (String × String)) (t : List Char) :
    ∃ X, joinSep ',' ((kv :: l).map jsonFieldChars) ++ t = '"' :: X := by
  cases l with
  | nil =>
    exact ⟨_, fieldChars_shape kv t⟩
  | cons kv2 more =>
    exact ⟨_, by
      show (jsonFieldChars kv ++ ',' :: joinSep ',' ((kv2 :: more).map jsonFieldChars)) ++ t = _
      rw [List.append_assoc]
      exact fieldChars_shape kv _⟩

theorem parseJsonMembers_join :
    ∀ (fields : List (String × String)) (rest : List Char) (fuel : Nat),
    fields ≠ [] → fields.length ≤ fuel →
    parseJsonMembers fuel (joinSep ',' (fields.map jsonFieldChars) ++ '}' :: rest) =
      some (fields, rest)
  | [], _, _, hne, _ => absurd rfl hne
  | [kv], rest, fuel, _, h => by
    obtain ⟨f, rfl⟩ : ∃ f, fuel = f + 1 := ⟨fuel - 1, by simp at h; omega⟩
    show parseJsonMembers (f + 1) (jsonFieldChars kv ++ '}' :: rest) = some ([kv], rest)
    rw [parseJsonMembers]
    rw [show kv = (kv.1, kv.2) from rfl, parseJsonMember_quote kv.1 kv.2 ('}' :: rest)]
    simp only [Option.some_bind]
    rw [skipWs_cons (by decide), memberSep, if_neg (by decide), if_pos rfl]
    simp only [Option.some_bind]
    rfl
  | kv :: kv2 :: more, rest, fuel, _, h => by
    obtain ⟨f, rfl⟩ : ∃ f, fuel = f + 1 := ⟨fuel - 1, by simp at h; omega⟩
    have ih := parseJsonMembers_join (kv2 :: more) rest f (by simp) (by simp at h ⊢; omega)
    have hsplit : joinSep ',' ((kv :: kv2 :: more).map jsonFieldChars) ++ '}' :: rest =
        jsonFieldChars kv ++
          (',' :: (joinSep ',' ((kv2 :: more).map jsonFieldChars) ++ '}' :: rest)) := by
      show (jsonFieldChars kv ++ ',' :: joinSep ',' ((kv2 :: more).map jsonFieldChars)) ++
        '}' :: rest = _
      rw [List.append_assoc]
      rfl
    rw [hsplit, parseJsonMembers]
    rw [show kv = (kv.1, kv.2) from rfl, parseJsonMember_quote kv.1 kv.2]
    simp only [Option.some_bind]
    rw [skipWs_cons (by decide), memberSep, if_pos rfl]
    simp only [Option.some_bind, if_pos]
    obtain ⟨X, hX⟩ := joinFields_shape kv2 more ('}' :: rest)
    rw [hX, skipWs_cons (by decide), ← hX, ih]
    rfl

theorem joinFields_length (fields : List (String × String)) :
    fields.length ≤ (joinSep ',' (fields.map jsonFieldChars)).length := by
  induction fields with
  | nil => simp [joinSep]
  | cons kv l ih =>
    cases l with
    | nil =>
      show 1 ≤ (jsonFieldChars kv).length
      rw [jsonFieldChars, List.length_append]
      simp [quoteJsonString]
      omega
    | cons kv2 more =>
      show (kv :: kv2 :: more).length ≤
        (jsonFieldChars kv ++ ',' :: joinSep ',' ((kv2 :: more).map jsonFieldChars)).length
      rw [List.length_append, List.length_cons, List.length_cons, List.length_cons]
      have h1 : 1 ≤ (jsonFieldChars kv).length := by
        rw [jsonFieldChars, List.length_append]
        simp [quoteJsonString]
        omega
      simp only [List.length_cons] at ih
      omega

theorem jsonParseStrFields_obj (fields : List (String × String)) (hne : fields ≠ []) :
    jsonParseStrFields (jsonObjChars fields) = some fields := by
  obtain ⟨kv, more, rfl⟩ : ∃ kv more, fields = kv :: more := by
    cases fields with
    | nil => exact absurd rfl hne
    | cons kv more => exact ⟨kv, more, rfl⟩
  have hl : jsonObjChars (kv :: more) =
      '{' :: (joinSep ',' ((kv :: more).map jsonFieldChars) ++ ['}']) := by
    show ('{' :: joinSep ',' ((kv :: more).map jsonFieldChars)) ++ ['}'] = _
    rw [List.cons_append]
  unfold jsonParseStrFields
  rw [hl, skipWs_cons (by decide), expectOpenBrace, if_pos rfl]
  simp only [Option.some_bind]
  obtain ⟨X, hX⟩ := joinFields_shape kv more ['}']
  rw [hX, skipWs_cons (by decide)]
  rw [if_neg (by simp)]
  rw [← hX]
  rw [show (['}'] : List Char) = '}' :: [] from rfl]
  rw [parseJsonMembers_join (kv :: more) [] _ (by simp) (by
    have h1 := joinFields_length (kv :: more)
    simp at h1 ⊢
    omega)]
  simp only [Option.some_bind]
  rfl

/-! ### Codec round trip (claim C8): assembling `decodeSourceRef` -/

theorem listStartsWith_append (p t : List Char) : listStartsWith p (p ++ t) = true := by
  induction p with
  | nil => rfl
  | cons c cs ih => simp [listStartsWith, ih]

theorem listIndexOfSub_append (p t : List Char) (hp : p ≠ []) :
    listIndexOfSub p (p ++ t) = some 0 := by
  obtain ⟨c, cs, rfl⟩ : ∃ c cs, p = c :: cs := by
    cases p with
    | nil => exact absurd rfl hp
    | cons c cs => exact ⟨c, cs, rfl⟩
  show listIndexOfSub (c :: cs) (c :: (cs ++ t)) = some 0
  rw [listIndexOfSub, if_pos]
  show listStartsWith (c :: cs) ((c :: cs) ++ t) = true
  exact listStartsWith_append _ _

theorem dropWhile_of_all_false {p : Char → Bool} :
    ∀ l : List Char, (∀ c ∈ l, p c = false) → l.dropWhile p = l
  | [], _ => rfl
  | c :: cs, h => by
    rw [List.dropWhile_cons, h c (by simp)]
    simp

theorem trimChars_id (l : List Char) (h : ∀ c ∈ l, isTrimWs c = false) :
    trimChars l = l := by
  unfold trimChars
  rw [dropWhile_of_all_false l h]
  rw [dropWhile_of_all_false l.reverse (fun c hc => h c (List.mem_reverse.mp hc))]
  exact List.reverse_reverse l

theorem b64Char_not_ws_fin : ∀ n : Fin 64, isTrimWs (b64Char n.val) = false := by
  decide

theorem base64urlEncode_not_ws :
    ∀ bytes : List Nat, (∀ b ∈ bytes, b < 256) →
    ∀ ch ∈ base64urlEncode bytes, isTrimWs ch = false
  | [], _ => by simp [base64urlEncode]
  | [b0], h => by
    have hb0 : b0 < 256 := h b0 (by simp)
    intro ch hch
    simp only [base64urlEncode, List.mem_cons, List.not_mem_nil, or_false] at hch
    rcases hch with rfl | rfl
    · exact b64Char_not_ws_fin ⟨b0 / 4, by omega⟩
    · exact b64Char_not_ws_fin ⟨b0 % 4 * 16, by omega⟩
  | [b0, b1], h => by
    have hb0 : b0 < 256 := h b0 (by simp)
    have hb1 : b1 < 256 := h b1 (by simp)
    intro ch hch
    simp only [base64urlEncode, List.mem_cons, List.not_mem_nil, or_false] at hch
    rcases hch with rfl | rfl | rfl
    · exact b64Char_not_ws_fin ⟨b0 / 4, by omega⟩
    · exact b64Char_not_ws_fin ⟨b0 % 4 * 16 + b1 / 16, by omega⟩
    · exact b64Char_not_ws_fin ⟨b1 % 16 * 4, by omega⟩
  | b0 :: b1 :: b2 :: rest, h => by
    have hb0 : b0 < 256 := h b0 (by simp)
    have hb1 : b1 < 256 := h b1 (by simp)
    have hb2 : b2 < 256 := h b2 (by simp)
    have ih := base64urlEncode_not_ws rest (fun b hb => h b (by simp [hb]))
    intro ch hch
    simp only [base64urlEncode, List.mem_cons] at hch
    rcases hch with rfl | rfl | rfl | rfl | hch
    · exact b64Char_not_ws_fin ⟨b0 / 4, by omega⟩
    · exact b64Char_not_ws_fin ⟨b0 % 4 * 16 + b1 / 16, by omega⟩
    · exact b64Char_not_ws_fin ⟨b1 % 16 * 4 + b2 / 64, by omega⟩
    · exact b64Char_not_ws_fin ⟨b2 % 64, by omega⟩
    · exact ih ch hch

theorem base64urlEncode_ne_nil (b : Nat) (bs : List Nat) :
    base64urlEncode (b :: bs) ≠ [] := by
  match bs with
  | [] => simp [base64urlEncode]
  | [b1] => simp [base64urlEncode]
  | b1 :: b2 :: rest => simp [base64urlEncode]

theorem sourceRefOfFields_round (source : SourceRef) :
    sourceRefOfFields (sourceRefFields source) = some source := by
  rfl

theorem decode_encode (source : SourceRef) :
    decodeSourceRef (some (encodeSourceRef source)) = some source := by
  have hbytes : ∀ b ∈ utf8Encode (jsonObjChars (sourceRefFields source)), b < 256 :=
    utf8Encode_lt _
  have hdata : (encodeSourceRef source).data =
      METADATA_TAG.data ++ base64urlEncode (utf8Encode (jsonObjChars (sourceRefFields source))) := by
    show (METADATA_TAG ++ ⟨_⟩ : String).data = _
    rw [String.data_append]
  have hne : encodeSourceRef source ≠ "" := by
    intro h
    have := congrArg String.data h
    rw [hdata] at this
    simp [METADATA_TAG] at this
  rw [decodeSourceRef]
  rw [if_neg hne, hdata]
  rw [listIndexOfSub_append _ _ (by simp [METADATA_TAG])]
  simp only [Option.some_bind, Nat.zero_add]
  rw [List.drop_left]
  rw [trimChars_id _ (base64urlEncode_not_ws _ hbytes)]
  have hobj : jsonObjChars (sourceRefFields source) =
      '{' :: (joinSep ',' ((sourceRefFields source).map jsonFieldChars) ++ ['}']) := by
    show ('{' :: joinSep ',' ((sourceRefFields source).map jsonFieldChars)) ++ ['}'] = _
    rw [List.cons_append]
  have hbytestruct : utf8Encode (jsonObjChars (sourceRefFields source)) =
      123 :: utf8Encode (joinSep ',' ((sourceRefFields source).map jsonFieldChars) ++ ['}']) := by
    rw [hobj]
    rfl
  rw [if_neg (by rw [hbytestruct]; exact base64urlEncode_ne_nil _ _)]
  rw [base64url_roundtrip _ hbytes]
  simp only [Option.some_bind]
  rw [utf8_roundtrip]
  simp only [Option.some_bind]
  rw [jsonParseStrFields_obj _ (by simp [sourceRefFields])]
  simp only [Option.some_bind]
  exact sourceRefOfFields_round source

/-- C8: `encodeSourceRef` produces exactly the prefix `"SYNCV1:"` followed
by the base64url encoding of the JSON serialisation of the `SourceRef`, and
`decodeSourceRef` recovers the original `SourceRef` from it, for every
`SourceRef` (arbitrary string fields). -/
theorem claim_C8 (source : SourceRef) :
    encodeSourceRef source =
      "SYNCV1:" ++ ⟨base64urlEncode (utf8Encode (jsonObjChars (sourceRefFields source)))⟩ ∧
    decodeSourceRef (some (encodeSourceRef source)) = some source :=
  ⟨rfl, decode_encode source⟩

/-! ### Planner analysis: emissions

Each pass of the planner emits, per key, a fixed sequence of "emissions"
determined only by the precomputed maps — either an unconditional
`skip_overlap` append or a budget-gated mutation attempt.  `keyEmissions` /
`staleEmissions` compute that sequence; `planCore` is then a fold of
`applyEmission` over it, which is the basis for comparing runs that differ
only in the budget. -/

inductive Emission where
  | skipE (a : ReconcileAction)
  | tryE (a : ReconcileAction)
deriving DecidableEq, Repr

def applyEmission (mutate : PlanState → ReconcileAction → PlanState) (st : PlanState) :
    Emission → PlanState
  | .skipE a => { st with actions := st.actions ++ [a] }
  | .tryE a => mutate st a

def emissionAction : Emission → ReconcileAction
  | .skipE a => a
  | .tryE a => a

/-- The emissions of one desired key. -/
def keyEmissions (unmanaged : List GogEvent) (managedByKey : List (String × List GogEvent))
    (desiredByKey : List (String × DesiredHold)) (overlapPolicy : OverlapPolicy)
    (key : String) : Except PlanError (List Emission) :=
  match mapGet desiredByKey key with
  | none => .ok []
  | some desired =>
    match (mapGet managedByKey key).getD [] with
    | [] =>
      match overlapPolicy with
      | .skip =>
        (findBlocker unmanaged desired.event).map (fun blocker =>
          match blocker with
          | some b => [.skipE (.skip_overlap desired b.id)]
          | none => [.tryE (.create desired)])
      | .allow => .ok [.tryE (.create desired)]
    | primary :: duplicates =>
      .ok ((if isEquivalent primary desired.event then []
            else [.tryE (.update primary desired)]) ++
           duplicates.map (fun dup => .tryE (.delete dup)))

/-- The emissions of one stale managed key. -/
def staleEmissions (managedByKey : List (String × List GogEvent))
    (desiredByKey : List (String × DesiredHold)) (key : String) : List Emission :=
  if (mapGet desiredByKey key).isSome then []
  else ((mapGet managedByKey key).getD []).map (fun stale => .tryE (.delete stale))

theorem processDesiredKey_emissions (mutate : PlanState → ReconcileAction → PlanState)
    (unmanaged : List GogEvent) (managedByKey : List (String × List GogEvent))
    (desiredByKey : List (String × DesiredHold)) (overlapPolicy : OverlapPolicy)
    (st : PlanState) (key : String) :
    processDesiredKey mutate unmanaged managedByKey desiredByKey overlapPolicy st key =
      (keyEmissions unmanaged managedByKey desiredByKey overlapPolicy key).map
        (fun es => es.foldl (applyEmission mutate) st) := by
  unfold processDesiredKey keyEmissions
  cases mapGet desiredByKey key with
  | none => rfl
  | some desired =>
    cases hm : (mapGet managedByKey key).getD [] with
    | nil =>
      cases overlapPolicy with
      | skip =>
        cases hb : findBlocker unmanaged desired.event with
        | error e => simp [hb, Except.map, Bind.bind, Except.bind]
        | ok blocker =>
          cases blocker with
          | some b => simp [hb, Except.map, Bind.bind, Except.bind, applyEmission, pure, Except.pure]
          | none => simp [hb, Except.map, Bind.bind, Except.bind, applyEmission, pure, Except.pure]
      | allow => simp [Except.map, applyEmission, pure, Except.pure]
    | cons primary duplicates =>
      simp only [Except.map, Except.pure]
      congr 1
      by_cases he : isEquivalent primary desired.event
      · simp [he, List.foldl_map, applyEmission]
      · simp [he, List.foldl_map, applyEmission]

theorem processStaleKey_emissions (mutate : PlanState → ReconcileAction → PlanState)
    (managedByKey : List (String × List GogEvent))
    (desiredByKey : List (String × DesiredHold)) (st : PlanState) (key : String) :
    processStaleKey mutate managedByKey desiredByKey st key =
      (staleEmissions managedByKey desiredByKey key).foldl (applyEmission mutate) st := by
  unfold processStaleKey staleEmissions
  by_cases hd : (mapGet desiredByKey key).isSome
  · simp [hd]
  · simp only [hd, if_false, Bool.false_eq_true]
    rw [List.foldl_map]
    rfl

/-- `mapM` over `Except`, specialised to emission computation. -/
def mapME (f : String → Except PlanError (List Emission)) :
    List String → Except PlanError (List (List Emission))
  | [] => .ok []
  | k :: ks => (f k).bind (fun es => (mapME f ks).map (es :: ·))

/-- All emissions of a planner run, in emission order. -/
def planEmissions (desiredHolds : List DesiredHold) (targetEvents : List GogEvent)
    (overlapPolicy : OverlapPolicy) : Except PlanError (List Emission) :=
  let split := splitManaged targetEvents
  let managedByKey := buildManagedByKey (sortById split.1)
  let desiredByKey := buildDesiredByKey desiredHolds
  (mapME (keyEmissions split.2 managedByKey desiredByKey overlapPolicy)
      (sortStrs (mapKeys desiredByKey))).map
    (fun ls => concatMap (fun es => es) ls ++
      concatMap (staleEmissions managedByKey desiredByKey) (sortStrs (mapKeys managedByKey)))

theorem foldlM_desired_emissions (mutate : PlanState → ReconcileAction → PlanState)
    (unmanaged : List GogEvent) (managedByKey : List (String × List GogEvent))
    (desiredByKey : List (String × DesiredHold)) (overlapPolicy : OverlapPolicy) :
    ∀ (keys : List String) (st : PlanState),
    keys.foldlM (processDesiredKey mutate unmanaged managedByKey desiredByKey overlapPolicy) st =
      (mapME (keyEmissions unmanaged managedByKey desiredByKey overlapPolicy) keys).map
        (fun ls => (concatMap (fun es => es) ls).foldl (applyEmission mutate) st) := by
  intro keys
  induction keys with
  | nil => intro st; rfl
  | cons k ks ih =>
    intro st
    rw [List.foldlM_cons, processDesiredKey_emissions]
    cases hk : keyEmissions unmanaged managedByKey desiredByKey overlapPolicy k with
    | error e =>
      simp [hk, mapME, Except.map, Bind.bind, Except.bind]
    | ok es =>
      simp only [hk, mapME, Except.map, Bind.bind, Except.bind]
      rw [ih (es.foldl (applyEmission mutate) st)]
      cases hks : mapME (keyEmissions unmanaged managedByKey desiredByKey overlapPolicy) ks with
      | error e => simp [hks, Except.map]
      | ok ls =>
        simp only [hks, Except.map]
        rw [show concatMap (fun es => es) (es :: ls) = es ++ concatMap (fun es => es) ls from rfl]
        rw [List.foldl_append]

theorem foldl_stale_emissions (mutate : PlanState → ReconcileAction → PlanState)
    (managedByKey : List (String × List GogEvent))
    (desiredByKey : List (String × DesiredHold)) :
    ∀ (keys : List String) (st : PlanState),
    keys.foldl (processStaleKey mutate managedByKey desiredByKey) st =
      (concatMap (staleEmissions managedByKey desiredByKey) keys).foldl
        (applyEmission mutate) st := by
  intro keys
  induction keys with
  | nil => intro st; rfl
  | cons k ks ih =>
    intro st
    rw [List.foldl_cons, processStaleKey_emissions]
    rw [show concatMap (staleEmissions managedByKey desiredByKey) (k :: ks) =
      staleEmissions managedByKey desiredByKey k ++
        concatMap (staleEmissions managedByKey desiredByKey) ks from rfl]
    rw [List.foldl_append]
    exact ih _

theorem planCore_emissions (mutate : PlanState → ReconcileAction → PlanState)
    (desiredHolds : List DesiredHold) (targetEvents : List GogEvent)
    (overlapPolicy : OverlapPolicy) :
    planCore mutate desiredHolds targetEvents overlapPolicy =
      (planEmissions desiredHolds targetEvents overlapPolicy).map
        (fun es => es.foldl (applyEmission mutate) initState) := by
  simp only [planCore, planEmissions]
  rw [foldlM_desired_emissions]
  cases hks : mapME
      (keyEmissions (splitManaged targetEvents).2
        (buildManagedByKey (sortById (splitManaged targetEvents).1))
        (buildDesiredByKey desiredHolds) overlapPolicy)
      (sortStrs (mapKeys (buildDesiredByKey desiredHolds))) with
  | error e => simp [hks, Except.map, Bind.bind, Except.bind]
  | ok ls =>
    simp only [hks, Except.map, Bind.bind, Except.bind]
    rw [foldl_stale_emissions]
    simp [pure, Except.pure, List.foldl_append]

/-! ### Budget simulation (claims C3, C10, and the capped = false analyses)

A bounded run keeps every `skip_overlap` action and exactly the first
`maxChangesPerRun` mutating actions of the unbounded run, and its `capped`
flag records whether any mutation was dropped. -/

/-- Keep every non-mutating action and the first `r` mutating actions. -/
def capGo : Nat → List ReconcileAction → List ReconcileAction
  | _, [] => []
  | r, a :: rest =>
    if isMutating a then
      (if r = 0 then capGo 0 rest else a :: capGo (r - 1) rest)
    else a :: capGo r rest

theorem mutCount_nil : mutCount [] = 0 := rfl

theorem mutCount_cons (a : ReconcileAction) (l : List ReconcileAction) :
    mutCount (a :: l) = (if isMutating a then 1 else 0) + mutCount l := by
  unfold mutCount
  rw [List.filter_cons]
  by_cases h : isMutating a <;> simp [h, Nat.add_comm]

theorem mutCount_append (l1 l2 : List ReconcileAction) :
    mutCount (l1 ++ l2) = mutCount l1 + mutCount l2 := by
  unfold mutCount
  rw [List.filter_append, List.length_append]

theorem capGo_cons_mut {a : ReconcileAction} (ha : isMutating a = true)
    (r : Nat) (rest : List ReconcileAction) :
    capGo r (a :: rest) = if r = 0 then capGo 0 rest else a :: capGo (r - 1) rest := by
  rw [capGo, if_pos ha]

theorem capGo_cons_nonmut {a : ReconcileAction} (ha : isMutating a = false)
    (r : Nat) (rest : List ReconcileAction) :
    capGo r (a :: rest) = a :: capGo r rest := by
  rw [capGo, if_neg (by simp [ha])]

theorem capGo_append (l1 : List ReconcileAction) :
    ∀ (r : Nat) (l2 : List ReconcileAction),
    capGo r (l1 ++ l2) = capGo r l1 ++ capGo (r - mutCount l1) l2 := by
  induction l1 with
  | nil => intro r l2; simp [capGo, mutCount_nil]
  | cons a rest ih =>
    intro r l2
    rw [List.cons_append]
    by_cases ha : isMutating a
    · rw [capGo_cons_mut ha, capGo_cons_mut ha, mutCount_cons, if_pos ha]
      by_cases hr : r = 0
      · subst hr
        rw [ih 0 l2]
        rw [show (0 : Nat) - (1 + mutCount rest) = 0 - mutCount rest from by omega]
        simp
      · rw [if_neg hr, if_neg hr]
        rw [ih (r - 1) l2]
        rw [show r - (1 + mutCount rest) = r - 1 - mutCount rest from by omega]
        rw [List.cons_append]
    · have ha2 : isMutating a = false := by simpa using ha
      rw [capGo_cons_nonmut ha2, capGo_cons_nonmut ha2, mutCount_cons, if_neg ha]
      rw [ih r l2]
      rw [show r - (0 + mutCount rest) = r - mutCount rest from by omega]
      rw [List.cons_append]

theorem capGo_of_le : ∀ (l : List ReconcileAction) (r : Nat), mutCount l ≤ r → capGo r l = l := by
  intro l
  induction l with
  | nil => intro r _; rfl
  | cons a rest ih =>
    intro r h
    rw [mutCount_cons] at h
    by_cases ha : isMutating a
    · rw [if_pos ha] at h
      rw [capGo_cons_mut ha, if_neg (by omega), ih (r - 1) (by omega)]
    · rw [if_neg ha] at h
      have ha2 : isMutating a = false := by simpa using ha
      rw [capGo_cons_nonmut ha2, ih r (by omega)]

theorem mutCount_capGo : ∀ (l : List ReconcileAction) (r : Nat),
    mutCount (capGo r l) = min (mutCount l) r := by
  intro l
  induction l with
  | nil => intro r; simp [capGo, mutCount_nil]
  | cons a rest ih =>
    intro r
    by_cases ha : isMutating a
    · rw [capGo_cons_mut ha]
      by_cases hr : r = 0
      · subst hr
        rw [if_pos rfl, ih 0, mutCount_cons, if_pos ha]
        omega
      · rw [if_neg hr, mutCount_cons, if_pos ha, mutCount_cons, if_pos ha, ih (r - 1)]
        omega
    · have ha2 : isMutating a = false := by simpa using ha
      rw [capGo_cons_nonmut ha2, mutCount_cons, if_neg ha, mutCount_cons, if_neg ha, ih r]
      omega

theorem capGo_sublist : ∀ (l : List ReconcileAction) (r : Nat), (capGo r l).Sublist l := by
  intro l
  induction l with
  | nil => intro r; simp [capGo]
  | cons a rest ih =>
    intro r
    by_cases ha : isMutating a
    · rw [capGo_cons_mut ha]
      by_cases hr : r = 0
      · rw [if_pos hr]
        exact (ih 0).cons a
      · rw [if_neg hr]
        exact (ih (r - 1)).cons₂ a
    · have ha2 : isMutating a = false := by simpa using ha
      rw [capGo_cons_nonmut ha2]
      exact (ih r).cons₂ a

theorem capGo_filter_nonmut : ∀ (l : List ReconcileAction) (r : Nat),
    (capGo r l).filter (fun a => !isMutating a) = l.filter (fun a => !isMutating a) := by
  intro l
  induction l with
  | nil => intro r; simp [capGo]
  | cons a rest ih =>
    intro r
    by_cases ha : isMutating a
    · rw [capGo_cons_mut ha]
      by_cases hr : r = 0
      · rw [if_pos hr, List.filter_cons, if_neg (by simp [ha]), ih 0]
      · rw [if_neg hr, List.filter_cons, if_neg (by simp [ha]),
          List.filter_cons, if_neg (by simp [ha]), ih (r - 1)]
    · have ha2 : isMutating a = false := by simpa using ha
      rw [capGo_cons_nonmut ha2, List.filter_cons, if_pos (by simp [ha2]),
        List.filter_cons, if_pos (by simp [ha2]), ih r]

/-- Emissions produced by the planner: skips carry non-mutating actions,
attempts carry mutating ones. -/
def goodEmission : Emission → Prop
  | .skipE a => isMutating a = false
  | .tryE a => isMutating a = true

theorem fold_emissions_sim (b : Nat) :
    ∀ (es : List Emission) (sF sB : PlanState),
    (∀ e ∈ es, goodEmission e) →
    sF.capped = false → sF.changes = mutCount sF.actions →
    sB.actions = capGo b sF.actions → sB.changes = min sF.changes b →
    sB.capped = decide (b < sF.changes) →
    (es.foldl (applyEmission freeMutate) sF).capped = false ∧
    (es.foldl (applyEmission freeMutate) sF).changes =
      mutCount (es.foldl (applyEmission freeMutate) sF).actions ∧
    (es.foldl (applyEmission (tryMutate b)) sB).actions =
      capGo b (es.foldl (applyEmission freeMutate) sF).actions ∧
    (es.foldl (applyEmission (tryMutate b)) sB).changes =
      min (es.foldl (applyEmission freeMutate) sF).changes b ∧
    (es.foldl (applyEmission (tryMutate b)) sB).capped =
      decide (b < (es.foldl (applyEmission freeMutate) sF).changes) := by
  intro es
  induction es with
  | nil =>
    intro sF sB _ h1 h2 h3 h4 h5
    exact ⟨h1, h2, h3, h4, h5⟩
  | cons e es ih =>
    intro sF sB hgood h1 h2 h3 h4 h5
    rw [List.foldl_cons, List.foldl_cons]
    have hge := hgood e (by simp)
    have hges : ∀ e2 ∈ es, goodEmission e2 := fun e2 he2 => hgood e2 (by simp [he2])
    cases e with
    | skipE a =>
      have hna : isMutating a = false := hge
      apply ih _ _ hges
      · exact h1
      · show sF.changes = mutCount (sF.actions ++ [a])
        rw [mutCount_append, mutCount_cons, hna]
        simp [mutCount_nil, h2]
      · show sB.actions ++ [a] = capGo b (sF.actions ++ [a])
        rw [capGo_append, h3]
        congr 1
        rw [capGo_cons_nonmut hna]
        rfl
      · exact h4
      · exact h5
    | tryE a =>
      have hma : isMutating a = true := hge
      by_cases hcap : sB.changes ≥ b
      · have hFb : b ≤ sF.changes := by omega
        apply ih _ _ hges
        · exact h1
        · show sF.changes + 1 = mutCount (sF.actions ++ [a])
          rw [mutCount_append, mutCount_cons, hma]
          simp [mutCount_nil, h2]
        · show (tryMutate b sB a).actions = capGo b (sF.actions ++ [a])
          rw [tryMutate, if_pos hcap]
          rw [capGo_append, h3, ← h2]
          rw [show b - sF.changes = 0 by omega]
          rw [capGo_cons_mut hma, if_pos rfl]
          simp [capGo]
        · show (tryMutate b sB a).changes = min (sF.changes + 1) b
          rw [tryMutate, if_pos hcap]
          show sB.changes = _
          omega
        · show (tryMutate b sB a).capped = decide (b < sF.changes + 1)
          rw [tryMutate, if_pos hcap]
          show true = _
          have : b < sF.changes + 1 := by omega
          simp [this]
      · have hFb : sF.changes < b := by omega
        apply ih _ _ hges
        · exact h1
        · show sF.changes + 1 = mutCount (sF.actions ++ [a])
          rw [mutCount_append, mutCount_cons, hma]
          simp [mutCount_nil, h2]
        · show (tryMutate b sB a).actions = capGo b (sF.actions ++ [a])
          rw [tryMutate, if_neg hcap]
          show sB.actions ++ [a] = _
          rw [capGo_append, h3, ← h2]
          rw [capGo_cons_mut hma, if_neg (by omega)]
          simp [capGo]
        · show (tryMutate b sB a).changes = min (sF.changes + 1) b
          rw [tryMutate, if_neg hcap]
          show sB.changes + 1 = _
          omega
        · show (tryMutate b sB a).capped = decide (b < sF.changes + 1)
          rw [tryMutate, if_neg hcap]
          show sB.capped = _
          rw [h5]
          have hx : ¬(b < sF.changes) := by omega
          have hy : ¬(b < sF.changes + 1) := by omega
          simp [hx, hy]

theorem mem_concatMap {f : α → List β} {b : β} :
    ∀ {l : List α}, b ∈ concatMap f l → ∃ x ∈ l, b ∈ f x
  | [], h => by simp [concatMap] at h
  | a :: l, h => by
    rw [show concatMap f (a :: l) = f a ++ concatMap f l from rfl] at h
    rcases List.mem_append.mp h with h | h
    · exact ⟨a, by simp, h⟩
    · obtain ⟨x, hx, hb⟩ := mem_concatMap h
      exact ⟨x, by simp [hx], hb⟩

theorem mapME_mem {f : String → Except PlanError (List Emission)} :
    ∀ {keys : List String} {ls : List (List Emission)},
    mapME f keys = .ok ls → ∀ es ∈ ls, ∃ k ∈ keys, f k = .ok es := by
  intro keys
  induction keys with
  | nil =>
    intro ls h es hes
    simp only [mapME] at h
    cases h
    simp at hes
  | cons k ks ih =>
    intro ls h es hes
    simp only [mapME] at h
    cases hk : f k with
    | error e => rw [hk] at h; simp [Bind.bind, Except.bind] at h
    | ok es0 =>
      rw [hk] at h
      simp only [Bind.bind, Except.bind] at h
      cases hks : mapME f ks with
      | error e => rw [hks] at h; simp [Except.map] at h
      | ok ls0 =>
        rw [hks] at h
        simp only [Except.map, Except.ok.injEq] at h
        subst h
        rcases List.mem_cons.mp hes with rfl | hmem
        · exact ⟨k, by simp, hk⟩
        · obtain ⟨k2, hk2, hf⟩ := ih hks es hmem
          exact ⟨k2, by simp [hk2], hf⟩

theorem keyEmissions_good (unmanaged : List GogEvent)
    (managedByKey : List (String × List GogEvent))
    (desiredByKey : List (String × DesiredHold)) (overlapPolicy : OverlapPolicy)
    (key : String) {es : List Emission}
    (h : keyEmissions unmanaged managedByKey desiredByKey overlapPolicy key = .ok es) :
    ∀ e ∈ es, goodEmission e := by
  unfold keyEmissions at h
  revert h
  cases mapGet desiredByKey key with
  | none =>
    intro h
    cases h
    simp
  | some desired =>
    cases (mapGet managedByKey key).getD [] with
    | nil =>
      cases overlapPolicy with
      | skip =>
        intro h
        dsimp only at h
        cases hb : findBlocker unmanaged desired.event with
        | error e =>
          rw [hb] at h
          simp [Except.map] at h
        | ok blocker =>
          rw [hb] at h
          cases blocker with
          | some b =>
            simp only [Except.map, Except.ok.injEq] at h
            subst h
            intro e he
            simp at he
            subst he
            simp [goodEmission, isMutating]
          | none =>
            simp only [Except.map, Except.ok.injEq] at h
            subst h
            intro e he
            simp at he
            subst he
            simp [goodEmission, isMutating]
      | allow =>
        intro h
        dsimp only at h
        cases h
        intro e he
        simp at he
        subst he
        simp [goodEmission, isMutating]
    | cons primary duplicates =>
      intro h
      dsimp only at h
      cases h
      intro e he
      rcases List.mem_append.mp he with he | he
      · by_cases heq : isEquivalent primary desired.event
        · simp [heq] at he
        · simp [heq] at he
          subst he
          simp [goodEmission, isMutating]
      · obtain ⟨dup, _, rfl⟩ := List.mem_map.mp he
        simp [goodEmission, isMutating]

theorem staleEmissions_good (managedByKey : List (String × List GogEvent))
    (desiredByKey : List (String × DesiredHold)) (key : String) :
    ∀ e ∈ staleEmissions managedByKey desiredByKey key, goodEmission e := by
  unfold staleEmissions
  by_cases hd : (mapGet desiredByKey key).isSome
  · simp [hd]
  · simp only [hd, if_false, Bool.false_eq_true]
    intro e he
    obtain ⟨stale, _, rfl⟩ := List.mem_map.mp he
    simp [goodEmission, isMutating]

theorem planEmissions_good (desiredHolds : List DesiredHold) (targetEvents : List GogEvent)
    (overlapPolicy : OverlapPolicy) {es : List Emission}
    (h : planEmissions desiredHolds targetEvents overlapPolicy = .ok es) :
    ∀ e ∈ es, goodEmission e := by
  simp only [planEmissions] at h
  cases hks : mapME
      (keyEmissions (splitManaged targetEvents).2
        (buildManagedByKey (sortById (splitManaged targetEvents).1))
        (buildDesiredByKey desiredHolds) overlapPolicy)
      (sortStrs (mapKeys (buildDesiredByKey desiredHolds))) with
  | error e2 => rw [hks] at h; simp [Except.map] at h
  | ok ls =>
    rw [hks] at h
    simp only [Except.map, Except.ok.injEq] at h
    subst h
    intro e he
    rcases List.mem_append.mp he with he | he
    · obtain ⟨es0, hes0, hin⟩ := mem_concatMap he
      obtain ⟨k, _, hk⟩ := mapME_mem hks es0 hes0
      exact keyEmissions_good _ _ _ _ _ hk e hin
    · obtain ⟨k, _, hin⟩ := mem_concatMap he
      exact staleEmissions_good _ _ k e hin

/-- Master correspondence: a budgeted run returns exactly the unbudgeted
run's plan with its mutating actions truncated to the budget, and `capped`
records whether the truncation dropped anything. -/
theorem planReconcile_capGo (desiredHolds : List DesiredHold) (targetEvents : List GogEvent)
    (overlapPolicy : OverlapPolicy) (b : Nat) :
    planReconcile desiredHolds targetEvents overlapPolicy b =
      (planFree desiredHolds targetEvents overlapPolicy).map (fun sF =>
        { actions := capGo b sF.actions,
          desiredCount := desiredHolds.length,
          existingManagedCount := (splitManaged targetEvents).1.length,
          capped := decide (b < mutCount sF.actions) }) := by
  unfold planReconcile planFree
  rw [planCore_emissions, planCore_emissions]
  cases hes : planEmissions desiredHolds targetEvents overlapPolicy with
  | error e => simp [Except.map, Bind.bind, Except.bind]
  | ok es =>
    simp only [Except.map, Bind.bind, Except.bind, pure, Except.pure, Except.ok.injEq]
    have hsim := fold_emissions_sim b es initState initState
      (planEmissions_good _ _ _ hes) rfl rfl rfl (by simp [initState]) (by simp [initState])
    obtain ⟨_, hF, hB, _, hcap⟩ := hsim
    rw [hB, hcap, hF]

instance : DecidableEq (Except PlanError PlanState)
  | .ok a, .ok b => decidable_of_iff (a = b) (by simp)
  | .ok _, .error _ => isFalse (by simp)
  | .error _, .ok _ => isFalse (by simp)
  | .error a, .error b => decidable_of_iff (a = b) (by simp)

/-- C3, budget enforcement: with budget `N ≥ 1` the plan carries at most `N`
mutating actions and every `skip_overlap` of the unbudgeted run; when the
mutations required to converge (the unbudgeted run's mutating actions)
exceed `N`, exactly `N` mutating actions are emitted and `capped` is set;
when they all fit, `capped` is false and the plan equals the unbudgeted
one. -/
theorem claim_C3 (desiredHolds : List DesiredHold) (targetEvents : List GogEvent)
    (overlapPolicy : OverlapPolicy) (N : Nat) (freeSt : PlanState) (plan : ReconcilePlan)
    (hN : 1 ≤ N)
    (hfree : planFree desiredHolds targetEvents overlapPolicy = .ok freeSt)
    (hok : planReconcile desiredHolds targetEvents overlapPolicy N = .ok plan) :
    mutCount plan.actions ≤ N ∧
    skipCount plan.actions = skipCount freeSt.actions ∧
    (N < mutCount freeSt.actions → mutCount plan.actions = N ∧ plan.capped = true) ∧
    (mutCount freeSt.actions ≤ N → plan.capped = false ∧ plan.actions = freeSt.actions) := by
  rw [planReconcile_capGo, hfree] at hok
  simp only [Except.map, Except.ok.injEq] at hok
  subst hok
  refine ⟨?_, ?_, ?_, ?_⟩
  · show mutCount (capGo N freeSt.actions) ≤ N
    rw [mutCount_capGo]
    omega
  · show skipCount (capGo N freeSt.actions) = skipCount freeSt.actions
    unfold skipCount
    rw [capGo_filter_nonmut]
  · intro hM
    constructor
    · show mutCount (capGo N freeSt.actions) = N
      rw [mutCount_capGo]
      omega
    · show decide (N < mutCount freeSt.actions) = true
      simp [hM]
  · intro hM
    constructor
    · show decide (N < mutCount freeSt.actions) = false
      simp
      omega
    · show capGo N freeSt.actions = freeSt.actions
      exact capGo_of_le _ _ hM

def wRef (eid : String) : SourceRef :=
  ⟨"acct@x.com", "cal", eid, "2026-03-01T10:00:00.000Z", "2026-03-01T11:00:00.000Z", "T"⟩

def wManaged (id eid : String) : GogEvent :=
  { id := id, summary := some "Busy", description := some (encodeSourceRef (wRef eid)),
    start := { dateTime := some "2026-03-01T10:00:00.000Z" },
    «end» := { dateTime := some "2026-03-01T11:00:00.000Z" } }

/-- Three stale managed events, budget 2. -/
def wTargets : List GogEvent := [wManaged "e1" "a", wManaged "e2" "b", wManaged "e3" "c"]

def wFreeSt : PlanState :=
  { actions := [.delete (wManaged "e1" "a"), .delete (wManaged "e2" "b"),
                .delete (wManaged "e3" "c")],
    changes := 3, capped := false }

def wPlan : ReconcilePlan :=
  { actions := [.delete (wManaged "e1" "a"), .delete (wManaged "e2" "b")],
    desiredCount := 0, existingManagedCount := 3, capped := true }

set_option maxHeartbeats 4000000 in
theorem claim_C3_witness :
    1 ≤ 2 ∧ planFree [] wTargets OverlapPolicy.allow = .ok wFreeSt ∧
    planReconcile [] wTargets OverlapPolicy.allow 2 = .ok wPlan ∧
    (mutCount wPlan.actions ≤ 2 ∧
     skipCount wPlan.actions = skipCount wFreeSt.actions ∧
     (2 < mutCount wFreeSt.actions → mutCount wPlan.actions = 2 ∧ wPlan.capped = true) ∧
     (mutCount wFreeSt.actions ≤ 2 → wPlan.capped = false ∧ wPlan.actions = wFreeSt.actions)) :=
  ⟨Nat.le_of_lt (by omega), by decide, by decide,
   claim_C3 [] wTargets OverlapPolicy.allow 2 wFreeSt wPlan (by omega) (by decide) (by decide)⟩

/-! ### Map characterizations

`managedByKey` buckets are exactly the key-filtered slices of the id-sorted
managed list; `desiredByKey` keeps the last hold registered per key. -/

/-- The matching key of a target event, when managed. -/
def keyOf (e : GogEvent) : Option String := (decodeSourceRef e.description).map holdKey

theorem mapGet_cons_eq (k : String) (v : α) (rest : List (String × α)) :
    mapGet ((k, v) :: rest) k = some v := by
  rw [mapGet, if_pos rfl]

theorem mapGet_cons_ne {k2 k' : String} (h : ¬k2 = k') (v : α) (rest : List (String × α)) :
    mapGet ((k2, v) :: rest) k' = mapGet rest k' := by
  rw [mapGet, if_neg h]

theorem mapGet_bucketsInsert (k k' : String) (e : GogEvent) :
    ∀ m : List (String × List GogEvent),
    mapGet (bucketsInsert m k e) k' =
      if k' = k then some ((mapGet m k).getD [] ++ [e]) else mapGet m k'
  | [] => by
    by_cases h : k' = k
    · subst h
      rw [if_pos rfl]
      show mapGet [(k', [e])] k' = _
      rw [mapGet_cons_eq]
      rfl
    · rw [if_neg h]
      show mapGet [(k, [e])] k' = mapGet [] k'
      rw [mapGet_cons_ne (fun hh => h hh.symm)]
  | (k2, v) :: rest => by
    by_cases h2 : k2 = k
    · subst h2
      rw [show bucketsInsert ((k2, v) :: rest) k2 e = (k2, v ++ [e]) :: rest from by
        rw [bucketsInsert, if_pos rfl]]
      by_cases h : k' = k2
      · subst h
        rw [if_pos rfl, mapGet_cons_eq, mapGet_cons_eq]
        rfl
      · rw [if_neg h, mapGet_cons_ne (fun hh => h hh.symm), mapGet_cons_ne (fun hh => h hh.symm)]
    · rw [show bucketsInsert ((k2, v) :: rest) k e = (k2, v) :: bucketsInsert rest k e from by
        rw [bucketsInsert, if_neg h2]]
      by_cases h : k' = k2
      · subst h
        rw [if_neg h2, mapGet_cons_eq, mapGet_cons_eq]
      · rw [mapGet_cons_ne (fun hh => h hh.symm), mapGet_cons_ne (fun hh => h hh.symm),
          mapGet_bucketsInsert k k' e rest]
        by_cases hk : k' = k
        · subst hk
          rw [if_pos rfl, if_pos rfl, mapGet_cons_ne (fun hh => h hh.symm)]
        · rw [if_neg hk, if_neg hk]

/-- The fold body of `buildManagedByKey`. -/
def managedStep (m : List (String × List GogEvent)) (event : GogEvent) :
    List (String × List GogEvent) :=
  match decodeSourceRef event.description with
  | none => m
  | some source => bucketsInsert m (holdKey source) event

theorem buildManagedByKey_eq_foldl (l : List GogEvent) :
    buildManagedByKey l = l.foldl managedStep [] := rfl

theorem mapGet_buildManaged_go :
    ∀ (l : List GogEvent) (m : List (String × List GogEvent)) (k : String),
    mapGet (l.foldl managedStep m) k =
      match mapGet m k with
      | some v => some (v ++ l.filter (fun e => keyOf e = some k))
      | none =>
        if l.filter (fun e => keyOf e = some k) = [] then none
        else some (l.filter (fun e => keyOf e = some k))
  | [], m, k => by
    cases h : mapGet m k <;> simp [h]
  | e :: l, m, k => by
    rw [List.foldl_cons]
    cases hd : decodeSourceRef e.description with
    | none =>
      have hstep : managedStep m e = m := by rw [managedStep, hd]
      have hkey : ¬(keyOf e = some k) := by simp [keyOf, hd]
      rw [hstep, List.filter_cons, if_neg (by simpa using hkey)]
      exact mapGet_buildManaged_go l m k
    | some source =>
      have hstep : managedStep m e = bucketsInsert m (holdKey source) e := by
        rw [managedStep, hd]
      rw [hstep, mapGet_buildManaged_go l (bucketsInsert m (holdKey source) e) k,
        mapGet_bucketsInsert]
      by_cases hk : k = holdKey source
      · rw [if_pos hk, ← hk]
        have hkey : keyOf e = some k := by simp [keyOf, hd, hk]
        have hfil : List.filter (fun x => decide (keyOf x = some k)) (e :: l) =
            e :: List.filter (fun x => decide (keyOf x = some k)) l := by
          rw [List.filter_cons, if_pos (by simpa using hkey)]
        rw [hfil]
        cases hm : mapGet m k <;> simp [hm]
      · have hkey : ¬(keyOf e = some k) := by
          simp only [keyOf, hd, Option.map_some']
          exact fun h => hk (by injection h with hh; exact hh.symm)
        have hfil : List.filter (fun x => decide (keyOf x = some k)) (e :: l) =
            List.filter (fun x => decide (keyOf x = some k)) l := by
          rw [List.filter_cons, if_neg (by simpa using hkey)]
        rw [if_neg hk, hfil]

theorem bucket_eq (l : List GogEvent) (k : String) :
    (mapGet (buildManagedByKey l) k).getD [] = l.filter (fun e => keyOf e = some k) := by
  rw [buildManagedByKey_eq_foldl, mapGet_buildManaged_go]
  show (match mapGet ([] : List (String × List GogEvent)) k with
    | some v => some (v ++ l.filter (fun e => keyOf e = some k))
    | none =>
      if l.filter (fun e => keyOf e = some k) = [] then none
      else some (l.filter (fun e => keyOf e = some k))).getD [] = _
  by_cases hf : l.filter (fun e => keyOf e = some k) = [] <;> simp [mapGet, hf]

theorem mapGet_eq_none_iff (k : String) :
    ∀ m : List (String × α), mapGet m k = none ↔ k ∉ mapKeys m
  | [] => by simp [mapGet, mapKeys]
  | (k2, v) :: rest => by
    by_cases h : k2 = k
    · subst h
      simp [mapGet_cons_eq, mapKeys]
    · rw [mapGet_cons_ne h]
      rw [mapGet_eq_none_iff k rest]
      show _ ↔ k ∉ k2 :: mapKeys rest
      simp only [List.mem_cons, not_or]
      constructor
      · exact fun hnot => ⟨fun hh => h hh.symm, hnot⟩
      · exact fun hnot => hnot.2

theorem buildManaged_mem_keys_iff (l : List GogEvent) (k : String) :
    k ∈ mapKeys (buildManagedByKey l) ↔ l.filter (fun e => keyOf e = some k) ≠ [] := by
  rw [← not_iff_not, not_not, ← mapGet_eq_none_iff, buildManagedByKey_eq_foldl,
    mapGet_buildManaged_go]
  show (match mapGet ([] : List (String × List GogEvent)) k with
    | some v => some (v ++ l.filter (fun e => keyOf e = some k))
    | none =>
      if l.filter (fun e => keyOf e = some k) = [] then none
      else some (l.filter (fun e => keyOf e = some k))) = none ↔ _
  by_cases hf : l.filter (fun e => keyOf e = some k) = [] <;> simp [mapGet, hf]

theorem mapKeys_bucketsInsert (k : String) (e : GogEvent) :
    ∀ m : List (String × List GogEvent),
    mapKeys (bucketsInsert m k e) =
      if (mapGet m k).isSome then mapKeys m else mapKeys m ++ [k]
  | [] => by simp [bucketsInsert, mapGet, mapKeys]
  | (k2, v) :: rest => by
    by_cases h2 : k2 = k
    · subst h2
      rw [show bucketsInsert ((k2, v) :: rest) k2 e = (k2, v ++ [e]) :: rest from by
        rw [bucketsInsert, if_pos rfl]]
      simp [mapGet_cons_eq, mapKeys]
    · rw [show bucketsInsert ((k2, v) :: rest) k e = (k2, v) :: bucketsInsert rest k e from by
        rw [bucketsInsert, if_neg h2]]
      rw [show mapGet ((k2, v) :: rest) k = mapGet rest k from mapGet_cons_ne h2 v rest]
      rw [show mapKeys ((k2, v) :: bucketsInsert rest k e) = k2 :: mapKeys (bucketsInsert rest k e)
        from rfl]
      rw [mapKeys_bucketsInsert k e rest]
      by_cases hs : (mapGet rest k).isSome <;> simp [hs, mapKeys]

theorem buildManaged_keys_nodup_go :
    ∀ (l : List GogEvent) (m : List (String × List GogEvent)),
    (mapKeys m).Nodup → (mapKeys (l.foldl managedStep m)).Nodup
  | [], m, h => h
  | e :: l, m, h => by
    rw [List.foldl_cons]
    apply buildManaged_keys_nodup_go l
    rw [managedStep]
    cases hd : decodeSourceRef e.description with
    | none => exact h
    | some source =>
      rw [mapKeys_bucketsInsert]
      by_cases hs : (mapGet m (holdKey source)).isSome
      · simp [hs, h]
      · simp only [hs, if_false, Bool.false_eq_true]
        rw [List.nodup_append]
        refine ⟨h, by simp, ?_⟩
        intro a ha hb
        simp at hb
        subst hb
        have hnone : mapGet m (holdKey source) = none := by
          cases hg : mapGet m (holdKey source) with
          | none => rfl
          | some v => simp [hg] at hs
        exact (mapGet_eq_none_iff _ m).mp hnone ha

theorem buildManaged_keys_nodup (l : List GogEvent) :
    (mapKeys (buildManagedByKey l)).Nodup :=
  buildManaged_keys_nodup_go l [] (by simp [mapKeys])

theorem mapGet_desiredInsert (k k' : String) (d : DesiredHold) :
    ∀ m : List (String × DesiredHold),
    mapGet (desiredInsert m k d) k' = if k' = k then some d else mapGet m k'
  | [] => by
    by_cases h : k' = k
    · subst h
      simp [desiredInsert, mapGet_cons_eq]
    · simp [desiredInsert, mapGet, h]
      exact fun hh => h hh.symm
  | (k2, v) :: rest => by
    by_cases h2 : k2 = k
    · subst h2
      rw [show desiredInsert ((k2, v) :: rest) k2 d = (k2, d) :: rest from by
        rw [desiredInsert, if_pos rfl]]
      by_cases h : k' = k2
      · subst h
        rw [if_pos rfl, mapGet_cons_eq]
      · rw [if_neg h, mapGet_cons_ne (fun hh => h hh.symm), mapGet_cons_ne (fun hh => h hh.symm)]
    · rw [show desiredInsert ((k2, v) :: rest) k d = (k2, v) :: desiredInsert rest k d from by
        rw [desiredInsert, if_neg h2]]
      by_cases h : k' = k2
      · subst h
        rw [if_neg h2, mapGet_cons_eq, mapGet_cons_eq]
      · rw [mapGet_cons_ne (fun hh => h hh.symm), mapGet_cons_ne (fun hh => h hh.symm),
          mapGet_desiredInsert k k' d rest]

/-- Last desired hold registered under key `k` ("last wins"). -/
def desiredLast (desiredHolds : List DesiredHold) (k : String) : Option DesiredHold :=
  desiredHolds.foldl (fun acc d => if holdKey d.source = k then some d else acc) none

theorem buildDesired_go :
    ∀ (dh : List DesiredHold) (m : List (String × DesiredHold)) (k : String),
    mapGet (dh.foldl (fun m d => desiredInsert m (holdKey d.source) d) m) k =
      dh.foldl (fun acc d => if holdKey d.source = k then some d else acc) (mapGet m k)
  | [], m, k => rfl
  | d :: dh, m, k => by
    rw [List.foldl_cons, List.foldl_cons, buildDesired_go dh _ k, mapGet_desiredInsert]
    by_cases h : holdKey d.source = k
    · rw [if_pos h, if_pos h.symm]
    · rw [if_neg h, if_neg (fun hh => h hh.symm)]

theorem mapGet_buildDesired (dh : List DesiredHold) (k : String) :
    mapGet (buildDesiredByKey dh) k = desiredLast dh k := by
  rw [show buildDesiredByKey dh =
    dh.foldl (fun m d => desiredInsert m (holdKey d.source) d) [] from rfl]
  rw [buildDesired_go]
  rfl

theorem desiredLast_mem :
    ∀ (dh : List DesiredHold) (k : String) {d : DesiredHold} (acc : Option DesiredHold),
    dh.foldl (fun acc d => if holdKey d.source = k then some d else acc) acc = some d →
    (d ∈ dh ∧ holdKey d.source = k) ∨ acc = some d
  | [], k, d, acc, h => Or.inr h
  | d2 :: dh, k, d, acc, h => by
    rw [List.foldl_cons] at h
    rcases desiredLast_mem dh k _ h with ⟨hmem, hk⟩ | hacc
    · exact Or.inl ⟨by simp [hmem], hk⟩
    · by_cases h2 : holdKey d2.source = k
      · rw [if_pos h2] at hacc
        cases hacc
        exact Or.inl ⟨by simp, h2⟩
      · rw [if_neg h2] at hacc
        exact Or.inr hacc

theorem desiredLast_some_mem (dh : List DesiredHold) (k : String) {d : DesiredHold}
    (h : desiredLast dh k = some d) : d ∈ dh ∧ holdKey d.source = k := by
  rcases desiredLast_mem dh k none h with h2 | h2
  · exact h2
  · cases h2

theorem insertStr_perm (s : String) : ∀ l : List String, (insertStr s l).Perm (s :: l)
  | [] => List.Perm.refl _
  | b :: bs => by
    rw [insertStr]
    by_cases h : strLe s b
    · rw [if_pos h]
    · rw [if_neg h]
      exact ((insertStr_perm s bs).cons b).trans (List.Perm.swap s b bs)

theorem sortStrs_perm : ∀ l : List String, (sortStrs l).Perm l
  | [] => List.Perm.refl _
  | x :: xs => calc
    (sortStrs (x :: xs)).Perm (x :: sortStrs xs) := insertStr_perm x (sortStrs xs)
    _ |>.Perm (x :: xs) := (sortStrs_perm xs).cons x

theorem insertById_perm (a : GogEvent) : ∀ l : List GogEvent, (insertById a l).Perm (a :: l)
  | [] => List.Perm.refl _
  | b :: bs => by
    rw [insertById]
    by_cases h : strLe a.id b.id
    · rw [if_pos h]
    · rw [if_neg h]
      exact ((insertById_perm a bs).cons b).trans (List.Perm.swap a b bs)

theorem sortById_perm : ∀ l : List GogEvent, (sortById l).Perm l
  | [] => List.Perm.refl _
  | x :: xs => ((insertById_perm x (sortById xs)).trans ((sortById_perm xs).cons x))

theorem splitManaged_fst :
    ∀ l : List GogEvent,
    (splitManaged l).1 = l.filter (fun e => (decodeSourceRef e.description).isSome)
  | [] => rfl
  | e :: l => by
    rw [splitManaged]
    by_cases h : (decodeSourceRef e.description).isSome
    · simp [h, splitManaged_fst l, List.filter_cons]
    · simp [h, splitManaged_fst l, List.filter_cons]

theorem splitManaged_snd :
    ∀ l : List GogEvent,
    (splitManaged l).2 = l.filter (fun e => !(decodeSourceRef e.description).isSome)
  | [] => rfl
  | e :: l => by
    rw [splitManaged]
    by_cases h : (decodeSourceRef e.description).isSome
    · have h2 : ¬(decodeSourceRef e.description = none) := by
        cases hg : decodeSourceRef e.description
        · simp [hg] at h
        · simp
      simp [h, h2, splitManaged_snd l, List.filter_cons]
    · have h2 : decodeSourceRef e.description = none := by
        cases hg : decodeSourceRef e.description
        · rfl
        · simp [hg] at h
      simp [h, h2, splitManaged_snd l, List.filter_cons]

/-! ### At most one action per target event (claim C10) -/

/-- The target event id of a mutation aimed at an existing event. -/
def actionTargetId : ReconcileAction → Option String
  | .update existing _ => some existing.id
  | .delete existing => some existing.id
  | _ => none

/-- Ids of existing events targeted by a list of emissions. -/
def emTargets (es : List Emission) : List String :=
  (es.map emissionAction).filterMap actionTargetId

theorem fold_free_actions :
    ∀ (es : List Emission) (st : PlanState),
    (es.foldl (applyEmission freeMutate) st).actions = st.actions ++ es.map emissionAction
  | [], st => by simp
  | e :: es, st => by
    rw [List.foldl_cons, fold_free_actions es]
    cases e with
    | skipE a => simp [applyEmission, emissionAction]
    | tryE a => simp [applyEmission, freeMutate, emissionAction]

theorem planFree_actions {desiredHolds : List DesiredHold} {targetEvents : List GogEvent}
    {overlapPolicy : OverlapPolicy} {sF : PlanState}
    (h : planFree desiredHolds targetEvents overlapPolicy = .ok sF) :
    ∃ es, planEmissions desiredHolds targetEvents overlapPolicy = .ok es ∧
      sF.actions = es.map emissionAction := by
  rw [planFree, planCore_emissions] at h
  cases hes : planEmissions desiredHolds targetEvents overlapPolicy with
  | error e => rw [hes] at h; simp [Except.map] at h
  | ok es =>
    rw [hes] at h
    simp only [Except.map, Except.ok.injEq] at h
    subst h
    exact ⟨es, rfl, by rw [fold_free_actions]; rfl⟩

theorem emTargets_append (l1 l2 : List Emission) :
    emTargets (l1 ++ l2) = emTargets l1 ++ emTargets l2 := by
  unfold emTargets
  rw [List.map_append, List.filterMap_append]

/-- Per-key targets of the desired pass, as a total function. -/
def keyTargets (unmanaged : List GogEvent) (managedByKey : List (String × List GogEvent))
    (desiredByKey : List (String × DesiredHold)) (overlapPolicy : OverlapPolicy)
    (key : String) : List String :=
  match keyEmissions unmanaged managedByKey desiredByKey overlapPolicy key with
  | .ok es => emTargets es
  | .error _ => []

theorem mapME_map_emTargets {f : String → Except PlanError (List Emission)} :
    ∀ {ks : List String} {ls : List (List Emission)}, mapME f ks = .ok ls →
    ls.map emTargets = ks.map (fun k =>
      match f k with
      | .ok es => emTargets es
      | .error _ => []) := by
  intro ks
  induction ks with
  | nil =>
    intro ls h
    simp only [mapME] at h
    cases h
    rfl
  | cons k ks ih =>
    intro ls h
    simp only [mapME] at h
    cases hk : f k with
    | error e => rw [hk] at h; simp [Bind.bind, Except.bind] at h
    | ok es =>
      rw [hk] at h
      simp only [Bind.bind, Except.bind] at h
      cases hks : mapME f ks with
      | error e => rw [hks] at h; simp [Except.map] at h
      | ok ls0 =>
        rw [hks] at h
        simp only [Except.map, Except.ok.injEq] at h
        subst h
        rw [List.map_cons, List.map_cons, ih hks, hk]

theorem concatMap_emTargets {g : α → List Emission} :
    ∀ xs : List α, emTargets (concatMap g xs) = concatMap (fun x => emTargets (g x)) xs
  | [] => rfl
  | x :: xs => by
    rw [show concatMap g (x :: xs) = g x ++ concatMap g xs from rfl, emTargets_append,
      concatMap_emTargets xs]
    rfl

theorem concatMap_congr_map {g : α → List γ} {g2 : β → List γ} :
    ∀ {xs : List α} {ys : List β}, xs.map g = ys.map g2 → concatMap g xs = concatMap g2 ys
  | [], [], _ => rfl
  | [], _ :: _, h => by simp at h
  | _ :: _, [], h => by simp at h
  | x :: xs, y :: ys, h => by
    simp only [List.map_cons, List.cons.injEq] at h
    rw [show concatMap g (x :: xs) = g x ++ concatMap g xs from rfl,
      show concatMap g2 (y :: ys) = g2 y ++ concatMap g2 ys from rfl,
      h.1, concatMap_congr_map h.2]

theorem nodup_concatMap_keys (g : String → List String) :
    ∀ ks : List String, ks.Nodup → (∀ k ∈ ks, (g k).Nodup) →
    (∀ k k2, k ≠ k2 → ∀ x ∈ g k, x ∉ g k2) →
    (concatMap g ks).Nodup
  | [], _, _, _ => List.nodup_nil
  | k :: ks, hnd, h1, h2 => by
    rw [show concatMap g (k :: ks) = g k ++ concatMap g ks from rfl]
    rw [List.nodup_append]
    refine ⟨h1 k (by simp), nodup_concatMap_keys g ks (by simp at hnd; exact hnd.2)
      (fun k2 hk2 => h1 k2 (by simp [hk2])) h2, ?_⟩
    intro x hx hx2
    obtain ⟨k2, hk2, hxk2⟩ := mem_concatMap hx2
    have hne : k ≠ k2 := by
      intro hkk
      subst hkk
      simp at hnd
      exact hnd.1 hk2
    exact h2 k k2 hne x hx hxk2

theorem emTargets_tryDeletes (l : List GogEvent) :
    emTargets (l.map (fun dup => .tryE (.delete dup))) = l.map GogEvent.id := by
  unfold emTargets
  rw [List.map_map, List.filterMap_map]
  exact congrFun (List.filterMap_eq_map GogEvent.id) l

theorem keyTargets_sublist (unmanaged : List GogEvent)
    (managedByKey : List (String × List GogEvent))
    (desiredByKey : List (String × DesiredHold)) (overlapPolicy : OverlapPolicy)
    (key : String) :
    (keyTargets unmanaged managedByKey desiredByKey overlapPolicy key).Sublist
      (((mapGet managedByKey key).getD []).map GogEvent.id) := by
  unfold keyTargets
  cases hk : keyEmissions unmanaged managedByKey desiredByKey overlapPolicy key with
  | error e => simp
  | ok es =>
    unfold keyEmissions at hk
    revert hk
    cases mapGet desiredByKey key with
    | none =>
      intro hk
      cases hk
      simp [emTargets]
    | some desired =>
      cases hbk : (mapGet managedByKey key).getD [] with
      | nil =>
        cases overlapPolicy with
        | skip =>
          intro hk
          dsimp only at hk
          cases hb : findBlocker unmanaged desired.event with
          | error e => rw [hb] at hk; simp [Except.map] at hk
          | ok blocker =>
            rw [hb] at hk
            cases blocker with
            | some b =>
              simp only [Except.map, Except.ok.injEq] at hk
              subst hk
              simp [emTargets, emissionAction, actionTargetId]
            | none =>
              simp only [Except.map, Except.ok.injEq] at hk
              subst hk
              simp [emTargets, emissionAction, actionTargetId]
        | allow =>
          intro hk
          dsimp only at hk
          cases hk
          simp [emTargets, emissionAction, actionTargetId]
      | cons primary duplicates =>
        intro hk
        dsimp only at hk
        cases hk
        dsimp only
        rw [emTargets_append, emTargets_tryDeletes, List.map_cons]
        by_cases heq : isEquivalent primary desired.event
        · rw [if_pos heq]
          show ((emTargets []) ++ duplicates.map GogEvent.id).Sublist _
          rw [show emTargets [] = [] from rfl, List.nil_append]
          exact (List.Sublist.refl _).cons _
        · rw [if_neg heq]
          show ((emTargets [.tryE (.update primary desired)]) ++
            duplicates.map GogEvent.id).Sublist _
          rw [show emTargets [.tryE (.update primary desired)] = [primary.id] from rfl]
          exact (List.Sublist.refl _).cons₂ _

theorem staleTargets_sublist (managedByKey : List (String × List GogEvent))
    (desiredByKey : List (String × DesiredHold)) (key : String) :
    (emTargets (staleEmissions managedByKey desiredByKey key)).Sublist
      (((mapGet managedByKey key).getD []).map GogEvent.id) := by
  unfold staleEmissions
  by_cases hd : (mapGet desiredByKey key).isSome
  · simp [hd, emTargets]
  · simp only [hd, if_false, Bool.false_eq_true]
    rw [emTargets_tryDeletes]

theorem staleEmissions_empty_of_desired {managedByKey : List (String × List GogEvent)}
    {desiredByKey : List (String × DesiredHold)} {key : String}
    (hd : (mapGet desiredByKey key).isSome) :
    staleEmissions managedByKey desiredByKey key = [] := by
  unfold staleEmissions
  rw [if_pos hd]

theorem mapKeys_desiredInsert (k : String) (d : DesiredHold) :
    ∀ m : List (String × DesiredHold),
    mapKeys (desiredInsert m k d) =
      if (mapGet m k).isSome then mapKeys m else mapKeys m ++ [k]
  | [] => by simp [desiredInsert, mapGet, mapKeys]
  | (k2, v) :: rest => by
    by_cases h2 : k2 = k
    · subst h2
      rw [show desiredInsert ((k2, v) :: rest) k2 d = (k2, d) :: rest from by
        rw [desiredInsert, if_pos rfl]]
      simp [mapGet_cons_eq, mapKeys]
    · rw [show desiredInsert ((k2, v) :: rest) k d = (k2, v) :: desiredInsert rest k d from by
        rw [desiredInsert, if_neg h2]]
      rw [show mapGet ((k2, v) :: rest) k = mapGet rest k from mapGet_cons_ne h2 v rest]
      rw [show mapKeys ((k2, v) :: desiredInsert rest k d) = k2 :: mapKeys (desiredInsert rest k d)
        from rfl]
      rw [mapKeys_desiredInsert k d rest]
      by_cases hs : (mapGet rest k).isSome <;> simp [hs, mapKeys]

theorem buildDesired_keys_nodup_go :
    ∀ (dh : List DesiredHold) (m : List (String × DesiredHold)),
    (mapKeys m).Nodup →
    (mapKeys (dh.foldl (fun m d => desiredInsert m (holdKey d.source) d) m)).Nodup
  | [], _, h => h
  | d :: dh, m, h => by
    rw [List.foldl_cons]
    apply buildDesired_keys_nodup_go dh
    rw [mapKeys_desiredInsert]
    by_cases hs : (mapGet m (holdKey d.source)).isSome
    · simp [hs, h]
    · simp only [hs, if_false, Bool.false_eq_true]
      rw [List.nodup_append]
      refine ⟨h, by simp, ?_⟩
      intro a ha hb
      simp at hb
      subst hb
      have hnone : mapGet m (holdKey d.source) = none := by
        cases hg : mapGet m (holdKey d.source) with
        | none => rfl
        | some v => simp [hg] at hs
      exact (mapGet_eq_none_iff _ m).mp hnone ha

theorem buildDesired_keys_nodup (dh : List DesiredHold) :
    (mapKeys (buildDesiredByKey dh)).Nodup :=
  buildDesired_keys_nodup_go dh [] (by simp [mapKeys])

theorem sortedManaged_ids_nodup {targetEvents : List GogEvent}
    (hids : (targetEvents.map GogEvent.id).Nodup) :
    ((sortById (splitManaged targetEvents).1).map GogEvent.id).Nodup := by
  have h1 : ((splitManaged targetEvents).1.map GogEvent.id).Nodup := by
    rw [splitManaged_fst]
    exact List.Nodup.sublist ((List.filter_sublist _).map _) hids
  exact ((sortById_perm _).map _).nodup_iff.mpr h1

theorem bucket_ids_nodup {targetEvents : List GogEvent}
    (hids : (targetEvents.map GogEvent.id).Nodup) (k : String) :
    (((mapGet (buildManagedByKey (sortById (splitManaged targetEvents).1)) k).getD []).map
      GogEvent.id).Nodup := by
  rw [bucket_eq]
  exact List.Nodup.sublist ((List.filter_sublist _).map _) (sortedManaged_ids_nodup hids)

theorem bucket_mem_key {l : List GogEvent} {k : String} {e : GogEvent}
    (h : e ∈ (mapGet (buildManagedByKey l) k).getD []) :
    e ∈ l ∧ keyOf e = some k := by
  rw [bucket_eq] at h
  have h2 := List.of_mem_filter h
  exact ⟨List.mem_of_mem_filter h, by simpa using h2⟩

theorem bucket_ids_disjoint {targetEvents : List GogEvent}
    (hids : (targetEvents.map GogEvent.id).Nodup) {k k2 : String} (hne : k ≠ k2) :
    ∀ x ∈ ((mapGet (buildManagedByKey (sortById (splitManaged targetEvents).1)) k).getD []).map
      GogEvent.id,
    x ∉ ((mapGet (buildManagedByKey (sortById (splitManaged targetEvents).1)) k2).getD []).map
      GogEvent.id := by
  intro x hx hx2
  obtain ⟨e, he, rfl⟩ := List.mem_map.mp hx
  obtain ⟨e2, he2, hid⟩ := List.mem_map.mp hx2
  obtain ⟨hme, hke⟩ := bucket_mem_key he
  obtain ⟨hme2, hke2⟩ := bucket_mem_key he2
  have heq : e2 = e :=
    List.inj_on_of_nodup_map (sortedManaged_ids_nodup hids) hme2 hme hid
  subst heq
  rw [hke] at hke2
  exact hne (by injection hke2)

theorem planFree_targets_nodup {desiredHolds : List DesiredHold} {targetEvents : List GogEvent}
    {overlapPolicy : OverlapPolicy} {sF : PlanState}
    (hids : (targetEvents.map GogEvent.id).Nodup)
    (h : planFree desiredHolds targetEvents overlapPolicy = .ok sF) :
    (sF.actions.filterMap actionTargetId).Nodup := by
  obtain ⟨es, hes, hact⟩ := planFree_actions h
  rw [hact]
  show (emTargets es).Nodup
  simp only [planEmissions] at hes
  cases hls : mapME
      (keyEmissions (splitManaged targetEvents).2
        (buildManagedByKey (sortById (splitManaged targetEvents).1))
        (buildDesiredByKey desiredHolds) overlapPolicy)
      (sortStrs (mapKeys (buildDesiredByKey desiredHolds))) with
  | error e => rw [hls] at hes; simp [Except.map] at hes
  | ok ls =>
    rw [hls] at hes
    simp only [Except.map, Except.ok.injEq] at hes
    subst hes
    rw [emTargets_append, concatMap_emTargets, concatMap_emTargets]
    have hmapeq := mapME_map_emTargets hls
    have hstep : concatMap (fun x => emTargets x) ls =
        concatMap (keyTargets (splitManaged targetEvents).2
          (buildManagedByKey (sortById (splitManaged targetEvents).1))
          (buildDesiredByKey desiredHolds) overlapPolicy)
          (sortStrs (mapKeys (buildDesiredByKey desiredHolds))) :=
      concatMap_congr_map hmapeq
    rw [hstep]
    rw [List.nodup_append]
    have hksnd : (sortStrs (mapKeys (buildDesiredByKey desiredHolds))).Nodup :=
      (sortStrs_perm _).nodup_iff.mpr (buildDesired_keys_nodup desiredHolds)
    have hsknd : (sortStrs (mapKeys (buildManagedByKey
        (sortById (splitManaged targetEvents).1)))).Nodup :=
      (sortStrs_perm _).nodup_iff.mpr (buildManaged_keys_nodup _)
    have hkdisj : ∀ k k2, k ≠ k2 →
        ∀ x ∈ keyTargets (splitManaged targetEvents).2
          (buildManagedByKey (sortById (splitManaged targetEvents).1))
          (buildDesiredByKey desiredHolds) overlapPolicy k,
        x ∉ keyTargets (splitManaged targetEvents).2
          (buildManagedByKey (sortById (splitManaged targetEvents).1))
          (buildDesiredByKey desiredHolds) overlapPolicy k2 := by
      intro k k2 hne x hx hx2
      exact bucket_ids_disjoint hids hne x
        ((keyTargets_sublist _ _ _ _ k).subset hx)
        ((keyTargets_sublist _ _ _ _ k2).subset hx2)
    refine ⟨nodup_concatMap_keys _ _ hksnd
      (fun k _ => List.Nodup.sublist (keyTargets_sublist _ _ _ _ k) (bucket_ids_nodup hids k))
      hkdisj, ?_, ?_⟩
    · apply nodup_concatMap_keys _ _ hsknd
      · intro k _
        exact List.Nodup.sublist (staleTargets_sublist _ _ k) (bucket_ids_nodup hids k)
      · intro k k2 hne x hx hx2
        exact bucket_ids_disjoint hids hne x
          ((staleTargets_sublist _ _ k).subset hx)
          ((staleTargets_sublist _ _ k2).subset hx2)
    · intro x hx hx2
      obtain ⟨k, hk, hxk⟩ := mem_concatMap hx
      obtain ⟨k2, _, hxk2⟩ := mem_concatMap hx2
      have hk2none : ¬(mapGet (buildDesiredByKey desiredHolds) k2).isSome := by
        intro hsome
        rw [staleEmissions_empty_of_desired hsome] at hxk2
        simp [emTargets] at hxk2
      have hksome : (mapGet (buildDesiredByKey desiredHolds) k).isSome := by
        have hmem : k ∈ mapKeys (buildDesiredByKey desiredHolds) :=
          (sortStrs_perm _).mem_iff.mp hk
        cases hg : mapGet (buildDesiredByKey desiredHolds) k with
        | none => exact absurd hmem ((mapGet_eq_none_iff _ _).mp hg)
        | some d => simp
      have hne : k ≠ k2 := fun hkk => hk2none (hkk ▸ hksome)
      exact bucket_ids_disjoint hids hne x
        ((keyTargets_sublist _ _ _ _ k).subset hxk)
        ((staleTargets_sublist _ _ k2).subset hxk2)

/-- C10 (implicit): when the target events carry pairwise-distinct ids, each
target event is the subject of at most one action in the returned plan — no
event appears in two updates, two deletes, or an update and a delete. -/
theorem claim_C10 (desiredHolds : List DesiredHold) (targetEvents : List GogEvent)
    (overlapPolicy : OverlapPolicy) (N : Nat) (plan : ReconcilePlan)
    (hids : (targetEvents.map GogEvent.id).Nodup)
    (hok : planReconcile desiredHolds targetEvents overlapPolicy N = .ok plan) :
    (plan.actions.filterMap actionTargetId).Nodup := by
  rw [planReconcile_capGo] at hok
  cases hF : planFree desiredHolds targetEvents overlapPolicy with
  | error e => rw [hF] at hok; simp [Except.map] at hok
  | ok sF =>
    rw [hF] at hok
    simp only [Except.map, Except.ok.injEq] at hok
    subst hok
    show ((capGo N sF.actions).filterMap actionTargetId).Nodup
    exact List.Nodup.sublist ((capGo_sublist _ _).filterMap _) (planFree_targets_nodup hids hF)

set_option maxHeartbeats 4000000 in
theorem claim_C10_witness :
    ((wTargets.map GogEvent.id).Nodup ∧
     planReconcile [] wTargets OverlapPolicy.allow 2 = .ok wPlan) ∧
    (wPlan.actions.filterMap actionTargetId).Nodup :=
  ⟨⟨by decide, by decide⟩,
   claim_C10 [] wTargets OverlapPolicy.allow 2 wPlan (by decide) (by decide)⟩

/-! ### Unmanaged events are never touched (claim C4) -/

/-- The existing event a mutation is aimed at, when any. -/
def actionTarget : ReconcileAction → Option GogEvent
  | .update existing _ => some existing
  | .delete existing => some existing
  | _ => none

theorem keyEmissions_target_mem (unmanaged : List GogEvent)
    (managedByKey : List (String × List GogEvent))
    (desiredByKey : List (String × DesiredHold)) (overlapPolicy : OverlapPolicy)
    (key : String) {es : List Emission}
    (h : keyEmissions unmanaged managedByKey desiredByKey overlapPolicy key = .ok es) :
    ∀ em ∈ es, ∀ e, actionTarget (emissionAction em) = some e →
      e ∈ (mapGet managedByKey key).getD [] := by
  unfold keyEmissions at h
  revert h
  cases mapGet desiredByKey key with
  | none =>
    intro h
    cases h
    simp
  | some desired =>
    cases hbk : (mapGet managedByKey key).getD [] with
    | nil =>
      cases overlapPolicy with
      | skip =>
        intro h
        dsimp only at h
        cases hb : findBlocker unmanaged desired.event with
        | error e2 => rw [hb] at h; simp [Except.map] at h
        | ok blocker =>
          rw [hb] at h
          cases blocker with
          | some b =>
            simp only [Except.map, Except.ok.injEq] at h
            subst h
            intro em hem e he
            simp at hem
            subst hem
            simp [emissionAction, actionTarget] at he
          | none =>
            simp only [Except.map, Except.ok.injEq] at h
            subst h
            intro em hem e he
            simp at hem
            subst hem
            simp [emissionAction, actionTarget] at he
      | allow =>
        intro h
        dsimp only at h
        cases h
        intro em hem e he
        simp at hem
        subst hem
        simp [emissionAction, actionTarget] at he
    | cons primary duplicates =>
      intro h
      dsimp only at h
      cases h
      intro em hem e he
      rcases List.mem_append.mp hem with hem | hem
      · by_cases heq : isEquivalent primary desired.event
        · simp [heq] at hem
        · simp [heq] at hem
          subst hem
          simp only [emissionAction, actionTarget, Option.some.injEq] at he
          subst he
          simp
      · obtain ⟨dup, hdup, rfl⟩ := List.mem_map.mp hem
        simp only [emissionAction, actionTarget, Option.some.injEq] at he
        subst he
        simp [hdup]

theorem staleEmissions_target_mem (managedByKey : List (String × List GogEvent))
    (desiredByKey : List (String × DesiredHold)) (key : String) :
    ∀ em ∈ staleEmissions managedByKey desiredByKey key, ∀ e,
      actionTarget (emissionAction em) = some e →
      e ∈ (mapGet managedByKey key).getD [] := by
  unfold staleEmissions
  by_cases hd : (mapGet desiredByKey key).isSome
  · simp [hd]
  · simp only [hd, if_false, Bool.false_eq_true]
    intro em hem e he
    obtain ⟨stale, hst, rfl⟩ := List.mem_map.mp hem
    simp only [emissionAction, actionTarget, Option.some.injEq] at he
    subst he
    exact hst

theorem bucket_mem_source {targetEvents : List GogEvent} {k : String} {e : GogEvent}
    (h : e ∈ (mapGet (buildManagedByKey (sortById (splitManaged targetEvents).1)) k).getD []) :
    e ∈ targetEvents ∧ (decodeSourceRef e.description).isSome := by
  obtain ⟨hmem, -⟩ := bucket_mem_key h
  have h1 : e ∈ (splitManaged targetEvents).1 := (sortById_perm _).mem_iff.mp hmem
  rw [splitManaged_fst] at h1
  exact ⟨List.mem_of_mem_filter h1, by simpa using List.of_mem_filter h1⟩

theorem planEmissions_target_mem (desiredHolds : List DesiredHold)
    (targetEvents : List GogEvent) (overlapPolicy : OverlapPolicy) {es : List Emission}
    (h : planEmissions desiredHolds targetEvents overlapPolicy = .ok es) :
    ∀ em ∈ es, ∀ e, actionTarget (emissionAction em) = some e →
      e ∈ targetEvents ∧ (decodeSourceRef e.description).isSome := by
  simp only [planEmissions] at h
  cases hks : mapME
      (keyEmissions (splitManaged targetEvents).2
        (buildManagedByKey (sortById (splitManaged targetEvents).1))
        (buildDesiredByKey desiredHolds) overlapPolicy)
      (sortStrs (mapKeys (buildDesiredByKey desiredHolds))) with
  | error e2 => rw [hks] at h; simp [Except.map] at h
  | ok ls =>
    rw [hks] at h
    simp only [Except.map, Except.ok.injEq] at h
    subst h
    intro em hem e he
    rcases List.mem_append.mp hem with hem | hem
    · obtain ⟨es0, hes0, hin⟩ := mem_concatMap hem
      obtain ⟨k, _, hk⟩ := mapME_mem hks es0 hes0
      exact bucket_mem_source (keyEmissions_target_mem _ _ _ _ _ hk em hin e he)
    · obtain ⟨k, _, hin⟩ := mem_concatMap hem
      exact bucket_mem_source (staleEmissions_target_mem _ _ k em hin e he)

/-- C4: every update and every delete in a returned plan targets an event of
targetEvents whose description decodes to a SourceRef (a managed event);
events that decode to absent are never mutated or deleted. -/
theorem claim_C4 (desiredHolds : List DesiredHold) (targetEvents : List GogEvent)
    (overlapPolicy : OverlapPolicy) (N : Nat) (plan : ReconcilePlan)
    (hok : planReconcile desiredHolds targetEvents overlapPolicy N = .ok plan) :
    ∀ a ∈ plan.actions, ∀ e, actionTarget a = some e →
      e ∈ targetEvents ∧ (decodeSourceRef e.description).isSome := by
  rw [planReconcile_capGo] at hok
  cases hF : planFree desiredHolds targetEvents overlapPolicy with
  | error e2 => rw [hF] at hok; simp [Except.map] at hok
  | ok sF =>
    rw [hF] at hok
    simp only [Except.map, Except.ok.injEq] at hok
    subst hok
    intro a ha e he
    have ha2 : a ∈ sF.actions := (capGo_sublist _ _).subset ha
    obtain ⟨es, hes, hact⟩ := planFree_actions hF
    rw [hact] at ha2
    obtain ⟨em, hem, rfl⟩ := List.mem_map.mp ha2
    exact planEmissions_target_mem _ _ _ hes em hem e he

set_option maxHeartbeats 4000000 in
theorem claim_C4_witness :
    (planReconcile [] wTargets OverlapPolicy.allow 2 = .ok wPlan ∧
     ReconcileAction.delete (wManaged "e1" "a") ∈ wPlan.actions ∧
     actionTarget (ReconcileAction.delete (wManaged "e1" "a")) = some (wManaged "e1" "a")) ∧
    (wManaged "e1" "a" ∈ wTargets ∧
     (decodeSourceRef (wManaged "e1" "a").description).isSome) :=
  ⟨⟨by decide, by decide, rfl⟩,
   claim_C4 [] wTargets OverlapPolicy.allow 2 wPlan (by decide)
     (ReconcileAction.delete (wManaged "e1" "a")) (by decide) (wManaged "e1" "a") rfl⟩

/-! ### Duplicate collapse (claim C5) -/

theorem charListLe_total : ∀ a b : List Char, charListLe a b = true ∨ charListLe b a = true
  | [], _ => Or.inl rfl
  | _ :: _, [] => Or.inr rfl
  | x :: as, y :: bs => by
    simp only [charListLe]
    rcases Nat.lt_trichotomy x.toNat y.toNat with h | h | h
    · left
      simp [h]
    · have h1 : ¬(x.toNat < y.toNat) := by omega
      have h2 : ¬(y.toNat < x.toNat) := by omega
      rw [if_neg h1, if_neg h2, if_neg h2, if_neg h1]
      exact charListLe_total as bs
    · right
      simp [h]

theorem charListLe_trans : ∀ (a b c : List Char),
    charListLe a b = true → charListLe b c = true → charListLe a c = true
  | [], _, _, _, _ => rfl
  | _ :: _, [], _, h1, _ => by simp [charListLe] at h1
  | _ :: _, _ :: _, [], _, h2 => by simp [charListLe] at h2
  | x :: as, y :: bs, z :: cs, h1, h2 => by
    simp only [charListLe] at h1 h2 ⊢
    rcases Nat.lt_trichotomy x.toNat y.toNat with hxy | hxy | hxy
    · rcases Nat.lt_trichotomy y.toNat z.toNat with hyz | hyz | hyz
      · simp [show x.toNat < z.toNat from by omega]
      · simp [show x.toNat < z.toNat from by omega]
      · rw [if_neg (show ¬(y.toNat < z.toNat) from by omega), if_pos hyz] at h2
        simp at h2
    · rw [if_neg (show ¬(x.toNat < y.toNat) from by omega),
        if_neg (show ¬(y.toNat < x.toNat) from by omega)] at h1
      rcases Nat.lt_trichotomy y.toNat z.toNat with hyz | hyz | hyz
      · simp [show x.toNat < z.toNat from by omega]
      · rw [if_neg (show ¬(y.toNat < z.toNat) from by omega),
          if_neg (show ¬(z.toNat < y.toNat) from by omega)] at h2
        rw [if_neg (show ¬(x.toNat < z.toNat) from by omega),
          if_neg (show ¬(z.toNat < x.toNat) from by omega)]
        exact charListLe_trans as bs cs h1 h2
      · rw [if_neg (show ¬(y.toNat < z.toNat) from by omega), if_pos hyz] at h2
        simp at h2
    · rw [if_neg (show ¬(x.toNat < y.toNat) from by omega), if_pos hxy] at h1
      simp at h1

theorem strLe_total (a b : String) : strLe a b = true ∨ strLe b a = true :=
  charListLe_total a.data b.data

theorem strLe_trans {a b c : String} (h1 : strLe a b = true) (h2 : strLe b c = true) :
    strLe a c = true :=
  charListLe_trans a.data b.data c.data h1 h2

theorem insertById_sorted (a : GogEvent) :
    ∀ l : List GogEvent, l.Pairwise (fun x y => strLe x.id y.id = true) →
    (insertById a l).Pairwise (fun x y => strLe x.id y.id = true)
  | [], _ => by simp [insertById]
  | b :: bs, h => by
    obtain ⟨hb, hbs⟩ := List.pairwise_cons.mp h
    rw [insertById]
    by_cases hab : strLe a.id b.id = true
    · rw [if_pos hab]
      refine List.pairwise_cons.mpr ⟨?_, h⟩
      intro x hx
      rcases List.mem_cons.mp hx with rfl | hx
      · exact hab
      · exact strLe_trans hab (hb x hx)
    · rw [if_neg hab]
      refine List.pairwise_cons.mpr ⟨?_, insertById_sorted a bs hbs⟩
      intro x hx
      rcases List.mem_cons.mp ((insertById_perm a bs).mem_iff.mp hx) with rfl | hx
      · rcases strLe_total x.id b.id with h1 | h1
        · exact absurd h1 hab
        · exact h1
      · exact hb x hx

theorem sortById_sorted : ∀ l : List GogEvent,
    (sortById l).Pairwise (fun x y => strLe x.id y.id = true)
  | [] => List.Pairwise.nil
  | x :: xs => by
    rw [sortById]
    exact insertById_sorted x (sortById xs) (sortById_sorted xs)

theorem bucket_sorted (targetEvents : List GogEvent) (k : String) :
    ((mapGet (buildManagedByKey (sortById (splitManaged targetEvents).1)) k).getD []).Pairwise
      (fun x y => strLe x.id y.id = true) := by
  rw [bucket_eq]
  exact List.Pairwise.sublist (List.filter_sublist _) (sortById_sorted _)

/-- Whether an action targets one of the two given existing events. -/
def hitsPair (e1 e2 : GogEvent) (a : ReconcileAction) : Bool :=
  decide (actionTarget a = some e1) || decide (actionTarget a = some e2)

theorem filter_eq_nil_of {p : α → Bool} : ∀ {l : List α}, (∀ x ∈ l, p x = false) →
    l.filter p = []
  | [], _ => rfl
  | x :: xs, h => by
    have hx := h x (by simp)
    have hrest : xs.filter p = [] :=
      filter_eq_nil_of (fun y hy => h y (List.mem_cons_of_mem x hy))
    simp [List.filter_cons, hx, hrest]

theorem concatMap_eq_nil {F : α → List β} : ∀ {l : List α}, (∀ x ∈ l, F x = []) →
    concatMap F l = []
  | [], _ => rfl
  | x :: xs, h => by
    rw [show concatMap F (x :: xs) = F x ++ concatMap F xs from rfl, h x (by simp),
      concatMap_eq_nil (fun y hy => h y (by simp [hy]))]
    rfl

theorem concatMap_id_map_filter (p : γ → Bool) (h : β → γ) :
    ∀ xs : List (List β), ((concatMap (fun l => l) xs).map h).filter p =
      concatMap (fun l => (l.map h).filter p) xs
  | [] => rfl
  | x :: xs => by
    rw [show concatMap (fun l => l) (x :: xs) = x ++ concatMap (fun l => l) xs from rfl,
      List.map_append, List.filter_append, concatMap_id_map_filter p h xs]
    rfl

theorem concatMap_map_filter (p : γ → Bool) (h : β → γ) (g : α → List β) :
    ∀ xs : List α, ((concatMap g xs).map h).filter p =
      concatMap (fun x => ((g x).map h).filter p) xs
  | [] => rfl
  | x :: xs => by
    rw [show concatMap g (x :: xs) = g x ++ concatMap g xs from rfl,
      List.map_append, List.filter_append, concatMap_map_filter p h g xs]
    rfl

theorem concatMap_single (F : List Emission → List ReconcileAction)
    {f : String → Except PlanError (List Emission)} {k : String} {esk : List Emission} :
    ∀ {ks : List String} {ls : List (List Emission)}, mapME f ks = .ok ls → ks.Nodup →
    k ∈ ks → f k = .ok esk →
    (∀ k2 ∈ ks, k2 ≠ k → ∀ es2, f k2 = .ok es2 → F es2 = []) →
    concatMap F ls = F esk := by
  intro ks
  induction ks with
  | nil =>
    intro ls _ _ hk
    simp at hk
  | cons k0 ks ih =>
    intro ls h hnd hk hfk hnil
    simp only [mapME] at h
    cases hk0 : f k0 with
    | error e => rw [hk0] at h; simp [Bind.bind, Except.bind] at h
    | ok es0 =>
      rw [hk0] at h
      simp only [Bind.bind, Except.bind] at h
      cases hks : mapME f ks with
      | error e => rw [hks] at h; simp [Except.map] at h
      | ok ls0 =>
        rw [hks] at h
        simp only [Except.map, Except.ok.injEq] at h
        subst h
        rw [show concatMap F (es0 :: ls0) = F es0 ++ concatMap F ls0 from rfl]
        simp only [List.nodup_cons] at hnd
        by_cases hkk : k0 = k
        · subst hkk
          have hes : es0 = esk := by
            rw [hk0] at hfk
            exact (Except.ok.injEq _ _).mp hfk
          subst hes
          have hrest : concatMap F ls0 = [] := by
            apply concatMap_eq_nil
            intro l hl
            obtain ⟨k2, hk2, hf2⟩ := mapME_mem hks l hl
            have hne : k2 ≠ k0 := fun he => hnd.1 (he ▸ hk2)
            exact hnil k2 (by simp [hk2]) hne l hf2
          rw [hrest, List.append_nil]
        · have hkmem : k ∈ ks := by
            rcases List.mem_cons.mp hk with h | h
            · exact absurd h.symm hkk
            · exact h
          have h0 : F es0 = [] := hnil k0 (by simp) hkk es0 hk0
          rw [h0, List.nil_append]
          exact ih hks hnd.2 hkmem hfk (fun k2 hk2 => hnil k2 (by simp [hk2]))

/-- C5: when exactly two managed target events share a derived key that is
also a desired key and the budget is not exhausted, the plan's actions
aimed at that pair are exactly one update (or none, when the primary is
field-equivalent to the desired event) of the event with the
lexicographically-first id, followed by exactly one delete of the other —
never two updates. -/
theorem claim_C5 (desiredHolds : List DesiredHold) (targetEvents : List GogEvent)
    (overlapPolicy : OverlapPolicy) (N : Nat) (plan : ReconcilePlan)
    (k : String) (d : DesiredHold) (e1 e2 : GogEvent)
    (hok : planReconcile desiredHolds targetEvents overlapPolicy N = .ok plan)
    (hcap : plan.capped = false)
    (hd : mapGet (buildDesiredByKey desiredHolds) k = some d)
    (hbk : (mapGet (buildManagedByKey (sortById (splitManaged targetEvents).1)) k).getD []
      = [e1, e2]) :
    strLe e1.id e2.id = true ∧
    plan.actions.filter (hitsPair e1 e2) =
      (if isEquivalent e1 d.event then [] else [ReconcileAction.update e1 d]) ++
        [ReconcileAction.delete e2] := by
  constructor
  · have hpw := bucket_sorted targetEvents k
    rw [hbk] at hpw
    exact (List.pairwise_cons.mp hpw).1 e2 (by simp)
  · rw [planReconcile_capGo] at hok
    cases hF : planFree desiredHolds targetEvents overlapPolicy with
    | error e => rw [hF] at hok; simp [Except.map] at hok
    | ok sF =>
      rw [hF] at hok
      simp only [Except.map, Except.ok.injEq] at hok
      subst hok
      have hle : mutCount sF.actions ≤ N := by
        simp at hcap
        omega
      show (capGo N sF.actions).filter (hitsPair e1 e2) = _
      rw [capGo_of_le _ _ hle]
      obtain ⟨es, hes, hact⟩ := planFree_actions hF
      rw [hact]
      simp only [planEmissions] at hes
      cases hks : mapME
          (keyEmissions (splitManaged targetEvents).2
            (buildManagedByKey (sortById (splitManaged targetEvents).1))
            (buildDesiredByKey desiredHolds) overlapPolicy)
          (sortStrs (mapKeys (buildDesiredByKey desiredHolds))) with
      | error e => rw [hks] at hes; simp [Except.map] at hes
      | ok ls =>
        rw [hks] at hes
        simp only [Except.map, Except.ok.injEq] at hes
        subst hes
        rw [List.map_append, List.filter_append, concatMap_id_map_filter,
          concatMap_map_filter]
        have he1mem : e1 ∈ (mapGet (buildManagedByKey
            (sortById (splitManaged targetEvents).1)) k).getD [] := by
          rw [hbk]
          simp
        have he2mem : e2 ∈ (mapGet (buildManagedByKey
            (sortById (splitManaged targetEvents).1)) k).getD [] := by
          rw [hbk]
          simp
        have hkey1 : keyOf e1 = some k := (bucket_mem_key he1mem).2
        have hkey2 : keyOf e2 = some k := (bucket_mem_key he2mem).2
        have hne_of : ∀ (e : GogEvent) (k2 : String), keyOf e = some k2 → k2 ≠ k →
            e ≠ e1 ∧ e ≠ e2 := by
          intro e k2 hke hne
          constructor
          · intro hh
            subst hh
            exact hne (Option.some.inj (hkey1.symm.trans hke)).symm
          · intro hh
            subst hh
            exact hne (Option.some.inj (hkey2.symm.trans hke)).symm
        have hnilkey : ∀ k2 ∈ sortStrs (mapKeys (buildDesiredByKey desiredHolds)), k2 ≠ k →
            ∀ es2, keyEmissions (splitManaged targetEvents).2
              (buildManagedByKey (sortById (splitManaged targetEvents).1))
              (buildDesiredByKey desiredHolds) overlapPolicy k2 = .ok es2 →
            (es2.map emissionAction).filter (hitsPair e1 e2) = [] := by
          intro k2 _ hne es2 hok2
          apply filter_eq_nil_of
          intro a ha
          obtain ⟨em, hem, rfl⟩ := List.mem_map.mp ha
          cases hat : actionTarget (emissionAction em) with
          | none => simp [hitsPair, hat]
          | some e =>
            have hmem := keyEmissions_target_mem _ _ _ _ _ hok2 em hem e hat
            obtain ⟨hne1, hne2⟩ := hne_of e k2 (bucket_mem_key hmem).2 hne
            simp [hitsPair, hat, hne1, hne2]
        have hstale : concatMap (fun x => ((staleEmissions
            (buildManagedByKey (sortById (splitManaged targetEvents).1))
            (buildDesiredByKey desiredHolds) x).map emissionAction).filter (hitsPair e1 e2))
            (sortStrs (mapKeys (buildManagedByKey
              (sortById (splitManaged targetEvents).1)))) = [] := by
          apply concatMap_eq_nil
          intro k2 _
          by_cases hk2 : k2 = k
          · subst hk2
            rw [staleEmissions_empty_of_desired (by rw [hd]; rfl)]
            rfl
          · apply filter_eq_nil_of
            intro a ha
            obtain ⟨em, hem, rfl⟩ := List.mem_map.mp ha
            cases hat : actionTarget (emissionAction em) with
            | none => simp [hitsPair, hat]
            | some e =>
              have hmem := staleEmissions_target_mem _ _ k2 em hem e hat
              obtain ⟨hne1, hne2⟩ := hne_of e k2 (bucket_mem_key hmem).2 hk2
              simp [hitsPair, hat, hne1, hne2]
        have hfk : keyEmissions (splitManaged targetEvents).2
            (buildManagedByKey (sortById (splitManaged targetEvents).1))
            (buildDesiredByKey desiredHolds) overlapPolicy k
            = .ok ((if isEquivalent e1 d.event then []
                    else [Emission.tryE (.update e1 d)]) ++ [Emission.tryE (.delete e2)]) := by
          unfold keyEmissions
          rw [hd, hbk]
          rfl
        have hkmem : k ∈ sortStrs (mapKeys (buildDesiredByKey desiredHolds)) := by
          apply (sortStrs_perm _).mem_iff.mpr
          by_contra hnot
          have hn := (mapGet_eq_none_iff k _).mpr hnot
          rw [hd] at hn
          simp at hn
        have hnd : (sortStrs (mapKeys (buildDesiredByKey desiredHolds))).Nodup :=
          (sortStrs_perm _).nodup_iff.mpr (buildDesired_keys_nodup _)
        rw [concatMap_single (fun l => (l.map emissionAction).filter (hitsPair e1 e2))
          hks hnd hkmem hfk hnilkey, hstale, List.append_nil]
        by_cases heq : isEquivalent e1 d.event
        · simp [heq, emissionAction, hitsPair, actionTarget]
        · simp [heq, emissionAction, hitsPair, actionTarget]

def dHoldEvent : GogEvent :=
  { id := "hold-dup", summary := some "Busy2",
    description := some (encodeSourceRef (wRef "dup")),
    start := { dateTime := some "2026-03-01T10:00:00.000Z" },
    «end» := { dateTime := some "2026-03-01T11:00:00.000Z" } }

def dHold : DesiredHold := { source := wRef "dup", event := dHoldEvent }

def dM1 : GogEvent := wManaged "m1" "dup"

def dM2 : GogEvent := wManaged "m2" "dup"

def dPlan : ReconcilePlan :=
  { actions := [.update dM1 dHold, .delete dM2], desiredCount := 1,
    existingManagedCount := 2, capped := false }

set_option maxHeartbeats 4000000 in
theorem claim_C5_witness :
    (planReconcile [dHold] [dM1, dM2] OverlapPolicy.allow 5 = .ok dPlan ∧
     dPlan.capped = false ∧
     mapGet (buildDesiredByKey [dHold]) (holdKey (wRef "dup")) = some dHold ∧
     (mapGet (buildManagedByKey (sortById (splitManaged [dM1, dM2]).1))
        (holdKey (wRef "dup"))).getD [] = [dM1, dM2]) ∧
    (strLe dM1.id dM2.id = true ∧
     dPlan.actions.filter (hitsPair dM1 dM2) =
       (if isEquivalent dM1 dHold.event then [] else [ReconcileAction.update dM1 dHold]) ++
         [ReconcileAction.delete dM2]) :=
  ⟨⟨by decide, by decide, by decide, by decide⟩,
   claim_C5 [dHold] [dM1, dM2] OverlapPolicy.allow 5 dPlan (holdKey (wRef "dup")) dHold dM1 dM2
     (by decide) (by decide) (by decide) (by decide)⟩

/-! ### Failure semantics (claim C7) -/

/-- Whether an Except value carries a result. -/
def isOkE : Except ε α → Bool
  | .ok _ => true
  | .error _ => false

theorem isOverlap_ok {a b : GogEvent} (ha : isOkE (eventRange a) = true)
    (hb : isOkE (eventRange b) = true) : ∃ r, isOverlap a b = .ok r := by
  unfold isOverlap
  cases hra : eventRange a with
  | error e => rw [hra] at ha; simp [isOkE] at ha
  | ok x =>
    cases hrb : eventRange b with
    | error e => rw [hrb] at hb; simp [isOkE] at hb
    | ok y =>
      exact ⟨decide (x.1 < y.2) && decide (y.1 < x.2),
        by simp [hra, hrb, Bind.bind, Except.bind, pure, Except.pure]⟩

theorem findBlocker_ok (desiredEvent : GogEvent)
    (hd : isOkE (eventRange desiredEvent) = true) :
    ∀ unmanaged : List GogEvent, (∀ c ∈ unmanaged, isOkE (eventRange c) = true) →
    ∃ b, findBlocker unmanaged desiredEvent = .ok b
  | [], _ => ⟨none, rfl⟩
  | c :: rest, h => by
    obtain ⟨r, hr⟩ := isOverlap_ok (h c (by simp)) hd
    obtain ⟨b, hb⟩ := findBlocker_ok desiredEvent hd rest (fun x hx => h x (by simp [hx]))
    rw [findBlocker]
    cases r with
    | true => exact ⟨some c, by simp [hr, Bind.bind, Except.bind, pure, Except.pure]⟩
    | false => exact ⟨b, by simp [hr, hb, Bind.bind, Except.bind, pure, Except.pure]⟩

theorem keyEmissions_ok (desiredHolds : List DesiredHold) (targetEvents : List GogEvent)
    (overlapPolicy : OverlapPolicy)
    (h1 : ∀ e ∈ targetEvents, isOkE (eventRange e) = true)
    (h2 : ∀ d ∈ desiredHolds, isOkE (eventRange d.event) = true) (k : String) :
    ∃ es, keyEmissions (splitManaged targetEvents).2
      (buildManagedByKey (sortById (splitManaged targetEvents).1))
      (buildDesiredByKey desiredHolds) overlapPolicy k = .ok es := by
  unfold keyEmissions
  cases hd : mapGet (buildDesiredByKey desiredHolds) k with
  | none => exact ⟨[], rfl⟩
  | some desired =>
    cases hbk : (mapGet (buildManagedByKey (sortById (splitManaged targetEvents).1)) k).getD []
      with
    | nil =>
      cases overlapPolicy with
      | skip =>
        dsimp only
        have hdm : desired ∈ desiredHolds := by
          rw [mapGet_buildDesired] at hd
          exact (desiredLast_some_mem _ _ hd).1
        have hun : ∀ c ∈ (splitManaged targetEvents).2, isOkE (eventRange c) = true := by
          intro c hc
          apply h1
          rw [splitManaged_snd] at hc
          exact List.mem_of_mem_filter hc
        obtain ⟨b, hb⟩ := findBlocker_ok desired.event (h2 desired hdm) _ hun
        rw [hb]
        exact ⟨_, rfl⟩
      | allow => exact ⟨_, rfl⟩
    | cons primary duplicates => exact ⟨_, rfl⟩

theorem mapME_ok {f : String → Except PlanError (List Emission)} :
    ∀ (ks : List String), (∀ k ∈ ks, ∃ es, f k = .ok es) → ∃ ls, mapME f ks = .ok ls
  | [], _ => ⟨[], rfl⟩
  | k :: ks, h => by
    obtain ⟨es, hes⟩ := h k (by simp)
    obtain ⟨ls, hls⟩ := mapME_ok ks (fun k2 hk2 => h k2 (by simp [hk2]))
    exact ⟨es :: ls, by simp [mapME, hes, hls, Bind.bind, Except.bind, Except.map]⟩

/-- C7, amended: for well-formed inputs (every target event and every desired
event has a complete timed or all-day range) planning never raises. The
eager-detection half of the original sentence is refuted by the
counterexample: a malformed event that no overlap check touches is silently
ignored. -/
theorem claim_C7 (desiredHolds : List DesiredHold) (targetEvents : List GogEvent)
    (overlapPolicy : OverlapPolicy) (N : Nat)
    (h1 : ∀ e ∈ targetEvents, isOkE (eventRange e) = true)
    (h2 : ∀ d ∈ desiredHolds, isOkE (eventRange d.event) = true) :
    ∃ plan, planReconcile desiredHolds targetEvents overlapPolicy N = .ok plan := by
  rw [planReconcile_capGo]
  have hpe : ∃ es, planEmissions desiredHolds targetEvents overlapPolicy = .ok es := by
    simp only [planEmissions]
    obtain ⟨ls, hls⟩ := mapME_ok _
      (fun k _ => keyEmissions_ok desiredHolds targetEvents overlapPolicy h1 h2 k)
    rw [hls]
    exact ⟨_, rfl⟩
  obtain ⟨es, hes⟩ := hpe
  have hsF : planFree desiredHolds targetEvents overlapPolicy =
      .ok (es.foldl (applyEmission freeMutate) initState) := by
    rw [planFree, planCore_emissions, hes]
    rfl
  rw [hsF]
  exact ⟨_, rfl⟩

def badEvent : GogEvent := { id := "bad", start := {}, «end» := {} }

instance : DecidableEq (Except PlanError (Int × Int))
  | .ok a, .ok b => decidable_of_iff (a = b) (by simp)
  | .ok _, .error _ => isFalse (by simp)
  | .error _, .ok _ => isFalse (by simp)
  | .error a, .error b => decidable_of_iff (a = b) (by simp)

set_option maxHeartbeats 4000000 in
theorem claim_C7_witness :
    ((∀ e ∈ [dM1], isOkE (eventRange e) = true) ∧
     (∀ d ∈ [dHold], isOkE (eventRange d.event) = true)) ∧
    (∃ plan, planReconcile [dHold] [dM1] OverlapPolicy.skip 5 = .ok plan) :=
  ⟨⟨by decide, by decide⟩,
   claim_C7 [dHold] [dM1] OverlapPolicy.skip 5 (by decide) (by decide)⟩

set_option maxHeartbeats 4000000 in
theorem claim_C7_cex :
    eventRange badEvent = .error (PlanError.missingFields "bad") ∧
    planReconcile [] [badEvent] OverlapPolicy.skip 1 =
      .ok { actions := [], desiredCount := 0, existingManagedCount := 0, capped := false } :=
  ⟨by decide, by decide⟩

/-! ### Determinism under input reordering (claim C2) -/

theorem charListLe_antisymm : ∀ a b : List Char,
    charListLe a b = true → charListLe b a = true → a = b
  | [], [], _, _ => rfl
  | [], _ :: _, _, h2 => by simp [charListLe] at h2
  | _ :: _, [], h1, _ => by simp [charListLe] at h1
  | x :: as, y :: bs, h1, h2 => by
    simp only [charListLe] at h1 h2
    rcases Nat.lt_trichotomy x.toNat y.toNat with h | h | h
    · rw [if_neg (show ¬(y.toNat < x.toNat) from by omega), if_pos h] at h2
      simp at h2
    · rw [if_neg (show ¬(x.toNat < y.toNat) from by omega),
        if_neg (show ¬(y.toNat < x.toNat) from by omega)] at h1
      rw [if_neg (show ¬(y.toNat < x.toNat) from by omega),
        if_neg (show ¬(x.toNat < y.toNat) from by omega)] at h2
      have hx2 : Char.ofNat y.toNat = x := char_eq_of_toNat (by omega)
      have hy2 : Char.ofNat y.toNat = y := char_eq_of_toNat rfl
      rw [charListLe_antisymm as bs h1 h2, hx2.symm.trans hy2]
    · rw [if_neg (show ¬(x.toNat < y.toNat) from by omega), if_pos h] at h1
      simp at h1

theorem strLe_antisymm {a b : String} (h1 : strLe a b = true) (h2 : strLe b a = true) :
    a = b := by
  have hd := charListLe_antisymm a.data b.data h1 h2
  cases a
  cases b
  exact congrArg String.mk hd

theorem insertStr_sorted (a : String) :
    ∀ l : List String, l.Pairwise (fun x y => strLe x y = true) →
    (insertStr a l).Pairwise (fun x y => strLe x y = true)
  | [], _ => by simp [insertStr]
  | b :: bs, h => by
    obtain ⟨hb, hbs⟩ := List.pairwise_cons.mp h
    rw [insertStr]
    by_cases hab : strLe a b = true
    · rw [if_pos hab]
      refine List.pairwise_cons.mpr ⟨?_, h⟩
      intro x hx
      rcases List.mem_cons.mp hx with rfl | hx
      · exact hab
      · exact strLe_trans hab (hb x hx)
    · rw [if_neg hab]
      refine List.pairwise_cons.mpr ⟨?_, insertStr_sorted a bs hbs⟩
      intro x hx
      rcases List.mem_cons.mp ((insertStr_perm a bs).mem_iff.mp hx) with rfl | hx
      · rcases strLe_total x b with h1 | h1
        · exact absurd h1 hab
        · exact h1
      · exact hb x hx

theorem sortStrs_sorted : ∀ l : List String,
    (sortStrs l).Pairwise (fun x y => strLe x y = true)
  | [] => List.Pairwise.nil
  | x :: xs => by
    rw [sortStrs]
    exact insertStr_sorted x (sortStrs xs) (sortStrs_sorted xs)

theorem sorted_strs_unique : ∀ l1 l2 : List String, l1.Perm l2 →
    l1.Pairwise (fun x y => strLe x y = true) →
    l2.Pairwise (fun x y => strLe x y = true) → l1 = l2
  | [], l2, h, _, _ => h.symm.eq_nil.symm
  | x :: xs, l2, h, hp1, hp2 => by
    cases l2 with
    | nil => exact absurd h.eq_nil (by simp)
    | cons y ys =>
      obtain ⟨hx1, hxs1⟩ := List.pairwise_cons.mp hp1
      obtain ⟨hy2, hys2⟩ := List.pairwise_cons.mp hp2
      have hxy : x = y := by
        have hx2 : x ∈ y :: ys := h.mem_iff.mp (by simp)
        have hy1 : y ∈ x :: xs := h.mem_iff.mpr (by simp)
        rcases List.mem_cons.mp hx2 with h1 | h1
        · exact h1
        · rcases List.mem_cons.mp hy1 with h2 | h2
          · exact h2.symm
          · exact strLe_antisymm (hx1 y h2) (hy2 x h1)
      subst hxy
      rw [sorted_strs_unique xs ys h.cons_inv hxs1 hys2]

theorem sortStrs_eq_of_perm {l1 l2 : List String} (h : l1.Perm l2) :
    sortStrs l1 = sortStrs l2 :=
  sorted_strs_unique _ _ (((sortStrs_perm l1).trans h).trans (sortStrs_perm l2).symm)
    (sortStrs_sorted l1) (sortStrs_sorted l2)

theorem sorted_events_unique : ∀ l1 l2 : List GogEvent, l1.Perm l2 →
    l1.Pairwise (fun x y => strLe x.id y.id = true) →
    l2.Pairwise (fun x y => strLe x.id y.id = true) →
    (l1.map GogEvent.id).Nodup → l1 = l2
  | [], l2, h, _, _, _ => h.symm.eq_nil.symm
  | x :: xs, l2, h, hp1, hp2, hnd => by
    cases l2 with
    | nil => exact absurd h.eq_nil (by simp)
    | cons y ys =>
      obtain ⟨hx1, hxs1⟩ := List.pairwise_cons.mp hp1
      obtain ⟨hy2, hys2⟩ := List.pairwise_cons.mp hp2
      have hxy : x = y := by
        have hx2 : x ∈ y :: ys := h.mem_iff.mp (by simp)
        have hy1 : y ∈ x :: xs := h.mem_iff.mpr (by simp)
        rcases List.mem_cons.mp hx2 with h1 | h1
        · exact h1
        · rcases List.mem_cons.mp hy1 with h2 | h2
          · exact h2.symm
          · have hid : x.id = y.id := strLe_antisymm (hx1 y h2) (hy2 x h1)
            exact List.inj_on_of_nodup_map hnd (by simp) (by simp [h2]) hid
      subst hxy
      have hnd2 : (xs.map GogEvent.id).Nodup := by
        rw [List.map_cons, List.nodup_cons] at hnd
        exact hnd.2
      rw [sorted_events_unique xs ys h.cons_inv hxs1 hys2 hnd2]

theorem sortById_eq_of_perm {l1 l2 : List GogEvent} (h : l1.Perm l2)
    (hids : (l1.map GogEvent.id).Nodup) : sortById l1 = sortById l2 :=
  sorted_events_unique _ _ (((sortById_perm l1).trans h).trans (sortById_perm l2).symm)
    (sortById_sorted l1) (sortById_sorted l2)
    (((sortById_perm l1).map GogEvent.id).nodup_iff.mpr hids)

theorem desiredFold_const (k : String) :
    ∀ (dh : List DesiredHold) (acc : Option DesiredHold),
    (∀ d ∈ dh, holdKey d.source ≠ k) →
    dh.foldl (fun acc d => if holdKey d.source = k then some d else acc) acc = acc
  | [], _, _ => rfl
  | d :: dh, acc, h => by
    rw [List.foldl_cons, if_neg (h d (by simp))]
    exact desiredFold_const k dh acc (fun d2 hd2 => h d2 (by simp [hd2]))

theorem desiredFold_acc_ne_none (k : String) :
    ∀ (dh : List DesiredHold) (acc : Option DesiredHold), acc ≠ none →
    dh.foldl (fun acc d => if holdKey d.source = k then some d else acc) acc ≠ none
  | [], _, h => h
  | d :: dh, acc, h => by
    rw [List.foldl_cons]
    by_cases hd : holdKey d.source = k
    · rw [if_pos hd]
      exact desiredFold_acc_ne_none k dh _ (by simp)
    · rw [if_neg hd]
      exact desiredFold_acc_ne_none k dh _ h

theorem desiredFold_ne_none (k : String) :
    ∀ (dh : List DesiredHold) (acc : Option DesiredHold) (d : DesiredHold),
    d ∈ dh → holdKey d.source = k →
    dh.foldl (fun acc d => if holdKey d.source = k then some d else acc) acc ≠ none
  | [], _, _, hmem, _ => by simp at hmem
  | d2 :: dh, acc, d, hmem, hk => by
    rw [List.foldl_cons]
    rcases List.mem_cons.mp hmem with rfl | hmem2
    · rw [if_pos hk]
      exact desiredFold_acc_ne_none k dh _ (by simp)
    · exact desiredFold_ne_none k dh _ d hmem2 hk

theorem desiredFold_unique (k : String) :
    ∀ (dh : List DesiredHold) (acc : Option DesiredHold) (d : DesiredHold),
    d ∈ dh → holdKey d.source = k →
    (dh.map (fun x => holdKey x.source)).Nodup →
    dh.foldl (fun acc d => if holdKey d.source = k then some d else acc) acc = some d
  | [], _, _, hmem, _, _ => by simp at hmem
  | d2 :: dh, acc, d, hmem, hk, hnd => by
    rw [List.map_cons, List.nodup_cons] at hnd
    rw [List.foldl_cons]
    rcases List.mem_cons.mp hmem with rfl | hmem2
    · rw [if_pos hk]
      apply desiredFold_const
      intro d3 hd3 hk3
      exact hnd.1 (List.mem_map.mpr ⟨d3, hd3, by rw [hk3, hk]⟩)
    · by_cases hd2 : holdKey d2.source = k
      · exact absurd (List.mem_map.mpr ⟨d, hmem2, by rw [hk, hd2]⟩) hnd.1
      · rw [if_neg hd2]
        exact desiredFold_unique k dh acc d hmem2 hk hnd.2

theorem desiredLast_perm {dh dh' : List DesiredHold} (hperm : dh'.Perm dh)
    (hnd : (dh.map (fun x => holdKey x.source)).Nodup) (k : String) :
    desiredLast dh' k = desiredLast dh k := by
  have hnd2 : (dh'.map (fun x => holdKey x.source)).Nodup :=
    ((hperm.map _).nodup_iff).mpr hnd
  cases hl : desiredLast dh k with
  | none =>
    cases hl2 : desiredLast dh' k with
    | none => rfl
    | some d =>
      obtain ⟨hm, hk⟩ := desiredLast_some_mem dh' k hl2
      exact absurd hl (desiredFold_ne_none k dh none d (hperm.mem_iff.mp hm) hk)
  | some d =>
    obtain ⟨hm, hk⟩ := desiredLast_some_mem dh k hl
    exact desiredFold_unique k dh' none d (hperm.mem_iff.mpr hm) hk hnd2

theorem buildDesired_keys_perm {dh dh' : List DesiredHold} (hperm : dh'.Perm dh)
    (hnd : (dh.map (fun x => holdKey x.source)).Nodup) :
    (mapKeys (buildDesiredByKey dh')).Perm (mapKeys (buildDesiredByKey dh)) := by
  apply (List.perm_ext_iff_of_nodup (buildDesired_keys_nodup dh')
    (buildDesired_keys_nodup dh)).mpr
  intro k
  have hg : mapGet (buildDesiredByKey dh') k = mapGet (buildDesiredByKey dh) k := by
    rw [mapGet_buildDesired, mapGet_buildDesired, desiredLast_perm hperm hnd]
  have h1 := mapGet_eq_none_iff k (buildDesiredByKey dh')
  have h2 := mapGet_eq_none_iff k (buildDesiredByKey dh)
  have h3 : (mapGet (buildDesiredByKey dh') k = none) ↔
      (mapGet (buildDesiredByKey dh) k = none) := by rw [hg]
  exact not_iff_not.mp ((h1.symm.trans h3).trans h2)

/-- C2, amended: the planner is insensitive to reordering of desiredHolds and
targetEvents provided the desired holds carry pairwise-distinct keys, the
managed target events carry pairwise-distinct ids, and the reordering keeps
the relative order of unmanaged target events (which the skip-policy blocker
search inspects first-match-wins). The counterexample shows the unmanaged
order restriction is necessary. -/
theorem claim_C2 (desiredHolds desiredHolds' : List DesiredHold)
    (targetEvents targetEvents' : List GogEvent) (overlapPolicy : OverlapPolicy) (N : Nat)
    (hpd : desiredHolds'.Perm desiredHolds) (hpt : targetEvents'.Perm targetEvents)
    (hdk : (desiredHolds.map (fun d => holdKey d.source)).Nodup)
    (hids : ((splitManaged targetEvents).1.map GogEvent.id).Nodup)
    (hunm : (splitManaged targetEvents').2 = (splitManaged targetEvents).2) :
    planReconcile desiredHolds' targetEvents' overlapPolicy N =
      planReconcile desiredHolds targetEvents overlapPolicy N := by
  have hmperm : (splitManaged targetEvents').1.Perm (splitManaged targetEvents).1 := by
    rw [splitManaged_fst, splitManaged_fst]
    exact hpt.filter _
  have hsort : sortById (splitManaged targetEvents').1 =
      sortById (splitManaged targetEvents).1 :=
    sortById_eq_of_perm hmperm ((hmperm.map _).nodup_iff.mpr hids)
  have hget : ∀ k, mapGet (buildDesiredByKey desiredHolds') k =
      mapGet (buildDesiredByKey desiredHolds) k := by
    intro k
    rw [mapGet_buildDesired, mapGet_buildDesired, desiredLast_perm hpd hdk]
  have hkeys : sortStrs (mapKeys (buildDesiredByKey desiredHolds')) =
      sortStrs (mapKeys (buildDesiredByKey desiredHolds)) :=
    sortStrs_eq_of_perm (buildDesired_keys_perm hpd hdk)
  have hke : keyEmissions (splitManaged targetEvents').2
      (buildManagedByKey (sortById (splitManaged targetEvents').1))
      (buildDesiredByKey desiredHolds') overlapPolicy =
    keyEmissions (splitManaged targetEvents).2
      (buildManagedByKey (sortById (splitManaged targetEvents).1))
      (buildDesiredByKey desiredHolds) overlapPolicy := by
    funext k
    rw [hsort, hunm]
    unfold keyEmissions
    rw [hget k]
  have hse : staleEmissions (buildManagedByKey (sortById (splitManaged targetEvents').1))
      (buildDesiredByKey desiredHolds') =
    staleEmissions (buildManagedByKey (sortById (splitManaged targetEvents).1))
      (buildDesiredByKey desiredHolds) := by
    funext k
    rw [hsort]
    unfold staleEmissions
    rw [hget k]
  have hpe : planEmissions desiredHolds' targetEvents' overlapPolicy =
      planEmissions desiredHolds targetEvents overlapPolicy := by
    simp only [planEmissions]
    rw [hke, hse, hkeys, hsort]
  have hpf : planFree desiredHolds' targetEvents' overlapPolicy =
      planFree desiredHolds targetEvents overlapPolicy := by
    rw [planFree, planFree, planCore_emissions, planCore_emissions, hpe]
  rw [planReconcile_capGo, planReconcile_capGo, hpf]
  simp only [hpd.length_eq, hmperm.length_eq]

def uEv (id : String) : GogEvent :=
  { id := id, start := { dateTime := some "2026-03-01T10:00:00.000Z" },
    «end» := { dateTime := some "2026-03-01T11:00:00.000Z" } }

def sHoldEvent : GogEvent :=
  { id := "hold-skp", start := { dateTime := some "2026-03-01T10:30:00.000Z" },
    «end» := { dateTime := some "2026-03-01T11:30:00.000Z" } }

def sHold : DesiredHold := { source := wRef "skp", event := sHoldEvent }

set_option maxHeartbeats 4000000 in
theorem claim_C2_cex :
    [uEv "u2", uEv "u1"].Perm [uEv "u1", uEv "u2"] ∧
    planReconcile [sHold] [uEv "u2", uEv "u1"] OverlapPolicy.skip 5 ≠
      planReconcile [sHold] [uEv "u1", uEv "u2"] OverlapPolicy.skip 5 :=
  ⟨by decide, by decide⟩

set_option maxHeartbeats 4000000 in
theorem claim_C2_witness :
    ([dHold].Perm [dHold] ∧ [uEv "u1", dM1].Perm [dM1, uEv "u1"] ∧
     ([dHold].map (fun d => holdKey d.source)).Nodup ∧
     ((splitManaged [dM1, uEv "u1"]).1.map GogEvent.id).Nodup ∧
     (splitManaged [uEv "u1", dM1]).2 = (splitManaged [dM1, uEv "u1"]).2) ∧
    planReconcile [dHold] [uEv "u1", dM1] OverlapPolicy.allow 5 =
      planReconcile [dHold] [dM1, uEv "u1"] OverlapPolicy.allow 5 :=
  ⟨⟨by decide, by decide, by decide, by decide, by decide⟩,
   claim_C2 [dHold] [dHold] [dM1, uEv "u1"] [uEv "u1", dM1] OverlapPolicy.allow 5
     (by decide) (by decide) (by decide) (by decide) (by decide)⟩

/-! ### Idempotence (claim C1)

The claim defines the effect of a plan on the target list: each create
appends its desired event, each update replaces the existing event by the
desired event, each delete removes the existing event.  `applyAction` and
`applyPlan` transcribe that wording. -/

def applyAction (te : List GogEvent) : ReconcileAction → List GogEvent
  | .create d => te ++ [d.event]
  | .update existing d => te.map (fun e => if e = existing then d.event else e)
  | .delete existing => te.filter (fun e => decide (e ≠ existing))
  | .skip_overlap _ _ => te

def applyPlan (te : List GogEvent) (acts : List ReconcileAction) : List GogEvent :=
  acts.foldl applyAction te

/-- The new event an action introduces, when any. -/
def actionResult : ReconcileAction → Option GogEvent
  | .create d => some d.event
  | .update _ d => some d.event
  | _ => none

def actionTargets (acts : List ReconcileAction) : List GogEvent :=
  acts.filterMap actionTarget

def actionResults (acts : List ReconcileAction) : List GogEvent :=
  acts.filterMap actionResult

theorem map_keep (p : GogEvent) (v : GogEvent) :
    ∀ l : List GogEvent, (∀ x ∈ l, x ≠ p) →
    l.map (fun e => if e = p then v else e) = l
  | [], _ => rfl
  | x :: l, h => by
    rw [List.map_cons, if_neg (h x (by simp)), map_keep p v l (fun y hy => h y (by simp [hy]))]

theorem filter_keep (p : GogEvent) :
    ∀ l : List GogEvent, (∀ x ∈ l, x ≠ p) →
    l.filter (fun e => decide (e ≠ p)) = l
  | [], _ => rfl
  | x :: l, h => by
    rw [List.filter_cons]
    rw [if_pos (show (decide (x ≠ p)) = true from by simp [h x (by simp)])]
    rw [filter_keep p l (fun y hy => h y (by simp [hy]))]

theorem applyPlan_perm : ∀ (acts : List ReconcileAction) (cur rest : List GogEvent),
    (actionTargets acts).Nodup →
    (∀ t ∈ actionTargets acts, t ∉ rest) →
    (∀ t ∈ actionTargets acts, t ∉ actionResults acts) →
    cur.Perm (actionTargets acts ++ rest) →
    (applyPlan cur acts).Perm (rest ++ actionResults acts)
  | [], cur, rest, _, _, _, hcur => by
    simp only [applyPlan, List.foldl_nil]
    simpa [actionTargets, actionResults] using hcur
  | .create d :: acts, cur, rest, htd, htr, htres, hcur => by
    have ht : actionTargets (ReconcileAction.create d :: acts) = actionTargets acts := by
      simp [actionTargets, List.filterMap_cons, actionTarget]
    have hr : actionResults (ReconcileAction.create d :: acts) =
        d.event :: actionResults acts := by
      simp [actionResults, List.filterMap_cons, actionResult]
    rw [ht] at htd htr hcur
    rw [ht, hr] at htres
    show (applyPlan (cur ++ [d.event]) acts).Perm _
    have hstep := applyPlan_perm acts (cur ++ [d.event]) (rest ++ [d.event]) htd
      (fun t htm => by
        simp only [List.mem_append, List.mem_singleton, not_or]
        exact ⟨htr t htm, fun he => htres t htm (by simp [he])⟩)
      (fun t htm hres => htres t htm (by simp [hres]))
      ((hcur.append_right [d.event]).trans (by rw [List.append_assoc]))
    rw [hr]
    refine hstep.trans ?_
    rw [List.append_assoc]
    exact List.Perm.refl _
  | .update p d :: acts, cur, rest, htd, htr, htres, hcur => by
    have ht : actionTargets (ReconcileAction.update p d :: acts) =
        p :: actionTargets acts := by
      simp [actionTargets, List.filterMap_cons, actionTarget]
    have hr : actionResults (ReconcileAction.update p d :: acts) =
        d.event :: actionResults acts := by
      simp [actionResults, List.filterMap_cons, actionResult]
    rw [ht] at htd htr hcur
    rw [ht, hr] at htres
    rw [List.nodup_cons] at htd
    have hne : ∀ x ∈ actionTargets acts ++ rest, x ≠ p := by
      intro x hx
      rcases List.mem_append.mp hx with hx | hx
      · intro he
        exact htd.1 (he ▸ hx)
      · intro he
        exact htr p (by simp) (he ▸ hx)
    have hmap : (cur.map (fun e => if e = p then d.event else e)).Perm
        (actionTargets acts ++ (d.event :: rest)) := by
      have h1 := hcur.map (fun e => if e = p then d.event else e)
      rw [show (p :: actionTargets acts) ++ rest = p :: (actionTargets acts ++ rest)
        from rfl] at h1
      rw [List.map_cons, if_pos rfl, map_keep p d.event _ hne] at h1
      exact h1.trans List.perm_middle.symm
    show (applyPlan (cur.map _) acts).Perm _
    have hstep := applyPlan_perm acts _ (d.event :: rest) htd.2
      (fun t htm => by
        simp only [List.mem_cons, not_or]
        exact ⟨fun he => htres t (by simp [htm]) (by simp [he]), htr t (by simp [htm])⟩)
      (fun t htm hres => htres t (by simp [htm]) (by simp [hres]))
      hmap
    rw [hr]
    refine hstep.trans ?_
    show (d.event :: (rest ++ actionResults acts)).Perm _
    exact List.perm_middle.symm
  | .delete p :: acts, cur, rest, htd, htr, htres, hcur => by
    have ht : actionTargets (ReconcileAction.delete p :: acts) =
        p :: actionTargets acts := by
      simp [actionTargets, List.filterMap_cons, actionTarget]
    have hr : actionResults (ReconcileAction.delete p :: acts) = actionResults acts := by
      simp [actionResults, List.filterMap_cons, actionResult]
    rw [ht] at htd htr hcur
    rw [ht, hr] at htres
    rw [List.nodup_cons] at htd
    have hne : ∀ x ∈ actionTargets acts ++ rest, x ≠ p := by
      intro x hx
      rcases List.mem_append.mp hx with hx | hx
      · intro he
        exact htd.1 (he ▸ hx)
      · intro he
        exact htr p (by simp) (he ▸ hx)
    have hfil : (cur.filter (fun e => decide (e ≠ p))).Perm
        (actionTargets acts ++ rest) := by
      have h1 := hcur.filter (fun e => decide (e ≠ p))
      rw [show (p :: actionTargets acts) ++ rest = p :: (actionTargets acts ++ rest)
        from rfl] at h1
      rw [List.filter_cons, show (decide (p ≠ p)) = false from by simp] at h1
      simp only [Bool.false_eq_true, if_false] at h1
      rw [filter_keep p _ hne] at h1
      exact h1
    show (applyPlan (cur.filter _) acts).Perm _
    rw [hr]
    exact applyPlan_perm acts _ rest htd.2
      (fun t htm => htr t (by simp [htm]))
      (fun t htm hres => htres t (by simp [htm]) hres)
      hfil
  | .skip_overlap d b :: acts, cur, rest, htd, htr, htres, hcur => by
    have ht : actionTargets (ReconcileAction.skip_overlap d b :: acts) =
        actionTargets acts := by
      simp [actionTargets, List.filterMap_cons, actionTarget]
    have hr : actionResults (ReconcileAction.skip_overlap d b :: acts) =
        actionResults acts := by
      simp [actionResults, List.filterMap_cons, actionResult]
    rw [ht] at htd htr hcur
    rw [ht, hr] at htres
    show (applyPlan cur acts).Perm _
    rw [hr]
    exact applyPlan_perm acts cur rest htd htr htres hcur

theorem exists_perm_split {α : Type} [DecidableEq α] : ∀ (tgts l : List α), tgts.Nodup →
    l.Nodup → (∀ t ∈ tgts, t ∈ l) → ∃ rest, l.Perm (tgts ++ rest)
  | [], l, _, _, _ => ⟨l, List.Perm.refl l⟩
  | t :: tgts, l, hnd, hl, hsub => by
    rw [List.nodup_cons] at hnd
    have htl : t ∈ l := hsub t (by simp)
    have hperm := List.perm_cons_erase htl
    have herased : ∀ t2 ∈ tgts, t2 ∈ l.erase t := by
      intro t2 ht2
      refine (List.mem_erase_of_ne ?_).mpr (hsub t2 (by simp [ht2]))
      intro he
      exact hnd.1 (he ▸ ht2)
    obtain ⟨rest, hrest⟩ := exists_perm_split tgts (l.erase t) hnd.2 (hl.erase t) herased
    exact ⟨rest, hperm.trans (hrest.cons t)⟩

/-- Events targeted by a list of emissions. -/
def emTargetsE (es : List Emission) : List GogEvent :=
  (es.map emissionAction).filterMap actionTarget

/-- Events introduced by a list of emissions. -/
def emResultsE (es : List Emission) : List GogEvent :=
  (es.map emissionAction).filterMap actionResult

theorem emTargetsE_append (l1 l2 : List Emission) :
    emTargetsE (l1 ++ l2) = emTargetsE l1 ++ emTargetsE l2 := by
  unfold emTargetsE
  rw [List.map_append, List.filterMap_append]

theorem emResultsE_append (l1 l2 : List Emission) :
    emResultsE (l1 ++ l2) = emResultsE l1 ++ emResultsE l2 := by
  unfold emResultsE
  rw [List.map_append, List.filterMap_append]

theorem emTargetsE_tryDeletes : ∀ l : List GogEvent,
    emTargetsE (l.map (fun e => Emission.tryE (.delete e))) = l
  | [] => rfl
  | e :: l => by
    show e :: emTargetsE (l.map _) = e :: l
    rw [emTargetsE_tryDeletes l]

theorem emResultsE_tryDeletes : ∀ l : List GogEvent,
    emResultsE (l.map (fun e => Emission.tryE (.delete e))) = []
  | [] => rfl
  | e :: l => by
    show emResultsE (l.map _) = []
    exact emResultsE_tryDeletes l

theorem concatMap_map_filterMap (F : γ → Option δ) (h : β → γ) (g : α → List β) :
    ∀ xs : List α, ((concatMap g xs).map h).filterMap F =
      concatMap (fun x => ((g x).map h).filterMap F) xs
  | [] => rfl
  | x :: xs => by
    rw [show concatMap g (x :: xs) = g x ++ concatMap g xs from rfl, List.map_append,
      List.filterMap_append, concatMap_map_filterMap F h g xs]
    rfl

theorem concatMap_id_map_filterMap (F : γ → Option δ) (h : β → γ) :
    ∀ xs : List (List β), ((concatMap (fun l => l) xs).map h).filterMap F =
      concatMap (fun l => (l.map h).filterMap F) xs
  | [] => rfl
  | x :: xs => by
    rw [show concatMap (fun l => l) (x :: xs) = x ++ concatMap (fun l => l) xs from rfl,
      List.map_append, List.filterMap_append, concatMap_id_map_filterMap F h xs]
    rfl

theorem mapME_map_agg {γ : Type} (G : List Emission → List γ)
    {f : String → Except PlanError (List Emission)} :
    ∀ {ks : List String} {ls : List (List Emission)}, mapME f ks = .ok ls →
    ls.map G = ks.map (fun k =>
      match f k with
      | .ok es => G es
      | .error _ => []) := by
  intro ks
  induction ks with
  | nil =>
    intro ls h
    simp only [mapME] at h
    cases h
    rfl
  | cons k ks ih =>
    intro ls h
    simp only [mapME] at h
    cases hk : f k with
    | error e => rw [hk] at h; simp [Bind.bind, Except.bind] at h
    | ok es =>
      rw [hk] at h
      simp only [Bind.bind, Except.bind] at h
      cases hks : mapME f ks with
      | error e => rw [hks] at h; simp [Except.map] at h
      | ok ls0 =>
        rw [hks] at h
        simp only [Except.map, Except.ok.injEq] at h
        subst h
        rw [List.map_cons, List.map_cons, ih hks, hk]

theorem mem_concatMap_of {f : α → List β} {b : β} {x : α} :
    ∀ {l : List α}, x ∈ l → b ∈ f x → b ∈ concatMap f l
  | [], hx, _ => by simp at hx
  | y :: l, hx, hb => by
    rw [show concatMap f (y :: l) = f y ++ concatMap f l from rfl]
    rcases List.mem_cons.mp hx with rfl | hx2
    · exact List.mem_append.mpr (Or.inl hb)
    · exact List.mem_append.mpr (Or.inr (mem_concatMap_of hx2 hb))

theorem mapME_mem_forward {f : String → Except PlanError (List Emission)} :
    ∀ {ks : List String} {ls : List (List Emission)}, mapME f ks = .ok ls →
    ∀ k ∈ ks, ∀ esk, f k = .ok esk → esk ∈ ls := by
  intro ks
  induction ks with
  | nil =>
    intro ls _ k hk
    simp at hk
  | cons k0 ks ih =>
    intro ls h k hk esk hfk
    simp only [mapME] at h
    cases hk0 : f k0 with
    | error e => rw [hk0] at h; simp [Bind.bind, Except.bind] at h
    | ok es0 =>
      rw [hk0] at h
      simp only [Bind.bind, Except.bind] at h
      cases hks : mapME f ks with
      | error e => rw [hks] at h; simp [Except.map] at h
      | ok ls0 =>
        rw [hks] at h
        simp only [Except.map, Except.ok.injEq] at h
        subst h
        rcases List.mem_cons.mp hk with rfl | hk2
        · rw [hk0] at hfk
          cases hfk
          simp
        · simp [ih hks k hk2 esk hfk]

theorem mapME_const_nil {f : String → Except PlanError (List Emission)} :
    ∀ {ks : List String}, (∀ k ∈ ks, f k = .ok []) →
    mapME f ks = .ok (ks.map (fun _ => ([] : List Emission)))
  | [], _ => rfl
  | k :: ks, h => by
    simp only [mapME]
    rw [h k (by simp), mapME_const_nil (fun j hj => h j (by simp [hj]))]
    simp [Bind.bind, Except.bind, Except.map]

theorem concatMap_eq_single {β : Type} {F : String → List β} :
    ∀ (ks : List String) (k : String), ks.Nodup → k ∈ ks →
    (∀ j ∈ ks, j ≠ k → F j = []) → concatMap F ks = F k
  | [], k, _, hk, _ => by simp at hk
  | k0 :: ks, k, hnd, hk, hnil => by
    rw [List.nodup_cons] at hnd
    rw [show concatMap F (k0 :: ks) = F k0 ++ concatMap F ks from rfl]
    by_cases hkk : k0 = k
    · subst hkk
      have hrest : concatMap F ks = [] :=
        concatMap_eq_nil (fun j hj => hnil j (by simp [hj]) (fun he => hnd.1 (he ▸ hj)))
      rw [hrest, List.append_nil]
    · have hkm : k ∈ ks := by
        rcases List.mem_cons.mp hk with h | h
        · exact absurd h.symm hkk
        · exact h
      rw [hnil k0 (by simp) hkk, List.nil_append]
      exact concatMap_eq_single ks k hnd.2 hkm (fun j hj => hnil j (by simp [hj]))

theorem isEquivalent_refl (e : GogEvent) : isEquivalent e e = true := by
  simp [isEquivalent]

theorem mem_bucket_iff {targetEvents : List GogEvent} {k : String} {e : GogEvent} :
    e ∈ (mapGet (buildManagedByKey (sortById (splitManaged targetEvents).1)) k).getD [] ↔
      e ∈ targetEvents ∧ keyOf e = some k := by
  rw [bucket_eq, List.mem_filter]
  constructor
  · intro h
    refine ⟨?_, by simpa using h.2⟩
    have h1 := (sortById_perm _).mem_iff.mp h.1
    rw [splitManaged_fst] at h1
    exact List.mem_of_mem_filter h1
  · intro h
    refine ⟨?_, by simp [h.2]⟩
    apply (sortById_perm _).mem_iff.mpr
    rw [splitManaged_fst]
    refine List.mem_filter.mpr ⟨h.1, ?_⟩
    have h2 := h.2
    unfold keyOf at h2
    cases hdec : decodeSourceRef e.description with
    | none => rw [hdec] at h2; simp at h2
    | some s => simp [hdec]

theorem bucket_nodup_ev {targetEvents : List GogEvent}
    (hids : (targetEvents.map GogEvent.id).Nodup) (k : String) :
    ((mapGet (buildManagedByKey (sortById (splitManaged targetEvents).1)) k).getD []).Nodup :=
  List.Nodup.of_map _ (bucket_ids_nodup hids k)

theorem filter_managed_key (k : String) : ∀ l : List GogEvent,
    (l.filter (fun e => (decodeSourceRef e.description).isSome)).filter
      (fun e => keyOf e = some k) = l.filter (fun e => keyOf e = some k)
  | [] => rfl
  | e :: l => by
    by_cases hm : (decodeSourceRef e.description).isSome
    · simp only [List.filter_cons, hm, if_true]
      by_cases hk : keyOf e = some k
      · simp [hk, filter_managed_key k l]
      · simp [hk, filter_managed_key k l]
    · have hk : ¬(keyOf e = some k) := by
        unfold keyOf
        cases hdec : decodeSourceRef e.description with
        | none => simp
        | some s => simp [hdec] at hm
      simp only [List.filter_cons, hm, hk]
      simp only [Bool.false_eq_true, if_false, decide_eq_true_eq]
      exact filter_managed_key k l

/-- The emission list of a key when planning succeeded (total form). -/
def keyEmsOr (u : List GogEvent) (m : List (String × List GogEvent))
    (dk : List (String × DesiredHold)) (pol : OverlapPolicy) (k : String) : List Emission :=
  match keyEmissions u m dk pol k with
  | .ok es => es
  | .error _ => []

theorem keyEmsOr_eq {u : List GogEvent} {m : List (String × List GogEvent)}
    {dk : List (String × DesiredHold)} {pol : OverlapPolicy} {k : String}
    {es : List Emission} (h : keyEmissions u m dk pol k = .ok es) :
    keyEmsOr u m dk pol k = es := by
  simp [keyEmsOr, h]

theorem mapME_all_ok {f : String → Except PlanError (List Emission)} :
    ∀ {ks : List String} {ls : List (List Emission)}, mapME f ks = .ok ls →
    ∀ k ∈ ks, ∃ es, f k = .ok es := by
  intro ks
  induction ks with
  | nil =>
    intro ls _ k hk
    simp at hk
  | cons k0 ks ih =>
    intro ls h k hk
    simp only [mapME] at h
    cases hk0 : f k0 with
    | error e => rw [hk0] at h; simp [Bind.bind, Except.bind] at h
    | ok es0 =>
      rw [hk0] at h
      simp only [Bind.bind, Except.bind] at h
      cases hks : mapME f ks with
      | error e => rw [hks] at h; simp [Except.map] at h
      | ok ls0 =>
        rcases List.mem_cons.mp hk with rfl | hk2
        · exact ⟨es0, hk0⟩
        · exact ih hks k hk2

theorem concatMap_filter (p : β → Bool) (g : α → List β) :
    ∀ xs : List α, (concatMap g xs).filter p = concatMap (fun x => (g x).filter p) xs
  | [] => rfl
  | x :: xs => by
    rw [show concatMap g (x :: xs) = g x ++ concatMap g xs from rfl, List.filter_append,
      concatMap_filter p g xs]
    rfl

theorem capGo_nil (r : Nat) : capGo r [] = [] := rfl

theorem keyEmissions_result_mem (unmanaged : List GogEvent)
    (managedByKey : List (String × List GogEvent))
    (desiredByKey : List (String × DesiredHold)) (overlapPolicy : OverlapPolicy)
    (key : String) {es : List Emission}
    (h : keyEmissions unmanaged managedByKey desiredByKey overlapPolicy key = .ok es) :
    ∀ em ∈ es, ∀ r, actionResult (emissionAction em) = some r →
      ∃ d0, mapGet desiredByKey key = some d0 ∧ r = d0.event := by
  unfold keyEmissions at h
  revert h
  cases mapGet desiredByKey key with
  | none =>
    intro h
    cases h
    simp
  | some desired =>
    cases (mapGet managedByKey key).getD [] with
    | nil =>
      cases overlapPolicy with
      | skip =>
        intro h
        dsimp only at h
        cases hb : findBlocker unmanaged desired.event with
        | error e2 => rw [hb] at h; simp [Except.map] at h
        | ok blocker =>
          rw [hb] at h
          cases blocker with
          | some b =>
            simp only [Except.map, Except.ok.injEq] at h
            subst h
            intro em hem r hr
            simp at hem
            subst hem
            simp [emissionAction, actionResult] at hr
          | none =>
            simp only [Except.map, Except.ok.injEq] at h
            subst h
            intro em hem r hr
            simp at hem
            subst hem
            simp only [emissionAction, actionResult, Option.some.injEq] at hr
            exact ⟨desired, rfl, hr.symm⟩
      | allow =>
        intro h
        dsimp only at h
        cases h
        intro em hem r hr
        simp at hem
        subst hem
        simp only [emissionAction, actionResult, Option.some.injEq] at hr
        exact ⟨desired, rfl, hr.symm⟩
    | cons primary duplicates =>
      intro h
      dsimp only at h
      cases h
      intro em hem r hr
      rcases List.mem_append.mp hem with hem | hem
      · by_cases heq : isEquivalent primary desired.event
        · simp [heq] at hem
        · simp [heq] at hem
          subst hem
          simp only [emissionAction, actionResult, Option.some.injEq] at hr
          exact ⟨desired, rfl, hr.symm⟩
      · obtain ⟨dup, hdup, rfl⟩ := List.mem_map.mp hem
        simp [emissionAction, actionResult] at hr

theorem staleEmissions_no_result (managedByKey : List (String × List GogEvent))
    (desiredByKey : List (String × DesiredHold)) (key : String) :
    ∀ em ∈ staleEmissions managedByKey desiredByKey key,
      actionResult (emissionAction em) = none := by
  unfold staleEmissions
  by_cases hd : (mapGet desiredByKey key).isSome
  · simp [hd]
  · simp only [hd, if_false, Bool.false_eq_true]
    intro em hem
    obtain ⟨stale, _, rfl⟩ := List.mem_map.mp hem
    simp [emissionAction, actionResult]

theorem planEmissions_result_mem (desiredHolds : List DesiredHold)
    (targetEvents : List GogEvent) (overlapPolicy : OverlapPolicy) {es : List Emission}
    (h : planEmissions desiredHolds targetEvents overlapPolicy = .ok es) :
    ∀ em ∈ es, ∀ r, actionResult (emissionAction em) = some r →
      ∃ d0 ∈ desiredHolds, r = d0.event := by
  simp only [planEmissions] at h
  cases hks : mapME
      (keyEmissions (splitManaged targetEvents).2
        (buildManagedByKey (sortById (splitManaged targetEvents).1))
        (buildDesiredByKey desiredHolds) overlapPolicy)
      (sortStrs (mapKeys (buildDesiredByKey desiredHolds))) with
  | error e2 => rw [hks] at h; simp [Except.map] at h
  | ok ls =>
    rw [hks] at h
    simp only [Except.map, Except.ok.injEq] at h
    subst h
    intro em hem r hr
    rcases List.mem_append.mp hem with hem | hem
    · obtain ⟨es0, hes0, hin⟩ := mem_concatMap hem
      obtain ⟨k, _, hk⟩ := mapME_mem hks es0 hes0
      obtain ⟨d0, hd0, hrd⟩ := keyEmissions_result_mem _ _ _ _ _ hk em hin r hr
      rw [mapGet_buildDesired] at hd0
      exact ⟨d0, (desiredLast_some_mem _ _ hd0).1, hrd⟩
    · obtain ⟨k, _, hin⟩ := mem_concatMap hem
      rw [staleEmissions_no_result _ _ k em hin] at hr
      simp at hr

theorem targets_map_id : ∀ acts : List ReconcileAction,
    (acts.filterMap actionTarget).map GogEvent.id = acts.filterMap actionTargetId
  | [] => rfl
  | a :: acts => by
    cases a with
    | create d => simp [List.filterMap_cons, actionTarget, actionTargetId,
        targets_map_id acts]
    | update p d => simp [List.filterMap_cons, actionTarget, actionTargetId,
        targets_map_id acts]
    | delete p => simp [List.filterMap_cons, actionTarget, actionTargetId,
        targets_map_id acts]
    | skip_overlap d b => simp [List.filterMap_cons, actionTarget, actionTargetId,
        targets_map_id acts]

theorem staleEmissions_emResults_nil (m : List (String × List GogEvent))
    (dk : List (String × DesiredHold)) (k : String) :
    emResultsE (staleEmissions m dk k) = [] := by
  unfold staleEmissions
  by_cases hd : (mapGet dk k).isSome
  · simp [hd, emResultsE]
  · simp only [hd, if_false, Bool.false_eq_true]
    exact emResultsE_tryDeletes _

theorem staleEmissions_emTargets (m : List (String × List GogEvent))
    (dk : List (String × DesiredHold)) (k : String)
    (hnd : ¬(mapGet dk k).isSome = true) :
    emTargetsE (staleEmissions m dk k) = (mapGet m k).getD [] := by
  unfold staleEmissions
  simp only [hnd, if_false, Bool.false_eq_true]
  exact emTargetsE_tryDeletes _

theorem keyEmissions_classify (u : List GogEvent) (m : List (String × List GogEvent))
    (dk : List (String × DesiredHold)) (pol : OverlapPolicy) (k : String)
    (d : DesiredHold) (hd : mapGet dk k = some d)
    (hok : ∃ esk, keyEmissions u m dk pol k = .ok esk)
    (hnoskip : ∀ b : String, keyEmissions u m dk pol k ≠
      .ok [Emission.skipE (.skip_overlap d b)]) :
    ((mapGet m k).getD [] = [] ∧ keyEmsOr u m dk pol k = [Emission.tryE (.create d)]) ∨
    (∃ p dups, (mapGet m k).getD [] = p :: dups ∧
      keyEmsOr u m dk pol k =
        (if isEquivalent p d.event then [] else [Emission.tryE (.update p d)]) ++
          dups.map (fun dup => Emission.tryE (.delete dup))) := by
  cases hbk : (mapGet m k).getD [] with
  | nil =>
    left
    refine ⟨rfl, ?_⟩
    cases pol with
    | skip =>
      cases hb : findBlocker u d.event with
      | error e2 =>
        obtain ⟨esk, hesk⟩ := hok
        unfold keyEmissions at hesk
        rw [hd, hbk] at hesk
        dsimp only at hesk
        rw [hb] at hesk
        simp [Except.map] at hesk
      | ok blocker =>
        cases blocker with
        | some b =>
          exfalso
          apply hnoskip b.id
          unfold keyEmissions
          rw [hd, hbk]
          dsimp only
          rw [hb]
          rfl
        | none =>
          have hfk : keyEmissions u m dk OverlapPolicy.skip k =
              .ok [Emission.tryE (.create d)] := by
            unfold keyEmissions
            rw [hd, hbk]
            dsimp only
            rw [hb]
            rfl
          rw [keyEmsOr_eq hfk]
    | allow =>
      have hfk : keyEmissions u m dk OverlapPolicy.allow k =
          .ok [Emission.tryE (.create d)] := by
        unfold keyEmissions
        rw [hd, hbk]
      rw [keyEmsOr_eq hfk]
  | cons p dups =>
    right
    refine ⟨p, dups, rfl, ?_⟩
    have hfk : keyEmissions u m dk pol k =
        .ok ((if isEquivalent p d.event then [] else [Emission.tryE (.update p d)]) ++
          dups.map (fun dup => Emission.tryE (.delete dup))) := by
      unfold keyEmissions
      rw [hd, hbk]
    rw [keyEmsOr_eq hfk]

theorem planEmissions_targets_decomp (desiredHolds : List DesiredHold)
    (targetEvents : List GogEvent) (overlapPolicy : OverlapPolicy) {es : List Emission}
    (h : planEmissions desiredHolds targetEvents overlapPolicy = .ok es) :
    actionTargets (es.map emissionAction) =
      concatMap (fun k => emTargetsE (keyEmsOr (splitManaged targetEvents).2
        (buildManagedByKey (sortById (splitManaged targetEvents).1))
        (buildDesiredByKey desiredHolds) overlapPolicy k))
        (sortStrs (mapKeys (buildDesiredByKey desiredHolds))) ++
      concatMap (fun k => emTargetsE (staleEmissions
        (buildManagedByKey (sortById (splitManaged targetEvents).1))
        (buildDesiredByKey desiredHolds) k))
        (sortStrs (mapKeys (buildManagedByKey (sortById (splitManaged targetEvents).1)))) := by
  simp only [planEmissions] at h
  cases hks : mapME
      (keyEmissions (splitManaged targetEvents).2
        (buildManagedByKey (sortById (splitManaged targetEvents).1))
        (buildDesiredByKey desiredHolds) overlapPolicy)
      (sortStrs (mapKeys (buildDesiredByKey desiredHolds))) with
  | error e2 => rw [hks] at h; simp [Except.map] at h
  | ok ls =>
    rw [hks] at h
    simp only [Except.map, Except.ok.injEq] at h
    subst h
    show emTargetsE _ = _
    rw [emTargetsE_append]
    congr 1
    · show ((concatMap (fun l => l) ls).map emissionAction).filterMap actionTarget = _
      rw [concatMap_id_map_filterMap]
      apply concatMap_congr_map
      rw [show (fun l => (l.map emissionAction).filterMap actionTarget) = emTargetsE
        from rfl]
      rw [mapME_map_agg emTargetsE hks]
      apply List.map_congr_left
      intro k _
      cases hfk : keyEmissions (splitManaged targetEvents).2
          (buildManagedByKey (sortById (splitManaged targetEvents).1))
          (buildDesiredByKey desiredHolds) overlapPolicy k with
      | ok es2 => simp [hfk, keyEmsOr]
      | error e2 => simp [hfk, keyEmsOr, emTargetsE]
    · show ((concatMap _ _).map emissionAction).filterMap actionTarget = _
      rw [concatMap_map_filterMap]
      rfl

theorem planEmissions_results_decomp (desiredHolds : List DesiredHold)
    (targetEvents : List GogEvent) (overlapPolicy : OverlapPolicy) {es : List Emission}
    (h : planEmissions desiredHolds targetEvents overlapPolicy = .ok es) :
    actionResults (es.map emissionAction) =
      concatMap (fun k => emResultsE (keyEmsOr (splitManaged targetEvents).2
        (buildManagedByKey (sortById (splitManaged targetEvents).1))
        (buildDesiredByKey desiredHolds) overlapPolicy k))
        (sortStrs (mapKeys (buildDesiredByKey desiredHolds))) := by
  simp only [planEmissions] at h
  cases hks : mapME
      (keyEmissions (splitManaged targetEvents).2
        (buildManagedByKey (sortById (splitManaged targetEvents).1))
        (buildDesiredByKey desiredHolds) overlapPolicy)
      (sortStrs (mapKeys (buildDesiredByKey desiredHolds))) with
  | error e2 => rw [hks] at h; simp [Except.map] at h
  | ok ls =>
    rw [hks] at h
    simp only [Except.map, Except.ok.injEq] at h
    subst h
    show emResultsE _ = _
    rw [emResultsE_append]
    have hstale : emResultsE (concatMap (staleEmissions
        (buildManagedByKey (sortById (splitManaged targetEvents).1))
        (buildDesiredByKey desiredHolds))
        (sortStrs (mapKeys (buildManagedByKey (sortById (splitManaged targetEvents).1)))))
        = [] := by
      show ((concatMap _ _).map emissionAction).filterMap actionResult = _
      rw [concatMap_map_filterMap]
      exact concatMap_eq_nil (fun k _ => staleEmissions_emResults_nil _ _ k)
    rw [hstale, List.append_nil]
    show ((concatMap (fun l => l) ls).map emissionAction).filterMap actionResult = _
    rw [concatMap_id_map_filterMap]
    apply concatMap_congr_map
    rw [show (fun l => (l.map emissionAction).filterMap actionResult) = emResultsE
      from rfl]
    rw [mapME_map_agg emResultsE hks]
    apply List.map_congr_left
    intro k _
    cases hfk : keyEmissions (splitManaged targetEvents).2
        (buildManagedByKey (sortById (splitManaged targetEvents).1))
        (buildDesiredByKey desiredHolds) overlapPolicy k with
    | ok es2 => simp [hfk, keyEmsOr]
    | error e2 => simp [hfk, keyEmsOr, emResultsE]

theorem planEmissions_keyEms_ok (desiredHolds : List DesiredHold)
    (targetEvents : List GogEvent) (overlapPolicy : OverlapPolicy) {es : List Emission}
    (h : planEmissions desiredHolds targetEvents overlapPolicy = .ok es) :
    ∀ k ∈ sortStrs (mapKeys (buildDesiredByKey desiredHolds)),
      ∃ esk, keyEmissions (splitManaged targetEvents).2
        (buildManagedByKey (sortById (splitManaged targetEvents).1))
        (buildDesiredByKey desiredHolds) overlapPolicy k = .ok esk := by
  simp only [planEmissions] at h
  cases hks : mapME
      (keyEmissions (splitManaged targetEvents).2
        (buildManagedByKey (sortById (splitManaged targetEvents).1))
        (buildDesiredByKey desiredHolds) overlapPolicy)
      (sortStrs (mapKeys (buildDesiredByKey desiredHolds))) with
  | error e2 => rw [hks] at h; simp [Except.map] at h
  | ok ls => exact mapME_all_ok hks

theorem planEmissions_keyEms_mem (desiredHolds : List DesiredHold)
    (targetEvents : List GogEvent) (overlapPolicy : OverlapPolicy) {es : List Emission}
    (h : planEmissions desiredHolds targetEvents overlapPolicy = .ok es) :
    ∀ k ∈ sortStrs (mapKeys (buildDesiredByKey desiredHolds)),
      ∀ esk, keyEmissions (splitManaged targetEvents).2
        (buildManagedByKey (sortById (splitManaged targetEvents).1))
        (buildDesiredByKey desiredHolds) overlapPolicy k = .ok esk →
      ∀ em ∈ esk, em ∈ es := by
  simp only [planEmissions] at h
  cases hks : mapME
      (keyEmissions (splitManaged targetEvents).2
        (buildManagedByKey (sortById (splitManaged targetEvents).1))
        (buildDesiredByKey desiredHolds) overlapPolicy)
      (sortStrs (mapKeys (buildDesiredByKey desiredHolds))) with
  | error e2 => rw [hks] at h; simp [Except.map] at h
  | ok ls =>
    rw [hks] at h
    simp only [Except.map, Except.ok.injEq] at h
    subst h
    intro k hk esk hfk em hem
    have h1 := mapME_mem_forward hks k hk esk hfk
    exact List.mem_append.mpr (Or.inl (mem_concatMap_of h1 hem))

theorem filter_all_of {p : α → Bool} : ∀ {l : List α}, (∀ x ∈ l, p x = true) →
    l.filter p = l
  | [], _ => rfl
  | x :: l, h => by
    rw [List.filter_cons, if_pos (h x (by simp)),
      filter_all_of (fun y hy => h y (by simp [hy]))]

theorem applyPlan_converged (desiredHolds : List DesiredHold) (targetEvents : List GogEvent)
    (overlapPolicy : OverlapPolicy) {es : List Emission}
    (hes : planEmissions desiredHolds targetEvents overlapPolicy = .ok es)
    (hskip2 : ∀ a ∈ es.map emissionAction, isMutating a = true)
    (hwf : ∀ d ∈ desiredHolds, keyOf d.event = some (holdKey d.source))
    (hids : (targetEvents.map GogEvent.id).Nodup)
    (hfresh : ∀ d ∈ desiredHolds, d.event ∉ targetEvents) :
    (∀ k d, mapGet (buildDesiredByKey desiredHolds) k = some d →
      ∃ w, (mapGet (buildManagedByKey (sortById (splitManaged
        (applyPlan targetEvents (es.map emissionAction))).1)) k).getD [] = [w] ∧
        isEquivalent w d.event = true) ∧
    (∀ k, mapGet (buildDesiredByKey desiredHolds) k = none →
      (mapGet (buildManagedByKey (sortById (splitManaged
        (applyPlan targetEvents (es.map emissionAction))).1)) k).getD [] = []) := by
  have hte_nodup : targetEvents.Nodup := List.Nodup.of_map _ hids
  have hdksnd : (sortStrs (mapKeys (buildDesiredByKey desiredHolds))).Nodup :=
    (sortStrs_perm _).nodup_iff.mpr (buildDesired_keys_nodup _)
  have hk_in : ∀ k d, mapGet (buildDesiredByKey desiredHolds) k = some d →
      k ∈ sortStrs (mapKeys (buildDesiredByKey desiredHolds)) := by
    intro k d hd
    apply (sortStrs_perm _).mem_iff.mpr
    by_contra hnot
    have hn := (mapGet_eq_none_iff k _).mpr hnot
    rw [hd] at hn
    simp at hn
  have hdks_get : ∀ j ∈ sortStrs (mapKeys (buildDesiredByKey desiredHolds)),
      ∃ d, mapGet (buildDesiredByKey desiredHolds) j = some d := by
    intro j hj
    have hm := (sortStrs_perm _).mem_iff.mp hj
    cases hg : mapGet (buildDesiredByKey desiredHolds) j with
    | none => exact absurd hm ((mapGet_eq_none_iff _ _).mp hg)
    | some d => exact ⟨d, rfl⟩
  have hall := planEmissions_keyEms_ok _ _ _ hes
  have hmem_es := planEmissions_keyEms_mem _ _ _ hes
  have hnoskip : ∀ k ∈ sortStrs (mapKeys (buildDesiredByKey desiredHolds)),
      ∀ d : DesiredHold, ∀ b : String,
      keyEmissions (splitManaged targetEvents).2
        (buildManagedByKey (sortById (splitManaged targetEvents).1))
        (buildDesiredByKey desiredHolds) overlapPolicy k ≠
        .ok [Emission.skipE (.skip_overlap d b)] := by
    intro k hk d b hfk
    have h1 := hmem_es k hk _ hfk (Emission.skipE (.skip_overlap d b)) (by simp)
    have h2 := hskip2 (ReconcileAction.skip_overlap d b)
      (List.mem_map_of_mem emissionAction h1)
    simp [isMutating] at h2
  have hTgD : ∀ k ∈ sortStrs (mapKeys (buildDesiredByKey desiredHolds)),
      ∀ d, mapGet (buildDesiredByKey desiredHolds) k = some d →
      ((mapGet (buildManagedByKey (sortById (splitManaged targetEvents).1)) k).getD [] = []
        ∧ emTargetsE (keyEmsOr (splitManaged targetEvents).2
            (buildManagedByKey (sortById (splitManaged targetEvents).1))
            (buildDesiredByKey desiredHolds) overlapPolicy k) = []
        ∧ emResultsE (keyEmsOr (splitManaged targetEvents).2
            (buildManagedByKey (sortById (splitManaged targetEvents).1))
            (buildDesiredByKey desiredHolds) overlapPolicy k) = [d.event]) ∨
      (∃ p dups,
        (mapGet (buildManagedByKey (sortById (splitManaged targetEvents).1)) k).getD []
          = p :: dups
        ∧ isEquivalent p d.event = true
        ∧ emTargetsE (keyEmsOr (splitManaged targetEvents).2
            (buildManagedByKey (sortById (splitManaged targetEvents).1))
            (buildDesiredByKey desiredHolds) overlapPolicy k) = dups
        ∧ emResultsE (keyEmsOr (splitManaged targetEvents).2
            (buildManagedByKey (sortById (splitManaged targetEvents).1))
            (buildDesiredByKey desiredHolds) overlapPolicy k) = []) ∨
      (∃ p dups,
        (mapGet (buildManagedByKey (sortById (splitManaged targetEvents).1)) k).getD []
          = p :: dups
        ∧ isEquivalent p d.event = false
        ∧ emTargetsE (keyEmsOr (splitManaged targetEvents).2
            (buildManagedByKey (sortById (splitManaged targetEvents).1))
            (buildDesiredByKey desiredHolds) overlapPolicy k) = p :: dups
        ∧ emResultsE (keyEmsOr (splitManaged targetEvents).2
            (buildManagedByKey (sortById (splitManaged targetEvents).1))
            (buildDesiredByKey desiredHolds) overlapPolicy k) = [d.event]) := by
    intro k hk d hd
    rcases keyEmissions_classify _ _ _ _ k d hd (hall k hk) (fun b => hnoskip k hk d b)
      with ⟨hbk, hemk⟩ | ⟨p, dups, hbk, hemk⟩
    · left
      refine ⟨hbk, by rw [hemk]; rfl, by rw [hemk]; rfl⟩
    · by_cases heq : isEquivalent p d.event = true
      · right
        left
        refine ⟨p, dups, hbk, heq, ?_, ?_⟩
        · rw [hemk, if_pos heq, List.nil_append, emTargetsE_tryDeletes]
        · rw [hemk, if_pos heq, List.nil_append, emResultsE_tryDeletes]
      · right
        right
        refine ⟨p, dups, hbk, by simpa using heq, ?_, ?_⟩
        · rw [hemk, if_neg heq, emTargetsE_append, emTargetsE_tryDeletes]
          rfl
        · rw [hemk, if_neg heq, emResultsE_append, emResultsE_tryDeletes]
          rfl
  have hTg_bucket : ∀ k ∈ sortStrs (mapKeys (buildDesiredByKey desiredHolds)),
      ∀ e ∈ emTargetsE (keyEmsOr (splitManaged targetEvents).2
        (buildManagedByKey (sortById (splitManaged targetEvents).1))
        (buildDesiredByKey desiredHolds) overlapPolicy k),
      e ∈ (mapGet (buildManagedByKey (sortById (splitManaged targetEvents).1)) k).getD [] := by
    intro k hk e he
    obtain ⟨esk, hesk⟩ := hall k hk
    rw [keyEmsOr_eq hesk] at he
    obtain ⟨a, ha, hae⟩ := List.mem_filterMap.mp he
    obtain ⟨em, hem, rfl⟩ := List.mem_map.mp ha
    exact keyEmissions_target_mem _ _ _ _ _ hesk em hem e hae
  have hTs_bucket : ∀ k, ∀ e ∈ emTargetsE (staleEmissions
      (buildManagedByKey (sortById (splitManaged targetEvents).1))
      (buildDesiredByKey desiredHolds) k),
      e ∈ (mapGet (buildManagedByKey (sortById (splitManaged targetEvents).1)) k).getD [] := by
    intro k e he
    obtain ⟨a, ha, hae⟩ := List.mem_filterMap.mp he
    obtain ⟨em, hem, rfl⟩ := List.mem_map.mp ha
    exact staleEmissions_target_mem _ _ k em hem e hae
  have hkeyB : ∀ k, ∀ e ∈
      (mapGet (buildManagedByKey (sortById (splitManaged targetEvents).1)) k).getD [],
      keyOf e = some k := fun k e h => (bucket_mem_key h).2
  have hTGdec := planEmissions_targets_decomp _ _ _ hes
  have hTG_key : ∀ e k0, keyOf e = some k0 →
      (e ∈ actionTargets (es.map emissionAction) ↔
        (k0 ∈ sortStrs (mapKeys (buildDesiredByKey desiredHolds)) ∧
          e ∈ emTargetsE (keyEmsOr (splitManaged targetEvents).2
            (buildManagedByKey (sortById (splitManaged targetEvents).1))
            (buildDesiredByKey desiredHolds) overlapPolicy k0)) ∨
        (k0 ∈ sortStrs (mapKeys (buildManagedByKey
            (sortById (splitManaged targetEvents).1))) ∧
          e ∈ emTargetsE (staleEmissions
            (buildManagedByKey (sortById (splitManaged targetEvents).1))
            (buildDesiredByKey desiredHolds) k0))) := by
    intro e k0 hk0
    rw [hTGdec]
    constructor
    · intro h
      rcases List.mem_append.mp h with h | h
      · obtain ⟨j, hj, hej⟩ := mem_concatMap h
        have hjb := hTg_bucket j hj e hej
        have hje := hkeyB j e hjb
        have hjk : j = k0 := Option.some.inj (hje.symm.trans hk0)
        subst hjk
        exact Or.inl ⟨hj, hej⟩
      · obtain ⟨j, hj, hej⟩ := mem_concatMap h
        have hjb := hTs_bucket j e hej
        have hje := hkeyB j e hjb
        have hjk : j = k0 := Option.some.inj (hje.symm.trans hk0)
        subst hjk
        exact Or.inr ⟨hj, hej⟩
    · intro h
      rcases h with ⟨hj, hej⟩ | ⟨hj, hej⟩
      · exact List.mem_append.mpr (Or.inl (mem_concatMap_of hj hej))
      · exact List.mem_append.mpr (Or.inr (mem_concatMap_of hj hej))
  have hTGnodup : (actionTargets (es.map emissionAction)).Nodup := by
    apply List.Nodup.of_map GogEvent.id
    rw [show actionTargets (es.map emissionAction) =
      (es.map emissionAction).filterMap actionTarget from rfl, targets_map_id]
    have hF2 : planFree desiredHolds targetEvents overlapPolicy =
        .ok (es.foldl (applyEmission freeMutate) initState) := by
      rw [planFree, planCore_emissions, hes]
      rfl
    have h1 := planFree_targets_nodup hids hF2
    have hfa : (es.foldl (applyEmission freeMutate) initState).actions =
        es.map emissionAction := by
      rw [fold_free_actions]
      rfl
    rw [hfa] at h1
    exact h1
  have hTG_te : ∀ t ∈ actionTargets (es.map emissionAction), t ∈ targetEvents := by
    intro t ht
    obtain ⟨a, ha, hat⟩ := List.mem_filterMap.mp ht
    obtain ⟨em, hem, rfl⟩ := List.mem_map.mp ha
    exact (planEmissions_target_mem _ _ _ hes em hem t hat).1
  obtain ⟨rest, hrest⟩ :=
    exists_perm_split _ targetEvents hTGnodup hte_nodup hTG_te
  have hnd_all : (actionTargets (es.map emissionAction) ++ rest).Nodup :=
    hrest.nodup_iff.mp hte_nodup
  rw [List.nodup_append] at hnd_all
  have hrest_nodup : rest.Nodup := hnd_all.2.1
  have htr : ∀ t ∈ actionTargets (es.map emissionAction), t ∉ rest :=
    fun t ht hr => hnd_all.2.2 ht hr
  have hmem_rest : ∀ e, e ∈ rest ↔
      e ∈ targetEvents ∧ e ∉ actionTargets (es.map emissionAction) := by
    intro e
    constructor
    · intro h
      refine ⟨hrest.mem_iff.mpr (List.mem_append.mpr (Or.inr h)), ?_⟩
      intro ht
      exact hnd_all.2.2 ht h
    · intro h
      rcases List.mem_append.mp (hrest.mem_iff.mp h.1) with h2 | h2
      · exact absurd h2 h.2
      · exact h2
  have hRS_dh : ∀ r ∈ actionResults (es.map emissionAction),
      ∃ d0 ∈ desiredHolds, r = d0.event := by
    intro r hr
    obtain ⟨a, ha, har⟩ := List.mem_filterMap.mp hr
    obtain ⟨em, hem, rfl⟩ := List.mem_map.mp ha
    exact planEmissions_result_mem _ _ _ hes em hem r har
  have htres : ∀ t ∈ actionTargets (es.map emissionAction),
      t ∉ actionResults (es.map emissionAction) := by
    intro t ht hres
    obtain ⟨d0, hd0, rfl⟩ := hRS_dh t hres
    exact hfresh d0 hd0 (hTG_te _ ht)
  have happly := applyPlan_perm (es.map emissionAction) targetEvents rest
    hTGnodup htr htres hrest
  have hRSdec := planEmissions_results_decomp _ _ _ hes
  have hwfkey : ∀ k d, mapGet (buildDesiredByKey desiredHolds) k = some d →
      keyOf d.event = some k := by
    intro k d hd
    rw [mapGet_buildDesired] at hd
    obtain ⟨hmem, hkk⟩ := desiredLast_some_mem _ _ hd
    rw [hwf d hmem, hkk]
  have hres_mem : ∀ j ∈ sortStrs (mapKeys (buildDesiredByKey desiredHolds)),
      ∀ d0, mapGet (buildDesiredByKey desiredHolds) j = some d0 →
      ∀ e ∈ emResultsE (keyEmsOr (splitManaged targetEvents).2
        (buildManagedByKey (sortById (splitManaged targetEvents).1))
        (buildDesiredByKey desiredHolds) overlapPolicy j), e = d0.event := by
    intro j hj d0 hd0 e he
    obtain ⟨esk, hesk⟩ := hall j hj
    rw [keyEmsOr_eq hesk] at he
    obtain ⟨a, ha, hae⟩ := List.mem_filterMap.mp he
    obtain ⟨em, hem, rfl⟩ := List.mem_map.mp ha
    obtain ⟨d1, hd1, he1⟩ := keyEmissions_result_mem _ _ _ _ _ hesk em hem e hae
    rw [hd0] at hd1
    exact he1.trans (congrArg DesiredHold.event (Option.some.inj hd1).symm)
  have hBperm : ∀ k, ((mapGet (buildManagedByKey (sortById (splitManaged
      (applyPlan targetEvents (es.map emissionAction))).1)) k).getD []).Perm
      ((rest.filter (fun e => keyOf e = some k)) ++
       ((actionResults (es.map emissionAction)).filter (fun e => keyOf e = some k))) := by
    intro k
    rw [bucket_eq]
    refine ((sortById_perm _).filter _).trans ?_
    rw [splitManaged_fst, filter_managed_key]
    refine (happly.filter _).trans ?_
    rw [List.filter_append]
  have hRS_filter_none : ∀ k, mapGet (buildDesiredByKey desiredHolds) k = none →
      (actionResults (es.map emissionAction)).filter (fun e => keyOf e = some k) = [] := by
    intro k hk
    rw [hRSdec, concatMap_filter]
    apply concatMap_eq_nil
    intro j hj
    apply filter_eq_nil_of
    intro e he
    obtain ⟨dj, hdj⟩ := hdks_get j hj
    have hej := hres_mem j hj dj hdj e he
    subst hej
    rw [decide_eq_false_iff_not]
    rw [hwfkey j dj hdj]
    intro hkk
    have : j = k := Option.some.inj hkk
    subst this
    rw [hk] at hdj
    simp at hdj
  have hRS_filter_some : ∀ k d, mapGet (buildDesiredByKey desiredHolds) k = some d →
      (actionResults (es.map emissionAction)).filter (fun e => keyOf e = some k) =
      emResultsE (keyEmsOr (splitManaged targetEvents).2
        (buildManagedByKey (sortById (splitManaged targetEvents).1))
        (buildDesiredByKey desiredHolds) overlapPolicy k) := by
    intro k d hd
    rw [hRSdec, concatMap_filter]
    rw [concatMap_eq_single _ k hdksnd (hk_in k d hd) ?side]
    case side =>
      intro j hj hne
      apply filter_eq_nil_of
      intro e he
      obtain ⟨dj, hdj⟩ := hdks_get j hj
      have hej := hres_mem j hj dj hdj e he
      subst hej
      rw [decide_eq_false_iff_not, hwfkey j dj hdj]
      intro hkk
      exact hne (Option.some.inj hkk)
    apply filter_all_of
    intro e he
    have hej := hres_mem k (hk_in k d hd) d hd e he
    subst hej
    simp [hwfkey k d hd]
  have hrest_f_none : ∀ k, mapGet (buildDesiredByKey desiredHolds) k = none →
      rest.filter (fun e => keyOf e = some k) = [] := by
    intro k hk
    apply filter_eq_nil_of
    intro e he
    rw [decide_eq_false_iff_not]
    intro hkey
    obtain ⟨hte, hnt⟩ := (hmem_rest e).mp he
    have heB : e ∈ (mapGet (buildManagedByKey
        (sortById (splitManaged targetEvents).1)) k).getD [] :=
      mem_bucket_iff.mpr ⟨hte, hkey⟩
    have hkm : k ∈ mapKeys (buildManagedByKey (sortById (splitManaged targetEvents).1)) := by
      rw [buildManaged_mem_keys_iff]
      rw [← bucket_eq]
      exact List.ne_nil_of_mem heB
    apply hnt
    refine (hTG_key e k hkey).mpr (Or.inr ⟨(sortStrs_perm _).mem_iff.mpr hkm, ?_⟩)
    rw [staleEmissions_emTargets _ _ k (by simp [hk])]
    exact heB
  refine ⟨?_, ?_⟩
  · intro k d hd
    have hk := hk_in k d hd
    have hstale_nil : emTargetsE (staleEmissions
        (buildManagedByKey (sortById (splitManaged targetEvents).1))
        (buildDesiredByKey desiredHolds) k) = [] := by
      rw [staleEmissions_empty_of_desired (by simp [hd])]
      rfl
    rcases hTgD k hk d hd with ⟨hbk, htk, hrk⟩ | ⟨p, dups, hbk, heq, htk, hrk⟩ |
      ⟨p, dups, hbk, heq, htk, hrk⟩
    · refine ⟨d.event, ?_, isEquivalent_refl _⟩
      have h1 := hBperm k
      have h2 : rest.filter (fun e => keyOf e = some k) = [] := by
        apply filter_eq_nil_of
        intro e he
        rw [decide_eq_false_iff_not]
        intro hkey
        obtain ⟨hte, _⟩ := (hmem_rest e).mp he
        have heB := mem_bucket_iff.mpr ⟨hte, hkey⟩
        rw [hbk] at heB
        simp at heB
      rw [h2, hRS_filter_some k d hd, hrk, List.nil_append] at h1
      exact List.perm_singleton.mp h1
    · refine ⟨p, ?_, heq⟩
      have h1 := hBperm k
      have hBnodup := bucket_nodup_ev hids k
      rw [hbk, List.nodup_cons] at hBnodup
      have hmemf : ∀ e, e ∈ rest.filter (fun e => keyOf e = some k) ↔ e = p := by
        intro e
        rw [List.mem_filter]
        constructor
        · intro h2
          have hkey : keyOf e = some k := by simpa using h2.2
          obtain ⟨hte, hnt⟩ := (hmem_rest e).mp h2.1
          have heB := mem_bucket_iff.mpr ⟨hte, hkey⟩
          rw [hbk] at heB
          rcases List.mem_cons.mp heB with h4 | h4
          · exact h4
          · exact absurd ((hTG_key e k hkey).mpr (Or.inl ⟨hk, by rw [htk]; exact h4⟩)) hnt
        · intro he
          subst he
          have hpB : e ∈ (mapGet (buildManagedByKey
              (sortById (splitManaged targetEvents).1)) k).getD [] := by
            rw [hbk]
            simp
          have hpte := (mem_bucket_iff.mp hpB).1
          have hpkey := (mem_bucket_iff.mp hpB).2
          refine ⟨(hmem_rest e).mpr ⟨hpte, ?_⟩, by simp [hpkey]⟩
          intro hpt
          rcases (hTG_key e k hpkey).mp hpt with ⟨_, h5⟩ | ⟨_, h5⟩
          · rw [htk] at h5
            exact hBnodup.1 h5
          · rw [hstale_nil] at h5
            simp at h5
      have hfn : (rest.filter (fun e => keyOf e = some k)).Perm [p] := by
        apply (List.perm_ext_iff_of_nodup (hrest_nodup.filter _) (by simp)).mpr
        intro a
        rw [hmemf a]
        simp
      rw [hRS_filter_some k d hd, hrk, List.append_nil] at h1
      exact List.perm_singleton.mp (h1.trans hfn)
    · refine ⟨d.event, ?_, isEquivalent_refl _⟩
      have h1 := hBperm k
      have h2 : rest.filter (fun e => keyOf e = some k) = [] := by
        apply filter_eq_nil_of
        intro e he
        rw [decide_eq_false_iff_not]
        intro hkey
        obtain ⟨hte, hnt⟩ := (hmem_rest e).mp he
        have heB := mem_bucket_iff.mpr ⟨hte, hkey⟩
        apply hnt
        refine (hTG_key e k hkey).mpr (Or.inl ⟨hk, ?_⟩)
        rw [htk, ← hbk]
        exact heB
      rw [h2, hRS_filter_some k d hd, hrk, List.nil_append] at h1
      exact List.perm_singleton.mp h1
  · intro k hk
    have h1 := hBperm k
    rw [hrest_f_none k hk, hRS_filter_none k hk] at h1
    exact List.perm_nil.mp h1

/-- C1, amended: planning is idempotent for well-formed runs. If the plan was
returned without capping, contains no skip_overlap action, every desired
hold's event carries a description tag that decodes back to its own key,
target event ids are pairwise distinct, and desired events are not already
present verbatim among the targets, then replanning over the target list with
the plan's effects applied (creates appended, updates replaced by the desired
event, deletes removed — the claim's wording, transcribed by applyPlan)
returns a plan with an empty action list. The counterexample shows the
unqualified sentence is false: a desired hold whose event lacks a decodable
tag is re-created on every run. -/
theorem claim_C1 (desiredHolds : List DesiredHold) (targetEvents : List GogEvent)
    (overlapPolicy : OverlapPolicy) (N : Nat) (plan : ReconcilePlan)
    (hok : planReconcile desiredHolds targetEvents overlapPolicy N = .ok plan)
    (hcap : plan.capped = false)
    (hskip : ∀ a ∈ plan.actions, isMutating a = true)
    (hwf : ∀ d ∈ desiredHolds, keyOf d.event = some (holdKey d.source))
    (hids : (targetEvents.map GogEvent.id).Nodup)
    (hfresh : ∀ d ∈ desiredHolds, d.event ∉ targetEvents) :
    ∃ plan2, planReconcile desiredHolds (applyPlan targetEvents plan.actions)
      overlapPolicy N = .ok plan2 ∧ plan2.actions = [] := by
  rw [planReconcile_capGo] at hok
  cases hF : planFree desiredHolds targetEvents overlapPolicy with
  | error e => rw [hF] at hok; simp [Except.map] at hok
  | ok sF =>
    rw [hF] at hok
    simp only [Except.map, Except.ok.injEq] at hok
    subst hok
    have hle : mutCount sF.actions ≤ N := by
      simp at hcap
      omega
    have hacts : capGo N sF.actions = sF.actions := capGo_of_le _ _ hle
    obtain ⟨es, hes, hactions⟩ := planFree_actions hF
    have hskip2 : ∀ a ∈ es.map emissionAction, isMutating a = true := by
      intro a ha
      apply hskip
      show a ∈ capGo N sF.actions
      rw [hacts, hactions]
      exact ha
    show ∃ plan2, planReconcile desiredHolds
      (applyPlan targetEvents (capGo N sF.actions)) overlapPolicy N = .ok plan2 ∧
      plan2.actions = []
    rw [hacts, hactions]
    obtain ⟨hB1, hB2⟩ := applyPlan_converged desiredHolds targetEvents overlapPolicy
      hes hskip2 hwf hids hfresh
    have hrep_key : ∀ k ∈ sortStrs (mapKeys (buildDesiredByKey desiredHolds)),
        keyEmissions (splitManaged (applyPlan targetEvents (es.map emissionAction))).2
          (buildManagedByKey (sortById (splitManaged
            (applyPlan targetEvents (es.map emissionAction))).1))
          (buildDesiredByKey desiredHolds) overlapPolicy k = .ok [] := by
      intro k hk
      have hm := (sortStrs_perm _).mem_iff.mp hk
      cases hg : mapGet (buildDesiredByKey desiredHolds) k with
      | none => exact absurd hm ((mapGet_eq_none_iff _ _).mp hg)
      | some d =>
        obtain ⟨w, hw, hequiv⟩ := hB1 k d hg
        unfold keyEmissions
        rw [hg, hw]
        dsimp only
        simp [hequiv]
    have hrep_stale : ∀ k ∈ sortStrs (mapKeys (buildManagedByKey (sortById (splitManaged
        (applyPlan targetEvents (es.map emissionAction))).1))),
        staleEmissions (buildManagedByKey (sortById (splitManaged
          (applyPlan targetEvents (es.map emissionAction))).1))
          (buildDesiredByKey desiredHolds) k = [] := by
      intro k hk
      have hkm := (sortStrs_perm _).mem_iff.mp hk
      rw [buildManaged_mem_keys_iff] at hkm
      cases hg : mapGet (buildDesiredByKey desiredHolds) k with
      | none =>
        exfalso
        apply hkm
        rw [← bucket_eq]
        exact hB2 k hg
      | some d => exact staleEmissions_empty_of_desired (by simp [hg])
    have hpe2 : planEmissions desiredHolds
        (applyPlan targetEvents (es.map emissionAction)) overlapPolicy = .ok [] := by
      simp only [planEmissions]
      rw [mapME_const_nil hrep_key]
      have hc1 : concatMap (fun es => es)
          ((sortStrs (mapKeys (buildDesiredByKey desiredHolds))).map
            (fun _ => ([] : List Emission))) = [] := by
        apply concatMap_eq_nil
        intro l hl
        obtain ⟨j, _, rfl⟩ := List.mem_map.mp hl
        rfl
      have hc2 : concatMap (staleEmissions (buildManagedByKey (sortById (splitManaged
          (applyPlan targetEvents (es.map emissionAction))).1))
          (buildDesiredByKey desiredHolds))
          (sortStrs (mapKeys (buildManagedByKey (sortById (splitManaged
            (applyPlan targetEvents (es.map emissionAction))).1)))) = [] :=
        concatMap_eq_nil hrep_stale
      simp only [Except.map]
      rw [hc1, hc2]
      rfl
    have hpf2 : planFree desiredHolds (applyPlan targetEvents (es.map emissionAction))
        overlapPolicy = .ok initState := by
      rw [planFree, planCore_emissions, hpe2]
      rfl
    refine ⟨{ actions := capGo N initState.actions,
              desiredCount := desiredHolds.length,
              existingManagedCount := (splitManaged
                (applyPlan targetEvents (es.map emissionAction))).1.length,
              capped := decide (N < mutCount initState.actions) }, ?_, rfl⟩
    rw [planReconcile_capGo, hpf2]
    rfl

set_option maxHeartbeats 4000000 in
theorem claim_C1_witness :
    (planReconcile [dHold] [dM1, dM2] OverlapPolicy.allow 5 = .ok dPlan ∧
     dPlan.capped = false ∧
     (∀ a ∈ dPlan.actions, isMutating a = true) ∧
     (∀ d ∈ [dHold], keyOf d.event = some (holdKey d.source)) ∧
     ([dM1, dM2].map GogEvent.id).Nodup ∧
     (∀ d ∈ [dHold], d.event ∉ [dM1, dM2])) ∧
    (∃ plan2, planReconcile [dHold] (applyPlan [dM1, dM2] dPlan.actions)
      OverlapPolicy.allow 5 = .ok plan2 ∧ plan2.actions = []) :=
  ⟨⟨by decide, by decide, by decide, by decide, by decide, by decide⟩,
   claim_C1 [dHold] [dM1, dM2] OverlapPolicy.allow 5 dPlan (by decide) (by decide)
     (by decide) (by decide) (by decide) (by decide)⟩

def gHoldEvent : GogEvent :=
  { id := "g", start := { dateTime := some "2026-03-01T10:00:00.000Z" },
    «end» := { dateTime := some "2026-03-01T11:00:00.000Z" } }

def gHold : DesiredHold := { source := wRef "g", event := gHoldEvent }

def gPlan : ReconcilePlan :=
  { actions := [.create gHold], desiredCount := 1, existingManagedCount := 0,
    capped := false }

set_option maxHeartbeats 4000000 in
theorem claim_C1_cex :
    planReconcile [gHold] [] OverlapPolicy.allow 5 = .ok gPlan ∧
    applyPlan [] gPlan.actions = [gHoldEvent] ∧
    planActionsOf (planReconcile [gHold] [gHoldEvent] OverlapPolicy.allow 5) ≠ some [] :=
  ⟨by decide, by decide, by decide⟩
